import Mathlib

/-!
Verification of the graph/pathfinding subsystem of an algorithm-visualizer.

The Python source seeds the process-wide `random` generator at the start of
each generator call (`random.seed(42)` in `_generate_grid`,
`random.seed(level)` in `_generate_weighted_graph`) and then draws shuffles,
`randint`s and `sample`s from it.  Following the design note of the spec
("re-architect as an explicitly constructed, locally-owned RNG instance
threaded as a parameter into each generator call"), the embedding threads an
explicit RNG model `Rng` through every definition: a state type, a `seed`
operation, and the four drawing operations the source uses.  `RngOk` states
exactly the guarantees Python's `random` provides for these operations
(shuffles permute, `randint a b ∈ [a,b]`, `sample l k` is a length-`k`
duplicate-free selection from `l`).  Theorems about "every generated
topology" quantify over all models satisfying `RngOk`; concrete witnesses
instantiate the model.
-/

/-- A grid cell `(row, col)`, and also a layered-graph node `(layer, index)`. -/
abbrev Cell := Nat × Nat

/-- A 2D grid: `0` = open, `1` = wall (as in the Python lists of ints). -/
abbrev Grid := List (List Nat)

/-- A weighted edge `(u, v, weight)`. -/
abbrev WEdge := Cell × Cell × Nat

/-- Adjacency map, an association list in key-insertion order
(NodeCell ↦ list of `(neighbor, weight)` in append order), mirroring the
Python `dict` of lists. -/
abbrev AdjList := List (Cell × List (Cell × Nat))

/-- The RNG model: state plus the operations of Python's `random` that the
two generators use.  `seed n` is `random.seed(n)`. -/
structure Rng where
  State : Type
  seed : Nat → State
  shuffleDirs : List (Int × Int) → State → List (Int × Int) × State
  shuffleCells : List Cell → State → List Cell × State
  randint : Nat → Nat → State → Nat × State
  sample : List Cell → Nat → State → List Cell × State

/-- The behaviour Python's `random` guarantees for the operations used:
shuffles permute their input, `randint a b` lands in `[a, b]`, and
`sample l k` (for a duplicate-free population) returns `k` distinct
elements of `l`. -/
structure RngOk (R : Rng) : Prop where
  shuffleDirs_perm : ∀ l s, ((R.shuffleDirs l s).1).Perm l
  shuffleCells_perm : ∀ l s, ((R.shuffleCells l s).1).Perm l
  randint_ge : ∀ a b s, a ≤ b → a ≤ (R.randint a b s).1
  randint_le : ∀ a b s, a ≤ b → (R.randint a b s).1 ≤ b
  sample_length : ∀ l k s, k ≤ l.length → ((R.sample l k s).1).length = k
  sample_subset : ∀ l k s, ∀ x ∈ (R.sample l k s).1, x ∈ l
  sample_nodup : ∀ l k s, l.Nodup → ((R.sample l k s).1).Nodup

/-- A trivial RNG model: `randint` returns the lower bound, `sample` takes a
proper selection from the front, shuffles do nothing. -/
def idRng : Rng where
  State := Unit
  seed := fun _ => ()
  shuffleDirs := fun l s => (l, s)
  shuffleCells := fun l s => (l, s)
  randint := fun a _ s => (a, s)
  sample := fun l k s => (l.take k, s)

/-- An RNG model driven by a fixed stream of numbers: the `n`-th draw of
`randint a b` returns the `n`-th stream element clamped into `[a, b]`.
`seed` resets the draw counter, like reseeding the global generator. -/
def streamRng (stream : List Nat) : Rng where
  State := Nat
  seed := fun _ => 0
  shuffleDirs := fun l s => (l, s + 1)
  shuffleCells := fun l s => (l, s + 1)
  randint := fun a b s => (max a (min b (stream.getD s b)), s + 1)
  sample := fun l k s => (l.take k, s + 1)

/-- Association-list lookup (Python `d[k]` / `d.get(k)`). -/
def alook {α β : Type} [DecidableEq α] : List (α × β) → α → Option β
  | [], _ => none
  | (a, b) :: t, x => if a = x then some b else alook t x

/-- Association-list update of an existing key (Python `d[k] = v`). -/
def aset {α β : Type} [DecidableEq α] (l : List (α × β)) (x : α) (v : β) :
    List (α × β) :=
  l.map (fun p => if p.1 = x then (p.1, v) else p)

/-- Look a key up in an adjacency map (Python `adj_list.get(node, [])`). -/
def adjGet (a : AdjList) (k : Cell) : List (Cell × Nat) := (alook a k).getD []

/-- `adj_list[k].append(v)` for a pre-seeded key. -/
def adjApp (a : AdjList) (k : Cell) (v : Cell × Nat) : AdjList :=
  a.map (fun p => if p.1 = k then (p.1, p.2 ++ [v]) else p)

/-- Output of `_generate_weighted_graph` (the `node_scale` float, which is
pure rendering data and appears in no claim, is not modelled). -/
structure WGraph where
  nodes : List Cell
  edges : List WEdge
  adj : AdjList
  start : Cell
  goal : Cell
deriving DecidableEq, Repr

/-- The interior-layer loop of `_generate_weighted_graph`:
`for layer_id in range(1, num_layers - 1): num = random.randint(3, 5); ...`
building each interior layer's node list `[(layer_id, 0), ...]`. -/
def buildInterior (R : Rng) : Nat → Nat → R.State → List (List Cell) × R.State
  | _, 0, s => ([], s)
  | lid, n + 1, s =>
    let p := R.randint 3 5 s
    let layer := (List.range p.1).map (fun i => (lid, i))
    let rest := buildInterior R (lid + 1) n p.2
    (layer :: rest.1, rest.2)

/-- The interior-to-interior target sampling: for each node of the current
layer, `num_connections = randint(lower, upper) if upper > 0 else 0` then
`random.sample(next_layer, num_connections)`. -/
def samplePerNode (R : Rng) (minc maxc : Nat) (next : List Cell) :
    List Cell → R.State → List (Cell × List Cell) × R.State
  | [], s => ([], s)
  | n :: rest, s =>
    let upper := min maxc next.length
    let lower := min minc upper
    let pNum := if 0 < upper then R.randint lower upper s else (0, s)
    let pT := R.sample next pNum.1 pNum.2
    let pRest := samplePerNode R minc maxc next rest pT.2
    ((n, pT.1) :: pRest.1, pRest.2)

/-- The inner edge loop `for target in targets`: skip when the directed edge
is already present in `edges`, otherwise draw a weight in `[1, 10]`, append
the edge, and mirror it into the adjacency map in both directions. -/
def addEdgesForNode (R : Rng) (node : Cell) :
    List Cell → List WEdge → AdjList → R.State → List WEdge × AdjList × R.State
  | [], es, aj, s => (es, aj, s)
  | t :: ts, es, aj, s =>
    if es.any (fun e => e.1 == node && e.2.1 == t) then
      addEdgesForNode R node ts es aj s
    else
      let pW := R.randint 1 10 s
      addEdgesForNode R node ts (es ++ [(node, t, pW.1)])
        (adjApp (adjApp aj node (t, pW.1)) t (node, pW.1)) pW.2

/-- The outer edge loop `for node, targets in targets_per_node.items()`. -/
def addEdgesForPairs (R : Rng) :
    List (Cell × List Cell) → List WEdge → AdjList → R.State →
    List WEdge × AdjList × R.State
  | [], es, aj, s => (es, aj, s)
  | (n, ts) :: rest, es, aj, s =>
    let p := addEdgesForNode R n ts es aj s
    addEdgesForPairs R rest p.1 p.2.1 p.2.2

/-- The `targets_per_node` construction for one layer pair: full fan-out
from the start layer (`layer_idx == 0`), full fan-in into the goal layer
(`layer_idx == len(layers) - 2`), sampled targets between interior layers
(denser when fewer than 7 layers). -/
def pairsAt (R : Rng) (layers : List (List Cell)) (idx : Nat) (s : R.State) :
    List (Cell × List Cell) × R.State :=
  let current := layers.getD idx []
  let next := layers.getD (idx + 1) []
  if idx = 0 then (current.map (fun n => (n, next)), s)
  else if idx = layers.length - 2 then (current.map (fun n => (n, next)), s)
  else
    let dense := layers.length < 7
    samplePerNode R (if dense then 2 else 1) (if dense then 3 else 2)
      next current s

/-- The layer-connection loop `for layer_idx in range(len(layers) - 1)`. -/
def connectAll (R : Rng) (layers : List (List Cell)) :
    List Nat → List WEdge × AdjList × R.State → List WEdge × AdjList × R.State
  | [], acc => acc
  | idx :: idxs, (es, aj, s) =>
    let pT := pairsAt R layers idx s
    let p := addEdgesForPairs R pT.1 es aj pT.2
    connectAll R layers idxs p

/-- `level = arr[0] if arr and arr[0] > 0 else 4`. -/
def levelOf (arr : List Int) : Int :=
  match arr with
  | [] => 4
  | a :: _ => if 0 < a then a else 4

/-- `num_layers = max(3, min(int(level), 10))`. -/
def numLayersOf (arr : List Int) : Nat := max 3 (min (levelOf arr).toNat 10)

/-- The interior layers built after `random.seed(level)`. -/
def interiorOf (R : Rng) (arr : List Int) : List (List Cell) :=
  (buildInterior R 1 (numLayersOf arr - 2) (R.seed (levelOf arr).toNat)).1

/-- The RNG state left after building the interior layers. -/
def interiorStateOf (R : Rng) (arr : List Int) : R.State :=
  (buildInterior R 1 (numLayersOf arr - 2) (R.seed (levelOf arr).toNat)).2

/-- The `layers` list: `[[start]] ++ interior ++ [[goal]]`. -/
def layersOf (R : Rng) (arr : List Int) : List (List Cell) :=
  [((0, 0) : Cell)] :: interiorOf R arr ++ [[((numLayersOf arr - 1, 0) : Cell)]]

/-- The `nodes` list, in creation order: start, interior nodes, goal. -/
def nodesOf (R : Rng) (arr : List Int) : List Cell :=
  ((0, 0) : Cell) :: (interiorOf R arr).flatten ++
    [((numLayersOf arr - 1, 0) : Cell)]

/-- `_generate_weighted_graph(arr)` from `dijkstra_weighted.py` (also used,
by import, by `astar_weighted.py`): seeds the RNG with the level value
(`random.seed(level)` — the incoming global state `g0` is discarded),
builds the layered node structure and the layer-crossing weighted edges. -/
def genWeighted (R : Rng) (g0 : R.State) (arr : List Int) : WGraph :=
  let layers := layersOf R arr
  let nodes := nodesOf R arr
  let adj0 : AdjList := nodes.map (fun n => (n, []))
  let p := connectAll R layers (List.range (layers.length - 1))
    ([], adj0, interiorStateOf R arr)
  { nodes := nodes, edges := p.1, adj := p.2.1, start := (0, 0),
    goal := (numLayersOf arr - 1, 0) }

example :
    (genWeighted (streamRng [3, 1, 1, 10, 2, 1, 10]) (0 : Nat) [3]).edges =
      [((0,0), (1,0), 1), ((0,0), (1,1), 1), ((0,0), (1,2), 10),
       ((1,0), (2,0), 2), ((1,1), (2,0), 1), ((1,2), (2,0), 10)] := by
  rfl

/-! ### The weighted shortest-path engines (`dijkstra_weighted`, `astar_weighted`)

Python's `float('inf')` distances are modelled as `WithTop Nat`; all finite
values in the source are non-negative integers.  The `heapq` priority queue
is modelled as a list from which `popMin` removes the least entry in the
lexicographic `(priority, node)` order that Python's tuple comparison gives;
entries that compare equal are identical tuples, so which of them `heapq`
returns is unobservable.  Steps keep the fields the claims are about
(`action`, `visited`, `current`, `path`, `stats`); the constant topology
fields and the formatted `description` strings are not modelled. -/

/-- `float('inf')`-capable distances. -/
abbrev NatInf := WithTop Nat

/-- `int(d)` applied to a (in the source always finite) distance. -/
def natOf (d : NatInf) : Nat := d.untop' 0

/-- Python tuple order on cells. -/
def cellLtB (a b : Cell) : Bool := a.1 < b.1 || (a.1 == b.1 && a.2 < b.2)

/-- Python tuple order on `(priority, node)` heap entries. -/
def entryLtB (a b : NatInf × Cell) : Bool :=
  decide (a.1 < b.1) || (a.1 == b.1 && cellLtB a.2 b.2)

/-- Remove a least entry from the queue (what `heapq.heappop` returns). -/
def popMin : List (NatInf × Cell) → Option ((NatInf × Cell) × List (NatInf × Cell))
  | [] => none
  | e :: rest =>
    match popMin rest with
    | none => some (e, [])
    | some (m, rest') => if entryLtB m e then some (m, e :: rest') else some (e, rest)

/-- The `stats` dictionary of a step. -/
structure WStats where
  nodesVisited : Nat
  pathLength : Nat
  steps : Nat
  totalCost : Nat
deriving DecidableEq, Repr

/-- One emitted visualization step (the claim-relevant fields). -/
structure WStep where
  action : String
  visited : List Cell
  current : Option Cell
  path : List Cell
  stats : WStats
deriving DecidableEq, Repr

/-- Distance map lookup (`distances[x]`; keys are pre-seeded with `inf`). -/
def dget (d : List (Cell × NatInf)) (x : Cell) : NatInf := (d.lookup x).getD ⊤

/-- Distance map update for a pre-seeded key. -/
def dset (d : List (Cell × NatInf)) (x : Cell) (v : NatInf) : List (Cell × NatInf) :=
  d.map (fun p => if p.1 == x then (p.1, v) else p)

/-- The parent-pointer walk of the path reconstruction
(`while node in parent: path.append(node); node = parent[node]`). -/
def reconGo (parent : List (Cell × Cell)) : Nat → Cell → List Cell → List Cell
  | 0, _, acc => acc
  | fuel + 1, node, acc =>
    match parent.lookup node with
    | some p => reconGo parent fuel p (acc ++ [node])
    | none => acc

/-- Full path reconstruction: walk parents from `goal`, append `start`,
reverse. -/
def reconstruct (parent : List (Cell × Cell)) (start goal : Cell) (fuel : Nat) :
    List Cell :=
  (reconGo parent fuel goal [] ++ [start]).reverse

/-- `_heuristic(node, goal, nodes)` of `astar_weighted.py`: three times the
layer distance (nodes here are always `(layer, index)` pairs). -/
def heuristicW (node goal : Cell) (nodes : List Cell) : Nat :=
  let _ := nodes
  ((goal.1 : Int) - (node.1 : Int)).natAbs * 3

/-- The neighbor-relaxation loop of `dijkstra_weighted`: emits
`compute`/`relax`/`check_better` per unvisited neighbor and
`compare_update`/`push_queue` when the tentative distance improves. -/
def dijkstraNbrs (visited : List Cell) (current : Cell) (step : Nat) :
    List (Cell × Nat) → List (Cell × NatInf) → List (NatInf × Cell) →
    List (Cell × Cell) →
    List WStep × List (Cell × NatInf) × List (NatInf × Cell) × List (Cell × Cell)
  | [], dist, pq, parent => ([], dist, pq, parent)
  | (nbr, w) :: rest, dist, pq, parent =>
    if visited.contains nbr then
      dijkstraNbrs visited current step rest dist pq parent
    else
      let newDist : NatInf := dget dist current + (w : NatInf)
      let st0 : WStats := ⟨visited.length, 0, step, 0⟩
      let pre : List WStep :=
        [⟨"compute", visited, some current, [], st0⟩,
         ⟨"relax", visited, some current, [], st0⟩,
         ⟨"check_better", visited, some current, [], st0⟩]
      if newDist < dget dist nbr then
        let dist' := dset dist nbr newDist
        let parent' := (parent.filter (fun p => p.1 ≠ nbr)) ++ [(nbr, current)]
        let pq' := pq ++ [(newDist, nbr)]
        let out := dijkstraNbrs visited current step rest dist' pq' parent'
        (pre ++ [⟨"compare_update", visited, some current, [], st0⟩,
                 ⟨"push_queue", visited, some current, [], st0⟩] ++ out.1,
         out.2)
      else
        let out := dijkstraNbrs visited current step rest dist pq parent
        (pre ++ out.1, out.2)

/-- The `while pq:` loop of `dijkstra_weighted` (fuel-indexed; every claim
evaluation finishes long before the fuel runs out). -/
def dijkstraLoop (adj : AdjList) (start goal : Cell) : Nat →
    List (Cell × NatInf) → List (NatInf × Cell) → List Cell →
    List (Cell × Cell) → Nat → Nat → List WStep
  | 0, _, _, visited, _, step, _ =>
    [⟨"done", visited, none, [], ⟨visited.length, 0, step, 0⟩⟩]
  | fuel + 1, dist, pq, visited, parent, step, reconFuel =>
    match popMin pq with
    | none =>
      [⟨"done", visited, none, [], ⟨visited.length, 0, step, 0⟩⟩]
    | some ((currentDist, current), pq') =>
      let stP : WStats := ⟨visited.length, 0, step, natOf currentDist⟩
      let pre : List WStep :=
        [⟨"loop", visited, none, [], ⟨visited.length, 0, step, 0⟩⟩,
         ⟨"pop", visited, some current, [], stP⟩,
         ⟨"check_visit", visited, some current, [], stP⟩]
      if visited.contains current then
        pre ++ [⟨"skip_visited", visited, some current, [], stP⟩] ++
          dijkstraLoop adj start goal fuel dist pq' visited parent step reconFuel
      else
        let pre2 := pre ++ [⟨"check_goal", visited, some current, [], stP⟩]
        if current == goal then
          let path := reconstruct parent start goal reconFuel
          let dg := natOf (dget dist goal)
          pre2 ++ [⟨"done", visited, some goal, path,
                    ⟨visited.length, dg, step, dg⟩⟩]
        else
          let visited' := visited ++ [current]
          let step' := step + 1
          let stV : WStats := ⟨visited'.length, 0, step', natOf currentDist⟩
          let nb := dijkstraNbrs visited' current step'
            (adjGet adj current) dist pq' parent
          pre2 ++
            [⟨"visit", visited', some current, [], stV⟩,
             ⟨"neighbors", visited', some current, [], ⟨visited'.length, 0, step', 0⟩⟩] ++
            nb.1 ++
            dijkstraLoop adj start goal fuel nb.2.1 nb.2.2.1 visited' nb.2.2.2
              step' reconFuel

/-- `dijkstra_weighted(arr)`: generate the graph, seed the distances and the
queue, and run the loop, emitting the step sequence. -/
def dijkstraWeighted (R : Rng) (g0 : R.State) (arr : List Int) : List WStep :=
  if arr = [] then []
  else
    let G := genWeighted R g0 arr
    if G.nodes = [] then []
    else
      let dist0 := (G.nodes.map (fun n => (n, (⊤ : NatInf)))).map
        (fun p => if p.1 == G.start then (p.1, (0 : NatInf)) else p)
      let startStep : WStep := ⟨"start", [], none, [], ⟨0, 0, 0, 0⟩⟩
      startStep ::
        dijkstraLoop G.adj G.start G.goal (4 * (G.nodes.length + G.edges.length + 1) ^ 2)
          dist0 [((0 : NatInf), G.start)] [] [] 0 (G.nodes.length + 1)

/-- The neighbor loop of `astar_weighted`: like Dijkstra's on `g_score`, but
pushes `g + h` and also maintains `f_score`. -/
def astarNbrs (visited : List Cell) (current : Cell) (step : Nat)
    (goal : Cell) (nodes : List Cell) :
    List (Cell × Nat) → List (Cell × NatInf) → List (Cell × NatInf) →
    List (NatInf × Cell) → List (Cell × Cell) →
    List WStep × List (Cell × NatInf) × List (Cell × NatInf) ×
      List (NatInf × Cell) × List (Cell × Cell)
  | [], g, f, pq, parent => ([], g, f, pq, parent)
  | (nbr, w) :: rest, g, f, pq, parent =>
    if visited.contains nbr then
      astarNbrs visited current step goal nodes rest g f pq parent
    else
      let tentative : NatInf := dget g current + (w : NatInf)
      let st0 : WStats := ⟨visited.length, 0, step, 0⟩
      let pre : List WStep :=
        [⟨"compute", visited, some current, [], st0⟩,
         ⟨"relax", visited, some current, [], st0⟩,
         ⟨"check_better", visited, some current, [], st0⟩]
      if tentative < dget g nbr then
        let g' := dset g nbr tentative
        let h : Nat := heuristicW nbr goal nodes
        let fval : NatInf := tentative + (h : NatInf)
        let f' := dset f nbr fval
        let parent' := (parent.filter (fun p => p.1 ≠ nbr)) ++ [(nbr, current)]
        let pq' := pq ++ [(fval, nbr)]
        let out := astarNbrs visited current step goal nodes rest g' f' pq' parent'
        (pre ++ [⟨"compare_update", visited, some current, [], st0⟩,
                 ⟨"update_scores", visited, some current, [], st0⟩,
                 ⟨"push_queue", visited, some current, [], st0⟩] ++ out.1,
         out.2)
      else
        let out := astarNbrs visited current step goal nodes rest g f pq parent
        (pre ++ out.1, out.2)

/-- The `while pq:` loop of `astar_weighted` (fuel-indexed). -/
def astarLoop (adj : AdjList) (start goal : Cell) (nodes : List Cell) : Nat →
    List (Cell × NatInf) → List (Cell × NatInf) → List (NatInf × Cell) →
    List Cell → List (Cell × Cell) → Nat → Nat → List WStep
  | 0, _, _, _, visited, _, step, _ =>
    [⟨"done", visited, none, [], ⟨visited.length, 0, step, 0⟩⟩]
  | fuel + 1, g, f, pq, visited, parent, step, reconFuel =>
    match popMin pq with
    | none =>
      [⟨"done", visited, none, [], ⟨visited.length, 0, step, 0⟩⟩]
    | some ((_, current), pq') =>
      let st0 : WStats := ⟨visited.length, 0, step, 0⟩
      let pre : List WStep :=
        [⟨"loop", visited, none, [], st0⟩,
         ⟨"pop", visited, some current, [], st0⟩,
         ⟨"check_visit", visited, some current, [], st0⟩]
      if visited.contains current then
        pre ++ [⟨"skip_visited", visited, some current, [], st0⟩] ++
          astarLoop adj start goal nodes fuel g f pq' visited parent step reconFuel
      else
        let pre2 := pre ++ [⟨"check_goal", visited, some current, [], st0⟩]
        if current == goal then
          let path := reconstruct parent start goal reconFuel
          let gg := natOf (dget g goal)
          pre2 ++ [⟨"done", visited, some goal, path,
                    ⟨visited.length, gg, step, gg⟩⟩]
        else
          let visited' := visited ++ [current]
          let step' := step + 1
          let gv := natOf (dget g current)
          let nb := astarNbrs visited' current step' goal nodes
            (adjGet adj current) g f pq' parent
          pre2 ++
            [⟨"visit", visited', some current, [], ⟨visited'.length, 0, step', gv⟩⟩,
             ⟨"neighbors", visited', some current, [], ⟨visited'.length, 0, step', 0⟩⟩] ++
            nb.1 ++
            astarLoop adj start goal nodes fuel nb.2.1 nb.2.2.1 nb.2.2.2.1 visited'
              nb.2.2.2.2 step' reconFuel

/-- `astar_weighted(arr)`: same topology as Dijkstra (it imports
`_generate_weighted_graph` from `dijkstra_weighted`), priorities `g + h`. -/
def astarWeighted (R : Rng) (g0 : R.State) (arr : List Int) : List WStep :=
  if arr = [] then []
  else
    let G := genWeighted R g0 arr
    if G.nodes = [] then []
    else
      let g0s := (G.nodes.map (fun n => (n, (⊤ : NatInf)))).map
        (fun p => if p.1 == G.start then (p.1, (0 : NatInf)) else p)
      let h0 : Nat := heuristicW G.start G.goal G.nodes
      let f0s := (G.nodes.map (fun n => (n, (⊤ : NatInf)))).map
        (fun p => if p.1 == G.start then (p.1, ((h0 : NatInf))) else p)
      let startStep : WStep := ⟨"start", [], none, [], ⟨0, 0, 0, 0⟩⟩
      startStep ::
        astarLoop G.adj G.start G.goal G.nodes
          (4 * (G.nodes.length + G.edges.length + 1) ^ 2)
          g0s f0s [((h0 : NatInf), G.start)] [] [] 0 (G.nodes.length + 1)

/-- The terminal step of a run (the last emitted step). -/
def lastStep (l : List WStep) : WStep :=
  l.getLastD ⟨"", [], none, [], ⟨0, 0, 0, 0⟩⟩

example :
    (lastStep (dijkstraWeighted (streamRng [3, 1, 1, 10, 2, 1, 10]) (0 : Nat) [3])).stats =
      ⟨3, 2, 3, 2⟩ := by rfl

example :
    (lastStep (astarWeighted (streamRng [3, 1, 1, 10, 2, 1, 10]) (0 : Nat) [3])).stats =
      ⟨2, 3, 2, 3⟩ := by rfl

/-! ### The maze generator (`_generate_grid` of `graph_bfs.py`)

Grids are lists of rows of `0`/`1` ints, as in the source.  All loops are
fuel-indexed with fuel provably larger than the iteration count of the
corresponding Python `while` loop (the carving loop runs at most
`2*rows*cols + 1` iterations since every push opens a fresh wall cell; the
BFS touches each cell at most once).  `int(len(wall_cells) * 0.18)` agrees
with `18 * n / 100` in integer arithmetic for every feasible list length
(the float product never crosses an integer boundary at this scale). -/

/-- `grid[i][j]` with a default for (never-taken) out-of-range reads. -/
def getCell (g : Grid) (i j : Nat) : Nat := (g.getD i []).getD j 1

/-- `grid[i][j] = v` (in-range writes only in the source). -/
def setCell (g : Grid) (i j : Nat) (v : Nat) : Grid :=
  g.set i ((g.getD i []).set j v)

/-- The direction list of the carving walk, in source order. -/
def carveDirs : List (Int × Int) := [(-1, 0), (0, 1), (1, 0), (0, -1)]

/-- The neighbor scan of one carving iteration: the first direction whose
two-step target is an in-range wall, returning the intermediate cell and
the destination. -/
def findCarve (g : Grid) (rows cols : Nat) (c : Cell) :
    List (Int × Int) → Option (Cell × Cell)
  | [] => none
  | (dx, dy) :: rest =>
    let nx : Int := (c.1 : Int) + dx * 2
    let ny : Int := (c.2 : Int) + dy * 2
    if 0 ≤ nx ∧ nx < (rows : Int) ∧ 0 ≤ ny ∧ ny < (cols : Int) ∧
        getCell g nx.toNat ny.toNat = 1 then
      some ((((c.1 : Int) + dx).toNat, ((c.2 : Int) + dy).toNat),
            (nx.toNat, ny.toNat))
    else findCarve g rows cols c rest

/-- `carve_passages_iterative`: shuffle the directions, carve the first
available two-step passage and push the destination, or backtrack. -/
def carveLoop (R : Rng) (rows cols : Nat) :
    Nat → List Cell → Grid → R.State → Grid × R.State
  | 0, _, g, s => (g, s)
  | _ + 1, [], g, s => (g, s)
  | fuel + 1, c :: rest, g, s =>
    let pd := R.shuffleDirs carveDirs s
    match findCarve g rows cols c pd.1 with
    | some (mid, dest) =>
      carveLoop R rows cols fuel (dest :: c :: rest)
        (setCell (setCell g mid.1 mid.2 0) dest.1 dest.2 0) pd.2
    | none => carveLoop R rows cols fuel rest g pd.2

/-- The border pass: force the outer frame to walls. -/
def setBorders (g : Grid) (rows cols : Nat) : Grid :=
  let g1 := (List.range rows).foldl
    (fun a i => setCell (setCell a i 0 1) i (cols - 1) 1) g
  (List.range cols).foldl
    (fun a j => setCell (setCell a 0 j 1) (rows - 1) j 1) g1

/-- Number of open 4-neighbors of `(i, j)` (the loop-creation criterion). -/
def openNbrCount (g : Grid) (rows cols : Nat) (i j : Nat) : Nat :=
  (([(-1, 0), (1, 0), (0, -1), (0, 1)] : List (Int × Int)).filter (fun d =>
    let ni : Int := (i : Int) + d.1
    let nj : Int := (j : Int) + d.2
    decide (0 ≤ ni) && decide (ni < (rows : Int)) && decide (0 ≤ nj) &&
      decide (nj < (cols : Int)) && (getCell g ni.toNat nj.toNat == 0))).length

/-- The wall-removal candidates: interior walls (rows `2 .. rows-3`) with at
least two open neighbors, in row-major scan order. -/
def wallCells (g : Grid) (rows cols : Nat) : List Cell :=
  (List.range' 2 (rows - 4)).flatMap (fun i =>
    (List.range' 2 (cols - 4)).filterMap (fun j =>
      if getCell g i j = 1 ∧ 2 ≤ openNbrCount g rows cols i j then some (i, j)
      else none))

/-- The BFS neighbor directions of `has_path`, in source order. -/
def bfsDirs : List (Int × Int) := [(-1, 0), (1, 0), (0, -1), (0, 1)]

/-- One BFS expansion of `has_path`: enqueue the in-range open unvisited
4-neighbors of `c` in direction order, marking each visited at enqueue
time. -/
def bfsExpand (g : Grid) (rows cols : Nat) (c : Cell) :
    List (Int × Int) → List Cell × List Cell → List Cell × List Cell
  | [], vq => vq
  | d :: ds, (v, q) =>
    let ni : Int := (c.1 : Int) + d.1
    let nj : Int := (c.2 : Int) + d.2
    if 0 ≤ ni ∧ ni < (rows : Int) ∧ 0 ≤ nj ∧ nj < (cols : Int) ∧
        getCell g ni.toNat nj.toNat = 0 ∧ (ni.toNat, nj.toNat) ∉ v then
      bfsExpand g rows cols c ds
        (v ++ [(ni.toNat, nj.toNat)], q ++ [(ni.toNat, nj.toNat)])
    else bfsExpand g rows cols c ds (v, q)

/-- The BFS loop of `has_path`. -/
def hasPathAux (g : Grid) (rows cols : Nat) (e : Cell) :
    Nat → List Cell → List Cell → Bool
  | 0, _, _ => false
  | _ + 1, _, [] => false
  | fuel + 1, visited, c :: rest =>
    if c == e then true
    else
      let p := bfsExpand g rows cols c bfsDirs (visited, rest)
      hasPathAux g rows cols e fuel p.1 p.2

/-- `has_path(grid, start, end)`: BFS over open cells from `start`. -/
def hasPath (g : Grid) (s e : Cell) : Bool :=
  let rows := g.length
  let cols := (g.getD 0 []).length
  hasPathAux g rows cols e (2 * rows * cols + 1) [s] [s]

/-- The fallback direct carve: walk down to `end`'s row, then right to
`end`'s column, opening every cell on the way (runs forever in the source
when `end` is above/left of the walker; the fuel models that truncation). -/
def fallbackCarve (e : Cell) : Nat → Cell → Grid → Grid
  | 0, _, g => g
  | fuel + 1, c, g =>
    if c == e then g
    else
      let g1 := setCell g c.1 c.2 0
      let c' : Cell :=
        if c.1 < e.1 then (c.1 + 1, c.2)
        else if c.2 < e.2 then (c.1, c.2 + 1)
        else c
      fallbackCarve e fuel c' (setCell g1 c'.1 c'.2 0)

/-- Output of `_generate_grid`. -/
structure GridOut where
  grid : Grid
  start : Cell
  endCell : Cell
deriving DecidableEq, Repr

/-- `_generate_grid(arr)` of `graph_bfs.py`: all-wall grid, seeded carving
walk from `(1,1)`, forced borders, open `end`, loop-creating wall removal,
BFS connectivity check with direct-carve fallback, and final clearing of
`start` and `end`. -/
def generateGrid (R : Rng) (g0 : R.State) (arr : List Int) : GridOut :=
  let size : Int := match arr with
    | [] => 15
    | a :: _ => if 0 < a then a else 15
  let rows := size.toNat
  let cols := size.toNat
  let grid0 : Grid := List.replicate rows (List.replicate cols 1)
  -- `random.seed(42)`: the incoming state `g0` is discarded.
  let s0 := R.seed 42
  let start : Cell := (1, 1)
  let g1 := setCell grid0 1 1 0
  let pc := carveLoop R rows cols (2 * rows * cols + 2) [start] g1 s0
  let e : Cell := (rows - 2, cols - 2)
  let g2 := setCell pc.1 (rows - 2) (cols - 2) 0
  let g3 := setBorders g2 rows cols
  let wc := wallCells g3 rows cols
  let numRemove := 18 * wc.length / 100
  let pw := R.shuffleCells wc pc.2
  let g4 := (pw.1.take (min numRemove wc.length)).foldl
    (fun a c => setCell a c.1 c.2 0) g3
  let g5 := if hasPath g4 start e then g4 else fallbackCarve e (rows + cols) start g4
  let g6 := setCell (setCell g5 1 1 0) (rows - 2) (cols - 2) 0
  ⟨g6, start, e⟩

example :
    generateGrid idRng () [3] =
      ⟨[[1, 1, 1], [1, 0, 1], [1, 1, 1]], (1, 1), (1, 1)⟩ := by rfl

example : (generateGrid idRng () [10]).endCell = (8, 8) := by rfl

example : hasPath (generateGrid idRng () [10]).grid (1, 1) (8, 8) = true := by rfl

/-! ### Union-Find (`class UnionFind` of `kruskal.py`)

`parent` and `rank` are association lists over the node type (Python dicts
keyed by the graph's nodes).  `find` is fuel-indexed; with fuel `≥ |nodes|`
it always reaches the root because union-by-rank keeps ranks strictly
increasing along parent chains. -/

/-- Union-Find state: the `parent` and `rank` dictionaries. -/
structure UF (α : Type) where
  parent : List (α × α)
  rank : List (α × Nat)
deriving DecidableEq, Repr

/-- `UnionFind(nodes)`: `parent[n] = n`, `rank[n] = 0`. -/
def ufInit {α : Type} (nodes : List α) : UF α :=
  ⟨nodes.map (fun n => (n, n)), nodes.map (fun n => (n, 0))⟩

/-- `self.parent[x]` (the default is never hit on in-domain queries). -/
def pgetU {α : Type} [DecidableEq α] (s : UF α) (x : α) : α :=
  (alook s.parent x).getD x

/-- `self.rank[x]`. -/
def rgetU {α : Type} [DecidableEq α] (s : UF α) (x : α) : Nat :=
  (alook s.rank x).getD 0

/-- `find` with path compression:
`if parent[x] != x: parent[x] = find(parent[x]); return parent[x]`. -/
def ufFind {α : Type} [DecidableEq α] : Nat → UF α → α → α × UF α
  | 0, s, x => (pgetU s x, s)
  | fuel + 1, s, x =>
    let px := pgetU s x
    if px = x then (x, s)
    else
      let p := ufFind fuel s px
      (p.1, ⟨aset p.2.parent x p.1, p.2.rank⟩)

/-- `union` by rank: `False` when the two roots coincide, otherwise attach
the lower-rank root beneath the higher-rank root, incrementing the
surviving root's rank only on a tie. -/
def ufUnion {α : Type} [DecidableEq α] (fuel : Nat) (s : UF α) (x y : α) :
    Bool × UF α :=
  let p1 := ufFind fuel s x
  let p2 := ufFind fuel p1.2 y
  let r1 := p1.1
  let r2 := p2.1
  let s2 := p2.2
  if r1 = r2 then (false, s2)
  else if rgetU s2 r1 < rgetU s2 r2 then (true, ⟨aset s2.parent r1 r2, s2.rank⟩)
  else if rgetU s2 r2 < rgetU s2 r1 then (true, ⟨aset s2.parent r2 r1, s2.rank⟩)
  else (true, ⟨aset s2.parent r2 r1, aset s2.rank r1 (rgetU s2 r1 + 1)⟩)

/-- Run a sequence of `union` calls from the freshly initialized structure. -/
def ufRun {α : Type} [DecidableEq α] (nodes : List α) (calls : List (α × α)) :
    UF α :=
  calls.foldl (fun s c => (ufUnion nodes.length s c.1 c.2).2) (ufInit nodes)

/-! ### The MST graph generator (`_generate_graph`, identical in
`kruskal.py` and `prim.py`)

Nodes are the (at most 8 smallest) distinct values of the input array;
consecutive array values give undirected edges of weight
`abs(u - v) % 10 + 1`; a second pass chains the sorted nodes when the first
produced fewer than `|nodes| - 1` edges. -/

/-- Integer adjacency map (Python `dict` of lists). -/
abbrev IAdj := List (Int × List (Int × Nat))

/-- `adj_list.get(k, [])` / `adj_list[k]`. -/
def iadjGet (a : IAdj) (k : Int) : List (Int × Nat) := (alook a k).getD []

/-- `adj_list[k].append(v)`. -/
def iadjApp (a : IAdj) (k : Int) (v : Int × Nat) : IAdj :=
  a.map (fun p => if p.1 = k then (p.1, p.2 ++ [v]) else p)

/-- `sorted(list(set(arr)))`: the distinct values in ascending order. -/
def sortedDedup (arr : List Int) : List Int :=
  (arr.eraseDups).insertionSort (fun a b => a ≤ b)

/-- The weight formula `abs(u - v) % 10 + 1`. -/
def mstW (u v : Int) : Nat := (u - v).natAbs % 10 + 1

/-- First edge pass: connect consecutive array elements, skipping pairs
with an endpoint outside the node set and duplicate unordered pairs. -/
def addConsecutive (nodes : List Int) :
    List (Int × Int) → List (Int × Int × Nat) × IAdj →
    List (Int × Int × Nat) × IAdj
  | [], acc => acc
  | (u, v) :: rest, (es, aj) =>
    if u ∈ nodes ∧ v ∈ nodes then
      if es.any (fun e => (e.1 == u && e.2.1 == v) || (e.1 == v && e.2.1 == u)) then
        addConsecutive nodes rest (es, aj)
      else
        let w := mstW u v
        addConsecutive nodes rest
          (es ++ [(u, v, w)], iadjApp (iadjApp aj u (v, w)) v (u, w))
    else addConsecutive nodes rest (es, aj)

/-- Second pass (`len(edges) < len(nodes) - 1`): chain the sorted nodes. -/
def chainNodes :
    List (Int × Int) → List (Int × Int × Nat) × IAdj →
    List (Int × Int × Nat) × IAdj
  | [], acc => acc
  | (u, v) :: rest, (es, aj) =>
    if (iadjGet aj u).any (fun p => p.1 == v) then chainNodes rest (es, aj)
    else
      let w := mstW u v
      chainNodes rest (es ++ [(u, v, w)], iadjApp (iadjApp aj u (v, w)) v (u, w))

/-- Output of the MST `_generate_graph`. -/
structure MGraph where
  nodes : List Int
  edges : List (Int × Int × Nat)
  adj : IAdj
deriving DecidableEq, Repr

/-- `_generate_graph(arr)` as found (textually identically) in both
`kruskal.py` and `prim.py`. -/
def genMstGraph (arr : List Int) : MGraph :=
  let nodes := (sortedDedup arr).take 8
  if nodes.length < 2 then ⟨nodes, [], []⟩
  else
    let aj0 : IAdj := nodes.map (fun n => (n, []))
    let p1 := addConsecutive nodes (arr.zip arr.tail) ([], aj0)
    let p2 :=
      if p1.1.length < nodes.length - 1 then
        chainNodes (nodes.zip nodes.tail) p1
      else p1
    ⟨nodes, p2.1, p2.2⟩

/-! ### The MST engines (`kruskal`, `prim`) -/

/-- One emitted MST visualization step.  `totalWeight` models the running
total that the source interpolates into the step's description string. -/
structure MStep where
  action : String
  visited : List Int
  pathEdges : List (Int × Int)
  totalWeight : Nat
deriving DecidableEq, Repr

/-- The edge loop of `kruskal`: per sorted edge emit `consider`, then
`add_edge` (accepting via union) or `skip` (cycle), stopping early once
`|MST| = |nodes| - 1`. -/
def kruskalLoop (n fuel : Nat) :
    List (Int × Int × Nat) → UF Int → List (Int × Int) → Nat → List MStep
  | [], _, mst, tw =>
    [⟨"done", [], mst, tw⟩]
  | (u, v, w) :: rest, uf, mst, tw =>
    let consider : MStep := ⟨"consider", [], mst, tw⟩
    let p1 := ufFind fuel uf u
    let p2 := ufFind fuel p1.2 v
    if p1.1 ≠ p2.1 then
      let up := ufUnion fuel p2.2 u v
      let mst' := mst ++ [(u, v)]
      let tw' := tw + w
      let addStep : MStep := ⟨"add_edge", [], mst', tw'⟩
      if mst'.length = n - 1 then
        [consider, addStep, ⟨"done", [], mst', tw'⟩]
      else
        consider :: addStep :: kruskalLoop n fuel rest up.2 mst' tw'
    else
      let skipStep : MStep := ⟨"skip", [], mst, tw⟩
      if mst.length = n - 1 then
        [consider, skipStep, ⟨"done", [], mst, tw⟩]
      else
        consider :: skipStep :: kruskalLoop n fuel rest p2.2 mst tw

/-- `kruskal(arr)`: build the graph, sort the edges by weight (Python's
`sorted` is stable; insertion sort is the same stable sort, and it reduces
definitionally), and run the Union-Find loop. -/
def kruskal (arr : List Int) : List MStep :=
  if arr = [] then []
  else
    let G := genMstGraph arr
    if G.nodes = [] ∨ G.edges = [] then []
    else
      let uf := ufInit G.nodes
      let sortedEdges := G.edges.insertionSort (fun a b => a.2.2 ≤ b.2.2)
      ⟨"start", [], [], 0⟩ ::
        kruskalLoop G.nodes.length G.nodes.length sortedEdges uf [] 0

/-- Python tuple order on `(weight, from, to)` heap entries. -/
def pentLtB (a b : Nat × Int × Int) : Bool :=
  a.1 < b.1 || (a.1 == b.1 && (a.2.1 < b.2.1 ||
    (a.2.1 == b.2.1 && a.2.2 < b.2.2)))

/-- Remove a least entry from Prim's queue. -/
def popMinP : List (Nat × Int × Int) →
    Option ((Nat × Int × Int) × List (Nat × Int × Int))
  | [] => none
  | e :: rest =>
    match popMinP rest with
    | none => some (e, [])
    | some (m, rest') => if pentLtB m e then some (m, e :: rest') else some (e, rest)

/-- The push loop of `prim`: emit `consider` and push `(w, to, nbr)` for
every not-yet-visited neighbor of the freshly added node. -/
def primPush (toN : Int) (visited : List Int) (mst : List (Int × Int))
    (tw : Nat) :
    List (Int × Nat) → List (Nat × Int × Int) →
    List MStep × List (Nat × Int × Int)
  | [], pq => ([], pq)
  | (nbr, w) :: rest, pq =>
    if visited.contains nbr then primPush toN visited mst tw rest pq
    else
      let out := primPush toN visited mst tw rest (pq ++ [(w, toN, nbr)])
      (⟨"consider", visited, mst, tw⟩ :: out.1, out.2)

/-- The `while pq and len(visited) < len(nodes)` loop of `prim` with lazy
deletion of already-visited targets. -/
def primLoop (adj : IAdj) (n : Nat) :
    Nat → List (Nat × Int × Int) → List Int → List (Int × Int) → Nat →
    List MStep
  | 0, _, visited, mst, tw => [⟨"done", visited, mst, tw⟩]
  | fuel + 1, pq, visited, mst, tw =>
    if pq = [] ∨ ¬ visited.length < n then [⟨"done", visited, mst, tw⟩]
    else
      match popMinP pq with
      | none => [⟨"done", visited, mst, tw⟩]
      | some ((w, frm, toN), pq') =>
        if visited.contains toN then primLoop adj n fuel pq' visited mst tw
        else
          let mst' := mst ++ [(frm, toN)]
          let visited' := visited ++ [toN]
          let tw' := tw + w
          let pp := primPush toN visited' mst' tw' (iadjGet adj toN) pq'
          ⟨"add_edge", visited', mst', tw'⟩ :: pp.1 ++
            primLoop adj n fuel pp.2 visited' mst' tw'

/-- `prim(arr)`: start from `nodes[0]`, seed the queue with its incident
edges, and grow the tree greedily. -/
def prim (arr : List Int) : List MStep :=
  if arr = [] then []
  else
    let G := genMstGraph arr
    if G.nodes = [] then []
    else
      let start := G.nodes.headD 0
      let pq0 := (iadjGet G.adj start).map (fun p => (p.2, start, p.1))
      ⟨"start", [start], [], 0⟩ ::
        primLoop G.adj G.nodes.length
          (2 * (G.nodes.length + 1) * (G.edges.length + G.nodes.length + 1))
          pq0 [start] [] 0

/-- The terminal step of an MST run. -/
def lastMStep (l : List MStep) : MStep := l.getLastD ⟨"", [], [], 0⟩

example :
    (lastMStep (kruskal [1, 2, 3, 1, 3, 4])).totalWeight =
      (lastMStep (prim [1, 2, 3, 1, 3, 4])).totalWeight := by rfl

/-! ### Module loading of the grid variants (`dijkstra_grid.py`,
`astar_grid.py`)

Python's `from M import name` succeeds only when `name` is a top-level
binding of module `M`; otherwise the importing module fails to load and
none of its functions ever runs.  The binding list below is the complete
list of top-level definitions of `graph_dfs.py`. -/

/-- The top-level names bound by module `algorithms.graph.graph_dfs`. -/
def graphDfsModuleNames : List String :=
  ["graph_dfs", "_generate_graph", "get_algorithm_info"]

/-- `from M import name`: `ok` iff the exporting module binds `name`. -/
def importFrom (exports : List String) (name : String) : Except String Unit :=
  if name ∈ exports then Except.ok () else Except.error "ImportError"

/-- Module load of `dijkstra_grid.py`: its line 5 is
`from algorithms.graph.graph_dfs import _generate_grid`. -/
def dijkstraGridModuleLoad : Except String Unit :=
  importFrom graphDfsModuleNames "_generate_grid"

/-- Module load of `astar_grid.py`: its line 5 is the same import. -/
def astarGridModuleLoad : Except String Unit :=
  importFrom graphDfsModuleNames "_generate_grid"

/-- Running a function of a module first requires the module to load:
whatever the function body would compute, a failed import yields no steps. -/
def moduleSteps {α : Type} (load : Except String Unit)
    (run : List Int → List α) (arr : List Int) : Except String (List α) :=
  load.map (fun _ => run arr)

/-! ### Derived notions used by the statements -/

/-- A hop-by-hop path check over the weighted adjacency map: `isPathB adj u p`
holds when successive elements of `u :: p` are adjacency neighbors. -/
def isPathB (adj : AdjList) : Cell → List Cell → Bool
  | _, [] => true
  | u, v :: rest => (adjGet adj u).any (fun p => p.1 == v) && isPathB adj v rest

/-- Total weight of such a path (first matching adjacency entry per hop). -/
def pathCost (adj : AdjList) : Cell → List Cell → Nat
  | _, [] => 0
  | u, v :: rest =>
    (((adjGet adj u).find? (fun p => p.1 == v)).map Prod.snd).getD 0 +
      pathCost adj v rest

/-- The last node of the walk `u :: p`. -/
def endOf (u : Cell) (p : List Cell) : Cell := (u :: p).getLastD u

/-- "`heuristic` never overestimates the true minimum remaining cost from
`u`": it is a lower bound on the total weight of every adjacency path from
`u` to the goal (equivalently, `heuristic u ≤` the minimum such weight;
with no path the minimum is infinite and the bound is vacuous). -/
def heuristicAdmissibleAt (G : WGraph) (u : Cell) : Prop :=
  ∀ p, isPathB G.adj u p = true → endOf u p = G.goal →
    heuristicW u G.goal G.nodes ≤ pathCost G.adj u p

/-- One undirected hop in the weighted graph (an adjacency-map neighbor). -/
def wAdjacent (G : WGraph) (u v : Cell) : Prop := ∃ w, (v, w) ∈ adjGet G.adj u

/-- Reachability in the weighted graph (what an undirected BFS from `u`
explores). -/
def wReach (G : WGraph) (u v : Cell) : Prop :=
  Relation.ReflTransGen (wAdjacent G) u v

/-- One orthogonal step between grid cells. -/
def cellStep (c d : Cell) : Prop :=
  (d.1 = c.1 + 1 ∧ d.2 = c.2) ∨ (c.1 = d.1 + 1 ∧ d.2 = c.2) ∨
  (d.2 = c.2 + 1 ∧ d.1 = c.1) ∨ (c.2 = d.2 + 1 ∧ d.1 = c.1)

/-- A BFS-traversable hop of `has_path`: the destination is in range and
open. -/
def gridAdj (g : Grid) (rows cols : Nat) (c d : Cell) : Prop :=
  d.1 < rows ∧ d.2 < cols ∧ getCell g d.1 d.2 = 0 ∧ cellStep c d

/-- Reachability over open cells (what `has_path`'s BFS explores). -/
def gridReach (g : Grid) (rows cols : Nat) (s e : Cell) : Prop :=
  Relation.ReflTransGen (gridAdj g rows cols) s e

/-- Grid dimension bookkeeping: a `rows × cols` rectangle. -/
def GDims (g : Grid) (rows cols : Nat) : Prop :=
  g.length = rows ∧ ∀ row ∈ g, row.length = cols

/-- The cell one BFS direction away from `c` (the `nx, ny` of the source). -/
def offCell (c : Cell) (dir : Int × Int) : Cell :=
  (((c.1 : Int) + dir.1).toNat, ((c.2 : Int) + dir.2).toNat)

/-- The in-range guard of one BFS direction, on the signed coordinates. -/
def offOk (rows cols : Nat) (c : Cell) (dir : Int × Int) : Prop :=
  0 ≤ (c.1 : Int) + dir.1 ∧ (c.1 : Int) + dir.1 < (rows : Int) ∧
  0 ≤ (c.2 : Int) + dir.2 ∧ (c.2 : Int) + dir.2 < (cols : Int)

/-- The body of `_generate_grid` once the size has been read off the input
array (`rows = cols = n`); `generateGrid` on a positive head reduces to
this. -/
def gridPipeline (R : Rng) (n : Nat) : GridOut :=
  let grid0 : Grid := List.replicate n (List.replicate n 1)
  let s0 := R.seed 42
  let start : Cell := (1, 1)
  let g1 := setCell grid0 1 1 0
  let pc := carveLoop R n n (2 * n * n + 2) [start] g1 s0
  let e : Cell := (n - 2, n - 2)
  let g2 := setCell pc.1 (n - 2) (n - 2) 0
  let g3 := setBorders g2 n n
  let wc := wallCells g3 n n
  let numRemove := 18 * wc.length / 100
  let pw := R.shuffleCells wc pc.2
  let g4 := (pw.1.take (min numRemove wc.length)).foldl
    (fun a c => setCell a c.1 c.2 0) g3
  let g5 := if hasPath g4 start e then g4 else fallbackCarve e (n + n) start g4
  let g6 := setCell (setCell g5 1 1 0) (n - 2) (n - 2) 0
  ⟨g6, start, e⟩

/-- The root `find` reports, together with the state it leaves behind. -/
def ufRoot {α : Type} [DecidableEq α] (fuel : Nat) (s : UF α) (x : α) : α :=
  (ufFind fuel s x).1

/-- The pure root (follow parent pointers, no compression): the reference
semantics `find` is measured against. -/
def ufRootD {α : Type} [DecidableEq α] : Nat → UF α → α → α
  | 0, _, x => x
  | fuel + 1, s, x => if pgetU s x = x then x else ufRootD fuel s (pgetU s x)

/-- The number of nodes of strictly larger rank: the termination measure of
the parent chains (union by rank keeps ranks strictly increasing along
them). -/
def rankAbove {α : Type} [DecidableEq α] (nodes : List α) (s : UF α)
    (x : α) : Nat :=
  (nodes.filter (fun y => decide (rgetU s x < rgetU s y))).length

/-- Well-formedness of a Union-Find state over its node set: every node has
`parent` and `rank` entries, parents stay inside the node set, and ranks
strictly increase along non-trivial parent edges. -/
structure UFWf {α : Type} [DecidableEq α] (nodes : List α) (s : UF α) :
    Prop where
  pkeys : ∀ x ∈ nodes, (alook s.parent x).isSome = true
  rkeys : ∀ x ∈ nodes, (alook s.rank x).isSome = true
  pmem : ∀ x ∈ nodes, pgetU s x ∈ nodes
  rstrict : ∀ x ∈ nodes, pgetU s x ≠ x → rgetU s x < rgetU s (pgetU s x)

/-- Every stored edge is mirrored into the adjacency map in both
directions (the generator's `adj_list[node].append` / `adj_list[target].append`
pair). -/
def AdjHas (es : List WEdge) (aj : AdjList) : Prop :=
  ∀ u v w, (u, v, w) ∈ es → (v, w) ∈ adjGet aj u ∧ (u, w) ∈ adjGet aj v

/-- The adjacency map is symmetric. -/
def AdjSym (aj : AdjList) : Prop :=
  ∀ u v w, (v, w) ∈ adjGet aj u → (u, w) ∈ adjGet aj v

/-- One undirected hop through a weighted edge list (either stored
orientation). -/
def mAdjE (T : List (Int × Int × Nat)) (x y : Int) : Prop :=
  ∃ w, (x, y, w) ∈ T ∨ (y, x, w) ∈ T

/-- Reachability through a weighted edge list. -/
def mReach (T : List (Int × Int × Nat)) (x y : Int) : Prop :=
  Relation.ReflTransGen (mAdjE T) x y

/-- Total weight of an edge list (the running `total_weight` of both MST
engines). -/
def wsum (T : List (Int × Int × Nat)) : Nat := (T.map (fun e => e.2.2)).sum

/-- `T` is a spanning connected subgraph of the graph with edge list `E`
and node list `nodes`, rooted anywhere (reachability from `r` covers every
node). -/
def SpanSub (nodes : List Int) (E T : List (Int × Int × Nat)) (r : Int) :
    Prop :=
  (∀ g ∈ T, g ∈ E) ∧ (∀ z ∈ nodes, mReach T r z)

/-- The concrete draw stream of the divergence instance: one interior layer
of 3 nodes, then the six edge weights `1, 1, 10, 2, 1, 10`. -/
def cexStream : List Nat := [3, 1, 1, 10, 2, 1, 10]

/-- The RNG model realizing that stream. -/
def cexRng : Rng := streamRng cexStream

/-- The invariant tying `_generate_graph`'s edge list to its adjacency
map: edge endpoints lie in the node list, an adjacency entry exists exactly
for the edges (in either orientation), every adjacency list holds at most
two entries per edge, and the map's keys are exactly the nodes. -/
def adjInv (nodes : List Int) (es : List (Int × Int × Nat)) (aj : IAdj) :
    Prop :=
  (∀ g ∈ es, g.1 ∈ nodes ∧ g.2.1 ∈ nodes) ∧
  (∀ z nbr w, ((nbr, w) ∈ iadjGet aj z ↔ (z, nbr, w) ∈ es ∨
    (nbr, z, w) ∈ es)) ∧
  (∀ z, (iadjGet aj z).length ≤ 2 * es.length) ∧
  aj.map Prod.fst = nodes

/-! ## Theorems -/

theorem idRng_ok : RngOk idRng := by
  refine ⟨?_, ?_, ?_, ?_, ?_, ?_, ?_⟩
  · intro l s; exact List.Perm.refl l
  · intro l s; exact List.Perm.refl l
  · intro a b s _; exact le_refl a
  · intro a b s h; exact h
  · intro l k s h
    rw [show ((idRng.sample l k s).1).length = (l.take k).length from rfl,
      List.length_take]
    exact Nat.min_eq_left h
  · intro l k s x hx; exact List.take_subset _ _ hx
  · intro l k s h; exact List.Nodup.sublist (List.take_sublist _ _) h

theorem streamRng_ok (stream : List Nat) : RngOk (streamRng stream) := by
  refine ⟨?_, ?_, ?_, ?_, ?_, ?_, ?_⟩
  · intro l s; exact List.Perm.refl l
  · intro l s; exact List.Perm.refl l
  · intro a b s _; exact le_max_left _ _
  · intro a b s h; exact max_le h (min_le_left _ _)
  · intro l k s h
    rw [show (((streamRng stream).sample l k s).1).length = (l.take k).length
      from rfl, List.length_take]
    exact Nat.min_eq_left h
  · intro l k s x hx; exact List.take_subset _ _ hx
  · intro l k s h; exact List.Nodup.sublist (List.take_sublist _ _) h

/-- C8: both generators reseed the global RNG at the start of the call
(`random.seed(42)` resp. `random.seed(level)`), so two runs with the same
input array — whatever the incoming global RNG state — return identical
topology tuples. -/
theorem generators_two_run_deterministic (R : Rng) (s₁ s₂ : R.State)
    (arr : List Int) :
    generateGrid R s₁ arr = generateGrid R s₂ arr ∧
    genWeighted R s₁ arr = genWeighted R s₂ arr :=
  ⟨rfl, rfl⟩

/-- C2: on the shared level-3 topology generated from the (valid, see the
`RngOk` conjunct) draw stream `cexStream`, Dijkstra's terminal `done` step
reports total cost 2 while A*'s reports total cost 3 — the two engines do
not report the same total path cost (the layer heuristic overestimates, so
A* finalizes the goal through a suboptimal parent).  A* visits 2 nodes to
Dijkstra's 3. -/
theorem dijkstra_astar_terminal_cost_divergence :
    RngOk cexRng ∧
    (lastStep (dijkstraWeighted cexRng (0 : Nat) [3])).action = "done" ∧
    (lastStep (dijkstraWeighted cexRng (0 : Nat) [3])).stats.totalCost = 2 ∧
    (lastStep (dijkstraWeighted cexRng (0 : Nat) [3])).stats.nodesVisited = 3 ∧
    (lastStep (astarWeighted cexRng (0 : Nat) [3])).action = "done" ∧
    (lastStep (astarWeighted cexRng (0 : Nat) [3])).stats.totalCost = 3 ∧
    (lastStep (astarWeighted cexRng (0 : Nat) [3])).stats.nodesVisited = 2 :=
  ⟨streamRng_ok cexStream, rfl, rfl, rfl, rfl, rfl, rfl⟩

/-- C3: the layer heuristic `3 * |goal_layer - node_layer|` overestimates
the true remaining cost on a graph the generator produces from valid draws:
node `(1, 1)` of the level-3 topology has heuristic value 3 but an
adjacency path of total weight 1 to the goal. -/
theorem heuristic_overestimates_on_generated_graph :
    RngOk cexRng ∧
    (1, 1) ∈ (genWeighted cexRng (0 : Nat) [3]).nodes ∧
    heuristicW (1, 1) (genWeighted cexRng (0 : Nat) [3]).goal
      (genWeighted cexRng (0 : Nat) [3]).nodes = 3 ∧
    isPathB (genWeighted cexRng (0 : Nat) [3]).adj (1, 1) [(2, 0)] = true ∧
    endOf (1, 1) [(2, 0)] = (genWeighted cexRng (0 : Nat) [3]).goal ∧
    pathCost (genWeighted cexRng (0 : Nat) [3]).adj (1, 1) [(2, 0)] = 1 ∧
    ¬ heuristicAdmissibleAt (genWeighted cexRng (0 : Nat) [3]) (1, 1) := by
  refine ⟨streamRng_ok cexStream, by decide, by decide, by decide, by decide,
    by decide, fun h => ?_⟩
  exact absurd (h [(2, 0)] (by decide) (by decide)) (by decide)

/-- C4 (counterexample): the level-3 graph generated from the valid draw
stream `cexStream` contains no edge joining the layer-0 start to a node of
layer 2 — no "skip" edge is ever added. -/
theorem no_skip_edge_at_level3 :
    RngOk cexRng ∧
    ((genWeighted cexRng (0 : Nat) [3]).edges.any
      (fun e => e.1 == ((0, 0) : Cell) && e.2.1.1 == 2)) = false ∧
    ¬ ∃ e ∈ (genWeighted cexRng (0 : Nat) [3]).edges,
        e.1 = ((0, 0) : Cell) ∧ e.2.1.1 = 2 :=
  ⟨streamRng_ok cexStream, by decide, by decide⟩

/-- C7 (counterexample): `union` on two arguments that already share a root
returns `False` but does change the state: after
`union(0,1); union(2,3); union(0,2)`, the call `union(3,1)` returns `False`
yet rewrites `parent[3]` from `2` to `0` by path compression inside `find`. -/
theorem union_same_root_mutates_state :
    (ufUnion 4 (ufRun [0, 1, 2, 3] [(0, 1), (2, 3), (0, 2)]) (3 : Nat) 1).1
        = false ∧
    (ufUnion 4 (ufRun [0, 1, 2, 3] [(0, 1), (2, 3), (0, 2)]) (3 : Nat) 1).2
        ≠ ufRun [0, 1, 2, 3] [(0, 1), (2, 3), (0, 2)] := by
  exact ⟨by decide, by decide⟩

/-- C9 (counterexample): a below-minimum size does not yield an empty grid:
`_generate_grid([3])` returns the 3×3 all-wall grid with the single open
cell `(1,1)` and `start = end = (1,1)`. -/
theorem generateGrid_size3_not_empty :
    generateGrid idRng () [3] =
      ⟨[[1, 1, 1], [1, 0, 1], [1, 1, 1]], (1, 1), (1, 1)⟩ ∧
    (generateGrid idRng () [3]).grid ≠ [] :=
  ⟨rfl, by decide⟩

/-- C9 (amended): for every RNG behaviour satisfying the `random` contract,
`_generate_grid([3])` returns that same non-empty 3×3 grid: the carving
walk finds no two-step neighbor inside a 3×3 frame, the candidate list of
the wall-removal pass is empty, and the BFS check succeeds immediately
because `start = end = (1,1)`. -/
theorem generateGrid_small_size_behavior (R : Rng) (h : RngOk R)
    (g0 : R.State) :
    generateGrid R g0 [3] =
      ⟨[[1, 1, 1], [1, 0, 1], [1, 1, 1]], (1, 1), (1, 1)⟩ := by
  have hfind : ∀ (l : List (Int × Int)), l ⊆ carveDirs →
      findCarve (setCell (List.replicate 3 (List.replicate 3 1)) 1 1 0) 3 3
        (1, 1) l = none := by
    intro l hl
    induction l with
    | nil => rfl
    | cons d t ih =>
      have hd : d ∈ carveDirs := hl (List.mem_cons_self _ _)
      have ht : t ⊆ carveDirs := fun x hx => hl (List.mem_cons_of_mem _ hx)
      simp only [carveDirs, List.mem_cons, List.mem_singleton,
        List.not_mem_nil, or_false] at hd
      rcases hd with h1 | h1 | h1 | h1 <;> subst h1 <;>
        · show findCarve _ 3 3 (1, 1) (_ :: t) = none
          rw [findCarve, if_neg (by decide)]
          exact ih ht
  have hcarve : ∀ s, (carveLoop R 3 3 20 [(1, 1)]
      (setCell (List.replicate 3 (List.replicate 3 1)) 1 1 0) s).1 =
      setCell (List.replicate 3 (List.replicate 3 1)) 1 1 0 := by
    intro s
    show (carveLoop R 3 3 (19 + 1) [(1, 1)] _ s).1 = _
    rw [carveLoop]
    rw [hfind _ (h.shuffleDirs_perm carveDirs s).subset]
    rfl
  show generateGrid R g0 [3] = _
  simp only [generateGrid]
  rw [show ((if (0 : Int) < 3 then (3 : Int) else 15)).toNat = 3 by decide]
  rw [hcarve]
  rw [show wallCells (setBorders (setCell (setCell (List.replicate 3
    (List.replicate 3 1)) 1 1 0) (3 - 2) (3 - 2) 0) 3 3) 3 3 = [] from rfl]
  rw [List.Perm.eq_nil (h.shuffleCells_perm [] _)]
  rfl

theorem generateGrid_small_size_behavior_witness :
    RngOk idRng ∧ generateGrid idRng () [3] =
      ⟨[[1, 1, 1], [1, 0, 1], [1, 1, 1]], (1, 1), (1, 1)⟩ :=
  ⟨idRng_ok, generateGrid_small_size_behavior idRng idRng_ok ()⟩

/-- C10: `dijkstra_grid.py` and `astar_grid.py` both import the name
`_generate_grid` from `algorithms.graph.graph_dfs`, whose top-level
bindings are exactly `graph_dfs`, `_generate_graph` and
`get_algorithm_info`; the import therefore fails, the modules never load,
and for every input neither function can emit a step, whatever its body
would have computed. -/
theorem grid_variants_unloadable :
    dijkstraGridModuleLoad = Except.error "ImportError" ∧
    astarGridModuleLoad = Except.error "ImportError" ∧
    (∀ (run : List Int → List WStep) (arr : List Int),
      moduleSteps dijkstraGridModuleLoad run arr =
        Except.error "ImportError") ∧
    (∀ (run : List Int → List WStep) (arr : List Int),
      moduleSteps astarGridModuleLoad run arr =
        Except.error "ImportError") :=
  ⟨rfl, rfl, fun _ _ => rfl, fun _ _ => rfl⟩

/-! ### Structural lemmas about the layered-graph generator -/

theorem getDZero {α : Type} (a : α) (l : List α) (d : α) :
    (a :: l).getD 0 d = a := rfl

theorem getDCons {α : Type} (a : α) (l : List α) (n : Nat) (d : α) :
    (a :: l).getD (n + 1) d = l.getD n d := rfl

theorem alook_update_same {α β : Type} [DecidableEq α] (l : List (α × β))
    (k : α) (f : β → β) :
    alook (l.map (fun p => if p.1 = k then (p.1, f p.2) else p)) k =
      (alook l k).map f := by
  induction l with
  | nil => rfl
  | cons p t ih =>
    obtain ⟨a, b⟩ := p
    simp only [List.map_cons]
    by_cases h : a = k
    · rw [if_pos h, alook, if_pos h, alook, if_pos h, Option.map_some']
    · rw [if_neg h, alook, if_neg h, alook, if_neg h, ih]

theorem alook_update_other {α β : Type} [DecidableEq α] (l : List (α × β))
    (k u : α) (hu : u ≠ k) (f : β → β) :
    alook (l.map (fun p => if p.1 = k then (p.1, f p.2) else p)) u =
      alook l u := by
  induction l with
  | nil => rfl
  | cons p t ih =>
    obtain ⟨a, b⟩ := p
    simp only [List.map_cons]
    by_cases h : a = k
    · have h2 : a ≠ u := fun e => hu (e.symm.trans h)
      rw [if_pos h, alook, if_neg h2, alook, if_neg h2, ih]
    · by_cases h2 : a = u
      · rw [if_neg h, alook, if_pos h2, alook, if_pos h2]
      · rw [if_neg h, alook, if_neg h2, alook, if_neg h2, ih]

theorem alook_isSome_of_mem_keys {α β : Type} [DecidableEq α]
    (l : List (α × β)) (k : α) :
    k ∈ l.map Prod.fst → (alook l k).isSome := by
  induction l with
  | nil => intro h; simp at h
  | cons p t ih =>
    obtain ⟨a, b⟩ := p
    intro h
    by_cases hp : a = k
    · simp [alook, hp]
    · simp only [List.map_cons, List.mem_cons] at h
      rcases h with h | h
      · exact absurd h.symm hp
      · simpa [alook, hp] using ih h

theorem keys_update {α β : Type} [DecidableEq α] (l : List (α × β)) (k : α)
    (f : β → β) :
    (l.map (fun p => if p.1 = k then (p.1, f p.2) else p)).map Prod.fst =
      l.map Prod.fst := by
  induction l with
  | nil => rfl
  | cons p t ih =>
    obtain ⟨a, b⟩ := p
    simp only [List.map_cons]
    rw [ih]
    congr 1
    by_cases h : a = k <;> simp [h]

theorem alook_mem_keys_of_isSome {α β : Type} [DecidableEq α]
    (l : List (α × β)) (k : α) :
    (alook l k).isSome → k ∈ l.map Prod.fst := by
  induction l with
  | nil => intro h; simp [alook] at h
  | cons p t ih =>
    obtain ⟨a, b⟩ := p
    intro h
    by_cases hp : a = k
    · simp [hp]
    · simp only [alook, if_neg hp] at h
      simp only [List.map_cons, List.mem_cons]
      exact Or.inr (ih h)

theorem adjGet_nil_of_not_mem (aj : AdjList) (k : Cell)
    (hk : k ∉ aj.map Prod.fst) : adjGet aj k = [] := by
  unfold adjGet
  cases h : alook aj k with
  | none => rfl
  | some x =>
    exact absurd (alook_mem_keys_of_isSome aj k (by simp [h])) hk

theorem adjApp_keys (aj : AdjList) (k : Cell) (v : Cell × Nat) :
    (adjApp aj k v).map Prod.fst = aj.map Prod.fst :=
  keys_update aj k (fun l => l ++ [v])

theorem adjGet_adjApp_same (aj : AdjList) (k : Cell) (v : Cell × Nat)
    (hk : k ∈ aj.map Prod.fst) :
    adjGet (adjApp aj k v) k = adjGet aj k ++ [v] := by
  obtain ⟨x, hx⟩ := Option.isSome_iff_exists.mp (alook_isSome_of_mem_keys aj k hk)
  unfold adjGet adjApp
  rw [alook_update_same aj k (fun l => l ++ [v]), hx]
  rfl

theorem adjGet_adjApp_other (aj : AdjList) (k : Cell) (v : Cell × Nat)
    (u : Cell) (hu : u ≠ k) :
    adjGet (adjApp aj k v) u = adjGet aj u := by
  unfold adjGet adjApp
  rw [alook_update_other aj k u hu (fun l => l ++ [v])]

theorem adjGet_adjApp_mono (aj : AdjList) (k : Cell) (v : Cell × Nat)
    (u : Cell) (x : Cell × Nat) (hx : x ∈ adjGet aj u) :
    x ∈ adjGet (adjApp aj k v) u := by
  by_cases h : u = k
  · subst h
    by_cases hk : u ∈ aj.map Prod.fst
    · rw [adjGet_adjApp_same aj u v hk]
      exact List.mem_append_left _ hx
    · rw [adjGet_nil_of_not_mem aj u hk] at hx
      simp at hx
  · rw [adjGet_adjApp_other aj k v u h]
    exact hx

theorem buildInterior_length (R : Rng) :
    ∀ (n lid : Nat) (s : R.State), ((buildInterior R lid n s).1).length = n := by
  intro n
  induction n with
  | zero => intro lid s; rfl
  | succ m ih =>
    intro lid s
    simp only [buildInterior, List.length_cons]
    rw [ih]

theorem buildInterior_getD_fst (R : Rng) :
    ∀ (n lid : Nat) (s : R.State) (i : Nat), i < n →
      ∀ c ∈ ((buildInterior R lid n s).1).getD i [], c.1 = lid + i := by
  intro n
  induction n with
  | zero => intro lid s i hi; omega
  | succ m ih =>
    intro lid s i hi c hc
    match i with
    | 0 =>
      simp only [buildInterior, getDZero] at hc
      simp only [List.mem_map] at hc
      obtain ⟨j, _, rfl⟩ := hc
      simp
    | i' + 1 =>
      simp only [buildInterior, getDCons] at hc
      have := ih (lid + 1) _ i' (by omega) c hc
      omega

theorem buildInterior_getD_ne (R : Rng) (hR : RngOk R) :
    ∀ (n lid : Nat) (s : R.State) (i : Nat), i < n →
      ((buildInterior R lid n s).1).getD i [] ≠ [] := by
  intro n
  induction n with
  | zero => intro lid s i hi; omega
  | succ m ih =>
    intro lid s i hi
    match i with
    | 0 =>
      simp only [buildInterior, getDZero]
      have h3 : 3 ≤ (R.randint 3 5 s).1 := hR.randint_ge 3 5 s (by norm_num)
      intro hcon
      have := congrArg List.length hcon
      simp [List.length_range] at this
      omega
    | i' + 1 =>
      simp only [buildInterior, getDCons]
      exact ih (lid + 1) _ i' (by omega)

theorem layersOf_length (R : Rng) (arr : List Int) :
    (layersOf R arr).length = numLayersOf arr := by
  have h1 : (interiorOf R arr).length = numLayersOf arr - 2 :=
    buildInterior_length R _ _ _
  have h3 : 3 ≤ numLayersOf arr := le_max_left _ _
  simp [layersOf, h1]
  omega

theorem layersOf_fst (R : Rng) (arr : List Int) :
    ∀ (i : Nat), ∀ c ∈ (layersOf R arr).getD i [], c.1 = i := by
  intro i c hc
  have hlen : (interiorOf R arr).length = numLayersOf arr - 2 :=
    buildInterior_length R _ _ _
  have h3 : 3 ≤ numLayersOf arr := le_max_left _ _
  match i with
  | 0 =>
    have hc2 : c ∈ [((0, 0) : Cell)] := hc
    rw [List.mem_singleton.mp hc2]
  | i' + 1 =>
    have hc2 : c ∈ (interiorOf R arr ++
      [[((numLayersOf arr - 1, 0) : Cell)]]).getD i' [] := hc
    by_cases hi : i' < (interiorOf R arr).length
    · rw [List.getD_append _ _ _ _ hi] at hc2
      have := buildInterior_getD_fst R _ 1 _ i' (by omega) c hc2
      omega
    · rw [List.getD_append_right _ _ _ _ (le_of_not_lt hi)] at hc2
      by_cases he : i' - (interiorOf R arr).length = 0
      · rw [he] at hc2
        have hc3 : c ∈ [((numLayersOf arr - 1, 0) : Cell)] := hc2
        rw [List.mem_singleton.mp hc3]
        simp
        omega
      · rw [show i' - (interiorOf R arr).length =
          (i' - (interiorOf R arr).length - 1) + 1 by omega] at hc2
        simp at hc2

theorem layersOf_subset_nodes (R : Rng) (arr : List Int) :
    ∀ (i : Nat), ∀ c ∈ (layersOf R arr).getD i [], c ∈ nodesOf R arr := by
  intro i c hc
  have hlen : (interiorOf R arr).length = numLayersOf arr - 2 :=
    buildInterior_length R _ _ _
  match i with
  | 0 =>
    have hc2 : c ∈ [((0, 0) : Cell)] := hc
    rw [List.mem_singleton.mp hc2]
    exact List.mem_cons_self _ _
  | i' + 1 =>
    have hc2 : c ∈ (interiorOf R arr ++
      [[((numLayersOf arr - 1, 0) : Cell)]]).getD i' [] := hc
    by_cases hi : i' < (interiorOf R arr).length
    · rw [List.getD_append _ _ _ _ hi] at hc2
      have hmem : (interiorOf R arr).getD i' [] ∈ interiorOf R arr := by
        rw [List.getD_eq_getElem _ _ hi]
        exact List.getElem_mem _
      show c ∈ ((0, 0) : Cell) :: (interiorOf R arr).flatten ++
        [((numLayersOf arr - 1, 0) : Cell)]
      exact List.mem_cons_of_mem _ (List.mem_append_left _
        (List.mem_flatten.mpr ⟨_, hmem, hc2⟩))
    · rw [List.getD_append_right _ _ _ _ (le_of_not_lt hi)] at hc2
      by_cases he : i' - (interiorOf R arr).length = 0
      · rw [he] at hc2
        have hc3 : c ∈ [((numLayersOf arr - 1, 0) : Cell)] := hc2
        rw [List.mem_singleton.mp hc3]
        simp [nodesOf]
      · rw [show i' - (interiorOf R arr).length =
          (i' - (interiorOf R arr).length - 1) + 1 by omega] at hc2
        simp at hc2

theorem nodesOf_layers (R : Rng) (arr : List Int) :
    ∀ c ∈ nodesOf R arr, ∃ i, i < (layersOf R arr).length ∧
      c ∈ (layersOf R arr).getD i [] := by
  intro c hc
  have hlen : (interiorOf R arr).length = numLayersOf arr - 2 :=
    buildInterior_length R _ _ _
  have hL : (layersOf R arr).length = numLayersOf arr := layersOf_length R arr
  have h3 : 3 ≤ numLayersOf arr := le_max_left _ _
  have hc2 : c = ((0, 0) : Cell) ∨ c ∈ (interiorOf R arr).flatten ++
      [((numLayersOf arr - 1, 0) : Cell)] := List.mem_cons.mp hc
  rcases hc2 with rfl | hc2
  · refine ⟨0, by omega, ?_⟩
    show ((0, 0) : Cell) ∈ [((0, 0) : Cell)]
    exact List.mem_singleton.mpr rfl
  · rcases List.mem_append.mp hc2 with hc3 | hc3
    · obtain ⟨l, hl, hcl⟩ := List.mem_flatten.mp hc3
      obtain ⟨j, hj, rfl⟩ := List.mem_iff_getElem.mp hl
      refine ⟨j + 1, by omega, ?_⟩
      show c ∈ (interiorOf R arr ++
        [[((numLayersOf arr - 1, 0) : Cell)]]).getD j []
      rw [List.getD_append _ _ _ _ hj, List.getD_eq_getElem _ _ hj]
      exact hcl
    · rw [List.mem_singleton.mp hc3]
      refine ⟨(interiorOf R arr).length + 1, by omega, ?_⟩
      show ((numLayersOf arr - 1, 0) : Cell) ∈ (interiorOf R arr ++
        [[((numLayersOf arr - 1, 0) : Cell)]]).getD ((interiorOf R arr).length) []
      rw [List.getD_append_right _ _ _ _ (le_refl _)]
      simp

theorem adjApp_of_not_mem (aj : AdjList) (k : Cell) (v : Cell × Nat)
    (hk : k ∉ aj.map Prod.fst) : adjApp aj k v = aj := by
  induction aj with
  | nil => rfl
  | cons p t ih =>
    simp only [List.map_cons, List.mem_cons, not_or] at hk
    have h : p.1 ≠ k := fun e => hk.1 e.symm
    simp only [adjApp, List.map_cons, if_neg h]
    exact congrArg (fun l => p :: l) (ih hk.2)

theorem mem_adjGet_adjApp_iff (aj : AdjList) (k : Cell) (v : Cell × Nat)
    (u : Cell) (x : Cell × Nat) (hk : k ∈ aj.map Prod.fst) :
    x ∈ adjGet (adjApp aj k v) u ↔
      x ∈ adjGet aj u ∨ (u = k ∧ x = v) := by
  by_cases h : u = k
  · subst h
    rw [adjGet_adjApp_same aj u v hk]
    simp
  · rw [adjGet_adjApp_other aj k v u h]
    simp [h]

theorem addEdgesForNode_mono (R : Rng) (node : Cell) :
    ∀ (ts : List Cell) (es : List WEdge) (aj : AdjList) (s : R.State),
      ∃ tail, (addEdgesForNode R node ts es aj s).1 = es ++ tail := by
  intro ts
  induction ts with
  | nil => intro es aj s; exact ⟨[], by simp [addEdgesForNode]⟩
  | cons t ts' ih =>
    intro es aj s
    show ∃ tail, (addEdgesForNode R node (t :: ts') es aj s).1 = es ++ tail
    rw [addEdgesForNode]
    by_cases hd : es.any (fun e => e.1 == node && e.2.1 == t)
    · rw [if_pos hd]
      exact ih es aj s
    · rw [if_neg hd]
      obtain ⟨tail, htail⟩ := ih (es ++ [(node, t, (R.randint 1 10 s).1)]) _ _
      exact ⟨[(node, t, (R.randint 1 10 s).1)] ++ tail, by
        rw [htail, List.append_assoc]⟩

theorem addEdgesForPairs_mono (R : Rng) :
    ∀ (pairs : List (Cell × List Cell)) (es : List WEdge) (aj : AdjList)
      (s : R.State),
      ∃ tail, (addEdgesForPairs R pairs es aj s).1 = es ++ tail := by
  intro pairs
  induction pairs with
  | nil => intro es aj s; exact ⟨[], by simp [addEdgesForPairs]⟩
  | cons pr rest ih =>
    intro es aj s
    obtain ⟨n, ts⟩ := pr
    show ∃ tail, (addEdgesForPairs R ((n, ts) :: rest) es aj s).1 = es ++ tail
    rw [addEdgesForPairs]
    obtain ⟨t1, h1⟩ := addEdgesForNode_mono R n ts es aj s
    obtain ⟨t2, h2⟩ := ih (addEdgesForNode R n ts es aj s).1
      (addEdgesForNode R n ts es aj s).2.1 (addEdgesForNode R n ts es aj s).2.2
    exact ⟨t1 ++ t2, by rw [h2, h1, List.append_assoc]⟩

theorem connectAll_mono (R : Rng) (layers : List (List Cell)) :
    ∀ (idxs : List Nat) (es : List WEdge) (aj : AdjList) (s : R.State),
      ∃ tail, (connectAll R layers idxs (es, aj, s)).1 = es ++ tail := by
  intro idxs
  induction idxs with
  | nil => intro es aj s; exact ⟨[], by simp [connectAll]⟩
  | cons idx rest ih =>
    intro es aj s
    rw [show connectAll R layers (idx :: rest) (es, aj, s) =
      connectAll R layers rest
        (addEdgesForPairs R (pairsAt R layers idx s).1 es aj
          (pairsAt R layers idx s).2) from rfl]
    obtain ⟨t1, h1⟩ := addEdgesForPairs_mono R (pairsAt R layers idx s).1 es aj
      (pairsAt R layers idx s).2
    obtain ⟨t2, h2⟩ := ih (addEdgesForPairs R (pairsAt R layers idx s).1 es aj
        (pairsAt R layers idx s).2).1
      (addEdgesForPairs R (pairsAt R layers idx s).1 es aj
        (pairsAt R layers idx s).2).2.1
      (addEdgesForPairs R (pairsAt R layers idx s).1 es aj
        (pairsAt R layers idx s).2).2.2
    exact ⟨t1 ++ t2, by rw [h2, h1, List.append_assoc]⟩

theorem samplePerNode_spec (R : Rng) (hR : RngOk R) (minc maxc : Nat)
    (next : List Cell) (hm : 1 ≤ minc) (hM : 1 ≤ maxc) (hnext : next ≠ []) :
    ∀ (cur : List Cell) (s : R.State),
      ∀ pr ∈ (samplePerNode R minc maxc next cur s).1,
        pr.1 ∈ cur ∧ (∀ t ∈ pr.2, t ∈ next) ∧ pr.2 ≠ [] := by
  have hlen1 : 1 ≤ next.length := by
    cases next with
    | nil => exact absurd rfl hnext
    | cons a t => simp
  intro cur
  induction cur with
  | nil => intro s pr hpr; simp [samplePerNode] at hpr
  | cons n rest ih =>
    intro s pr hpr
    have hpos : 0 < min maxc next.length := by
      have := min_le_right maxc next.length
      have h2 : 1 ≤ min maxc next.length := le_min hM hlen1
      omega
    simp only [samplePerNode] at hpr
    rw [if_pos hpos] at hpr
    have hlow : min minc (min maxc next.length) ≤ min maxc next.length :=
      min_le_right _ _
    simp only [List.mem_cons] at hpr
    rcases hpr with rfl | hpr
    · refine ⟨List.mem_cons_self _ _, ?_, ?_⟩
      · intro t ht
        exact hR.sample_subset next _ _ t ht
      · have h1 : 1 ≤ (R.randint (min minc (min maxc next.length))
            (min maxc next.length) s).1 := by
          have := hR.randint_ge _ _ s hlow
          have h2 : 1 ≤ min minc (min maxc next.length) :=
            le_min hm (by omega)
          omega
        have hle : (R.randint (min minc (min maxc next.length))
            (min maxc next.length) s).1 ≤ next.length := by
          have := hR.randint_le _ _ s hlow
          have := min_le_right maxc next.length
          omega
        have hlen := hR.sample_length next _
          (R.randint (min minc (min maxc next.length))
            (min maxc next.length) s).2 hle
        intro hcon
        have hcon2 : (R.sample next
            (R.randint (min minc (min maxc next.length))
              (min maxc next.length) s).1
            (R.randint (min minc (min maxc next.length))
              (min maxc next.length) s).2).1 = [] := hcon
        rw [hcon2] at hlen
        simp at hlen
        omega
    · obtain ⟨ha, hb, hc⟩ := ih _ pr hpr
      exact ⟨List.mem_cons_of_mem _ ha, hb, hc⟩

theorem addEdgesForNode_inv (R : Rng) (N : List Cell) (node : Cell) (k : Nat)
    (hnode : node ∈ N ∧ node.1 = k) :
    ∀ (ts : List Cell) (es : List WEdge) (aj : AdjList) (s : R.State),
      (∀ t ∈ ts, t ∈ N ∧ t.1 = k + 1) →
      aj.map Prod.fst = N → AdjHas es aj → AdjSym aj →
      (∀ e ∈ es, e.2.1.1 = e.1.1 + 1) →
      ((addEdgesForNode R node ts es aj s).2.1.map Prod.fst = N) ∧
      AdjHas (addEdgesForNode R node ts es aj s).1
        (addEdgesForNode R node ts es aj s).2.1 ∧
      AdjSym (addEdgesForNode R node ts es aj s).2.1 ∧
      (∀ e ∈ (addEdgesForNode R node ts es aj s).1, e.2.1.1 = e.1.1 + 1) := by
  intro ts
  induction ts with
  | nil =>
    intro es aj s _ hkeys hHas hSym hCon
    exact ⟨hkeys, hHas, hSym, hCon⟩
  | cons t ts' ih =>
    intro es aj s hts hkeys hHas hSym hCon
    have htN : t ∈ N ∧ t.1 = k + 1 := hts t (List.mem_cons_self _ _)
    have hts' : ∀ x ∈ ts', x ∈ N ∧ x.1 = k + 1 :=
      fun x hx => hts x (List.mem_cons_of_mem _ hx)
    show _ ∧ AdjHas (addEdgesForNode R node (t :: ts') es aj s).1 _ ∧ _ ∧ _
    rw [addEdgesForNode]
    by_cases hd : es.any (fun e => e.1 == node && e.2.1 == t)
    · rw [if_pos hd]
      exact ih es aj s hts' hkeys hHas hSym hCon
    · rw [if_neg hd]
      set w := (R.randint 1 10 s).1 with hw
      have hkeys1 : (adjApp aj node (t, w)).map Prod.fst = N := by
        rw [adjApp_keys]; exact hkeys
      have hkeys2 : (adjApp (adjApp aj node (t, w)) t (node, w)).map Prod.fst
          = N := by
        rw [adjApp_keys]; exact hkeys1
      have hnodeK : node ∈ aj.map Prod.fst := by rw [hkeys]; exact hnode.1
      have htK1 : t ∈ (adjApp aj node (t, w)).map Prod.fst := by
        rw [hkeys1]; exact htN.1
      have hnodeK1 : node ∈ (adjApp aj node (t, w)).map Prod.fst := by
        rw [hkeys1]; exact hnode.1
      have hHas' : AdjHas (es ++ [(node, t, w)])
          (adjApp (adjApp aj node (t, w)) t (node, w)) := by
        intro u v w' huvw
        rcases List.mem_append.mp huvw with hold | hnew
        · obtain ⟨h1, h2⟩ := hHas u v w' hold
          exact ⟨adjGet_adjApp_mono _ _ _ _ _ (adjGet_adjApp_mono _ _ _ _ _ h1),
            adjGet_adjApp_mono _ _ _ _ _ (adjGet_adjApp_mono _ _ _ _ _ h2)⟩
        · have he : u = node ∧ v = t ∧ w' = w := by
            simpa using hnew
          obtain ⟨rfl, rfl, rfl⟩ := he
          constructor
          · apply adjGet_adjApp_mono
            rw [adjGet_adjApp_same aj u (v, w) hnodeK]
            exact List.mem_append_right _ (List.mem_singleton.mpr rfl)
          · rw [adjGet_adjApp_same _ v (u, w) htK1]
            exact List.mem_append_right _ (List.mem_singleton.mpr rfl)
      have hSym' : AdjSym (adjApp (adjApp aj node (t, w)) t (node, w)) := by
        intro u v w' h
        rcases (mem_adjGet_adjApp_iff _ t (node, w) u (v, w') htK1).mp h with
          h1 | ⟨rfl, he⟩
        · rcases (mem_adjGet_adjApp_iff _ node (t, w) u (v, w') hnodeK).mp h1
            with h2 | ⟨rfl, he⟩
          · have := hSym u v w' h2
            exact adjGet_adjApp_mono _ _ _ _ _
              (adjGet_adjApp_mono _ _ _ _ _ this)
          · obtain ⟨rfl, rfl⟩ : v = t ∧ w' = w :=
              ⟨congrArg Prod.fst he, congrArg Prod.snd he⟩
            rw [adjGet_adjApp_same _ v (u, w) htK1]
            exact List.mem_append_right _ (List.mem_singleton.mpr rfl)
        · obtain ⟨rfl, rfl⟩ : v = node ∧ w' = w :=
            ⟨congrArg Prod.fst he, congrArg Prod.snd he⟩
          apply adjGet_adjApp_mono
          rw [adjGet_adjApp_same aj v (u, w) hnodeK]
          exact List.mem_append_right _ (List.mem_singleton.mpr rfl)
      have hCon' : ∀ e ∈ es ++ [(node, t, w)], e.2.1.1 = e.1.1 + 1 := by
        intro e he
        rcases List.mem_append.mp he with h1 | h2
        · exact hCon e h1
        · have : e = (node, t, w) := by simpa using h2
          rw [this]
          show t.1 = node.1 + 1
          rw [htN.2, hnode.2]
      exact ih _ _ _ hts' hkeys2 hHas' hSym' hCon'

theorem addEdgesForNode_cover (R : Rng) (node : Cell) :
    ∀ (t : Cell) (ts : List Cell) (es : List WEdge) (aj : AdjList)
      (s : R.State),
      ∃ t' w, (node, t', w) ∈ (addEdgesForNode R node (t :: ts) es aj s).1 ∧
        t' ∈ t :: ts := by
  intro t ts es aj s
  show ∃ t' w, (node, t', w) ∈ (addEdgesForNode R node (t :: ts) es aj s).1 ∧ _
  rw [addEdgesForNode]
  by_cases hd : es.any (fun e => e.1 == node && e.2.1 == t)
  · rw [if_pos hd]
    obtain ⟨e, he, hcond⟩ := List.any_eq_true.mp hd
    have h1 : e.1 = node ∧ e.2.1 = t := by
      have := Bool.and_eq_true_iff.mp hcond
      exact ⟨by simpa using this.1, by simpa using this.2⟩
    obtain ⟨tail, htail⟩ := addEdgesForNode_mono R node ts es aj s
    refine ⟨t, e.2.2, ?_, List.mem_cons_self _ _⟩
    rw [htail]
    apply List.mem_append_left
    have : e = (node, t, e.2.2) := by
      obtain ⟨a, b, c⟩ := e
      simp only at h1
      simp [h1.1, h1.2]
    rw [← this]
    exact he
  · rw [if_neg hd]
    obtain ⟨tail, htail⟩ := addEdgesForNode_mono R node ts
      (es ++ [(node, t, (R.randint 1 10 s).1)]) _ _
    refine ⟨t, (R.randint 1 10 s).1, ?_, List.mem_cons_self _ _⟩
    rw [htail]
    apply List.mem_append_left
    exact List.mem_append_right _ (List.mem_singleton.mpr rfl)

theorem addEdgesForPairs_inv (R : Rng) (N : List Cell) (k : Nat) :
    ∀ (pairs : List (Cell × List Cell)) (es : List WEdge) (aj : AdjList)
      (s : R.State),
      (∀ pr ∈ pairs, (pr.1 ∈ N ∧ pr.1.1 = k) ∧
        ∀ t ∈ pr.2, t ∈ N ∧ t.1 = k + 1) →
      aj.map Prod.fst = N → AdjHas es aj → AdjSym aj →
      (∀ e ∈ es, e.2.1.1 = e.1.1 + 1) →
      ((addEdgesForPairs R pairs es aj s).2.1.map Prod.fst = N) ∧
      AdjHas (addEdgesForPairs R pairs es aj s).1
        (addEdgesForPairs R pairs es aj s).2.1 ∧
      AdjSym (addEdgesForPairs R pairs es aj s).2.1 ∧
      (∀ e ∈ (addEdgesForPairs R pairs es aj s).1, e.2.1.1 = e.1.1 + 1) := by
  intro pairs
  induction pairs with
  | nil =>
    intro es aj s _ hkeys hHas hSym hCon
    exact ⟨hkeys, hHas, hSym, hCon⟩
  | cons pr rest ih =>
    intro es aj s hprs hkeys hHas hSym hCon
    obtain ⟨n, ts⟩ := pr
    have hn := (hprs (n, ts) (List.mem_cons_self _ _)).1
    have hts := (hprs (n, ts) (List.mem_cons_self _ _)).2
    have hrest : ∀ pr ∈ rest, (pr.1 ∈ N ∧ pr.1.1 = k) ∧
        ∀ t ∈ pr.2, t ∈ N ∧ t.1 = k + 1 :=
      fun pr hpr => hprs pr (List.mem_cons_of_mem _ hpr)
    show _ ∧ AdjHas (addEdgesForPairs R ((n, ts) :: rest) es aj s).1 _ ∧ _ ∧ _
    rw [addEdgesForPairs]
    obtain ⟨h1, h2, h3, h4⟩ :=
      addEdgesForNode_inv R N n k hn ts es aj s hts hkeys hHas hSym hCon
    exact ih _ _ _ hrest h1 h2 h3 h4

theorem addEdgesForPairs_cover (R : Rng) :
    ∀ (pairs : List (Cell × List Cell)) (es : List WEdge) (aj : AdjList)
      (s : R.State) (n : Cell) (ts : List Cell),
      (n, ts) ∈ pairs → ts ≠ [] →
      ∃ t w, (n, t, w) ∈ (addEdgesForPairs R pairs es aj s).1 ∧ t ∈ ts := by
  intro pairs
  induction pairs with
  | nil => intro es aj s n ts h _; simp at h
  | cons pr rest ih =>
    intro es aj s n ts hmem hne
    obtain ⟨m, ms⟩ := pr
    rw [show addEdgesForPairs R ((m, ms) :: rest) es aj s =
      addEdgesForPairs R rest (addEdgesForNode R m ms es aj s).1
        (addEdgesForNode R m ms es aj s).2.1
        (addEdgesForNode R m ms es aj s).2.2 from rfl]
    rcases List.mem_cons.mp hmem with he | hmem2
    · have hn : m = n ∧ ms = ts := by
        have h1 := congrArg Prod.fst he
        have h2 := congrArg Prod.snd he
        exact ⟨h1.symm, h2.symm⟩
      obtain ⟨rfl, rfl⟩ := hn
      cases ms with
      | nil => exact absurd rfl hne
      | cons t0 ts0 =>
        obtain ⟨t, w, hw, htm⟩ := addEdgesForNode_cover R m t0 ts0 es aj s
        obtain ⟨tail, htail⟩ := addEdgesForPairs_mono R rest
          (addEdgesForNode R m (t0 :: ts0) es aj s).1
          (addEdgesForNode R m (t0 :: ts0) es aj s).2.1
          (addEdgesForNode R m (t0 :: ts0) es aj s).2.2
        refine ⟨t, w, ?_, htm⟩
        rw [htail]
        exact List.mem_append_left _ hw
    · exact ih _ _ _ n ts hmem2 hne

theorem samplePerNode_basic (R : Rng) (hR : RngOk R) (minc maxc : Nat)
    (next : List Cell) :
    ∀ (cur : List Cell) (s : R.State),
      ∀ pr ∈ (samplePerNode R minc maxc next cur s).1,
        pr.1 ∈ cur ∧ ∀ t ∈ pr.2, t ∈ next := by
  intro cur
  induction cur with
  | nil => intro s pr hpr; simp [samplePerNode] at hpr
  | cons n rest ih =>
    intro s pr hpr
    simp only [samplePerNode, List.mem_cons] at hpr
    rcases hpr with rfl | hpr
    · exact ⟨List.mem_cons_self _ _, fun t ht => hR.sample_subset next _ _ t ht⟩
    · obtain ⟨ha, hb⟩ := ih _ pr hpr
      exact ⟨List.mem_cons_of_mem _ ha, hb⟩

theorem samplePerNode_fst (R : Rng) (minc maxc : Nat) (next : List Cell) :
    ∀ (cur : List Cell) (s : R.State),
      ((samplePerNode R minc maxc next cur s).1).map Prod.fst = cur := by
  intro cur
  induction cur with
  | nil => intro s; rfl
  | cons n rest ih =>
    intro s
    simp only [samplePerNode, List.map_cons]
    rw [ih]

theorem pairsAt_spec (R : Rng) (hR : RngOk R) (layers : List (List Cell))
    (idx : Nat) (s : R.State) :
    ∀ pr ∈ (pairsAt R layers idx s).1,
      pr.1 ∈ layers.getD idx [] ∧ ∀ t ∈ pr.2, t ∈ layers.getD (idx + 1) [] := by
  intro pr hpr
  unfold pairsAt at hpr
  by_cases h0 : idx = 0
  · rw [if_pos h0] at hpr
    obtain ⟨n, hn, rfl⟩ := List.mem_map.mp hpr
    exact ⟨hn, fun t ht => ht⟩
  · rw [if_neg h0] at hpr
    by_cases h1 : idx = layers.length - 2
    · rw [if_pos h1] at hpr
      obtain ⟨n, hn, rfl⟩ := List.mem_map.mp hpr
      exact ⟨hn, fun t ht => ht⟩
    · rw [if_neg h1] at hpr
      exact samplePerNode_basic R hR _ _ _ _ _ pr hpr

theorem pairsAt_cover (R : Rng) (hR : RngOk R) (layers : List (List Cell))
    (idx : Nat) (s : R.State) (u : Cell) (hu : u ∈ layers.getD idx [])
    (hnext : layers.getD (idx + 1) [] ≠ []) :
    ∃ ts, (u, ts) ∈ (pairsAt R layers idx s).1 ∧ ts ≠ [] := by
  unfold pairsAt
  by_cases h0 : idx = 0
  · rw [if_pos h0]
    exact ⟨_, List.mem_map.mpr ⟨u, hu, rfl⟩, hnext⟩
  · rw [if_neg h0]
    by_cases h1 : idx = layers.length - 2
    · rw [if_pos h1]
      exact ⟨_, List.mem_map.mpr ⟨u, hu, rfl⟩, hnext⟩
    · rw [if_neg h1]
      have hfst := samplePerNode_fst R (if layers.length < 7 then 2 else 1)
        (if layers.length < 7 then 3 else 2) (layers.getD (idx + 1) [])
        (layers.getD idx []) s
      have humem : u ∈ ((samplePerNode R (if layers.length < 7 then 2 else 1)
          (if layers.length < 7 then 3 else 2) (layers.getD (idx + 1) [])
          (layers.getD idx []) s).1).map Prod.fst := by
        rw [hfst]; exact hu
      obtain ⟨pr, hpr, hpreq⟩ := List.mem_map.mp humem
      obtain ⟨n, ts⟩ := pr
      have : n = u := hpreq
      subst this
      refine ⟨ts, hpr, ?_⟩
      have := samplePerNode_spec R hR _ _ _
        (by split <;> omega) (by split <;> omega) hnext _ _ _ hpr
      exact this.2.2

theorem connectAll_inv (R : Rng) (hR : RngOk R) (layers : List (List Cell))
    (N : List Cell)
    (hLN : ∀ i, ∀ c ∈ layers.getD i [], c ∈ N)
    (hfst : ∀ i, ∀ c ∈ layers.getD i [], c.1 = i) :
    ∀ (idxs : List Nat) (es : List WEdge) (aj : AdjList) (s : R.State),
      aj.map Prod.fst = N → AdjHas es aj → AdjSym aj →
      (∀ e ∈ es, e.2.1.1 = e.1.1 + 1) →
      ((connectAll R layers idxs (es, aj, s)).2.1.map Prod.fst = N) ∧
      AdjHas (connectAll R layers idxs (es, aj, s)).1
        (connectAll R layers idxs (es, aj, s)).2.1 ∧
      AdjSym (connectAll R layers idxs (es, aj, s)).2.1 ∧
      (∀ e ∈ (connectAll R layers idxs (es, aj, s)).1, e.2.1.1 = e.1.1 + 1) := by
  intro idxs
  induction idxs with
  | nil =>
    intro es aj s hkeys hHas hSym hCon
    exact ⟨hkeys, hHas, hSym, hCon⟩
  | cons idx rest ih =>
    intro es aj s hkeys hHas hSym hCon
    rw [show connectAll R layers (idx :: rest) (es, aj, s) =
      connectAll R layers rest
        (addEdgesForPairs R (pairsAt R layers idx s).1 es aj
          (pairsAt R layers idx s).2) from rfl]
    have hpairs : ∀ pr ∈ (pairsAt R layers idx s).1,
        (pr.1 ∈ N ∧ pr.1.1 = idx) ∧ ∀ t ∈ pr.2, t ∈ N ∧ t.1 = idx + 1 := by
      intro pr hpr
      obtain ⟨h1, h2⟩ := pairsAt_spec R hR layers idx s pr hpr
      exact ⟨⟨hLN idx pr.1 h1, hfst idx pr.1 h1⟩,
        fun t ht => ⟨hLN (idx + 1) t (h2 t ht), hfst (idx + 1) t (h2 t ht)⟩⟩
    obtain ⟨h1, h2, h3, h4⟩ := addEdgesForPairs_inv R N idx
      (pairsAt R layers idx s).1 es aj (pairsAt R layers idx s).2
      hpairs hkeys hHas hSym hCon
    exact ih _ _ _ h1 h2 h3 h4

theorem connectAll_cover (R : Rng) (hR : RngOk R) (layers : List (List Cell)) :
    ∀ (idxs : List Nat) (es : List WEdge) (aj : AdjList) (s : R.State)
      (k : Nat) (u : Cell),
      k ∈ idxs → u ∈ layers.getD k [] → layers.getD (k + 1) [] ≠ [] →
      ∃ t w, (u, t, w) ∈ (connectAll R layers idxs (es, aj, s)).1 ∧
        t ∈ layers.getD (k + 1) [] := by
  intro idxs
  induction idxs with
  | nil => intro es aj s k u hk _ _; simp at hk
  | cons idx rest ih =>
    intro es aj s k u hk hu hnext
    rw [show connectAll R layers (idx :: rest) (es, aj, s) =
      connectAll R layers rest
        (addEdgesForPairs R (pairsAt R layers idx s).1 es aj
          (pairsAt R layers idx s).2) from rfl]
    rcases List.mem_cons.mp hk with rfl | hk2
    · obtain ⟨ts, hts, htsne⟩ := pairsAt_cover R hR layers k s u hu hnext
      obtain ⟨t, w, htw, htts⟩ :=
        addEdgesForPairs_cover R (pairsAt R layers k s).1 es aj
          (pairsAt R layers k s).2 u ts hts htsne
      obtain ⟨tail, htail⟩ := connectAll_mono R layers rest
        (addEdgesForPairs R (pairsAt R layers k s).1 es aj
          (pairsAt R layers k s).2).1
        (addEdgesForPairs R (pairsAt R layers k s).1 es aj
          (pairsAt R layers k s).2).2.1
        (addEdgesForPairs R (pairsAt R layers k s).1 es aj
          (pairsAt R layers k s).2).2.2
      refine ⟨t, w, ?_, ?_⟩
      · rw [htail]
        exact List.mem_append_left _ htw
      · have := pairsAt_spec R hR layers k s (u, ts) hts
        exact this.2 t htts
    · exact ih _ _ _ k u hk2 hu hnext

theorem adjGet_init (N : List Cell) (u : Cell) :
    adjGet (N.map (fun n => (n, ([] : List (Cell × Nat))))) u = [] := by
  induction N with
  | nil => rfl
  | cons n rest ih =>
    by_cases h : n = u
    · simp [adjGet, alook, h]
    · simpa [adjGet, alook, h] using ih

theorem layersOf_ne (R : Rng) (hR : RngOk R) (arr : List Int) :
    ∀ j, j < numLayersOf arr → (layersOf R arr).getD j [] ≠ [] := by
  intro j hj
  have hlen : (interiorOf R arr).length = numLayersOf arr - 2 :=
    buildInterior_length R _ _ _
  have h3 : 3 ≤ numLayersOf arr := le_max_left _ _
  match j with
  | 0 => simp [layersOf]
  | j' + 1 =>
    show (interiorOf R arr ++ [[((numLayersOf arr - 1, 0) : Cell)]]).getD j' []
      ≠ []
    by_cases hi : j' < (interiorOf R arr).length
    · rw [List.getD_append _ _ _ _ hi]
      exact buildInterior_getD_ne R hR (numLayersOf arr - 2) 1 _ j' (by omega)
    · rw [List.getD_append_right _ _ _ _ (le_of_not_lt hi)]
      have he : j' - (interiorOf R arr).length = 0 := by omega
      rw [he]
      simp

theorem layersOf_last (R : Rng) (arr : List Int) :
    (layersOf R arr).getD (numLayersOf arr - 1) [] =
      [((numLayersOf arr - 1, 0) : Cell)] := by
  have hlen : (interiorOf R arr).length = numLayersOf arr - 2 :=
    buildInterior_length R _ _ _
  have h3 : 3 ≤ numLayersOf arr := le_max_left _ _
  rw [show numLayersOf arr - 1 = ((interiorOf R arr).length) + 1 by omega]
  show (interiorOf R arr ++ [[((numLayersOf arr - 1, 0) : Cell)]]).getD
    ((interiorOf R arr).length) [] = _
  rw [List.getD_append_right _ _ _ _ (le_refl _)]
  simp
  omega

theorem nodesOf_top_is_goal (R : Rng) (arr : List Int) (u : Cell)
    (hu : u ∈ nodesOf R arr) (htop : u.1 = numLayersOf arr - 1) :
    u = (numLayersOf arr - 1, 0) := by
  obtain ⟨i, hi, hmem⟩ := nodesOf_layers R arr u hu
  have hfi : u.1 = i := layersOf_fst R arr i u hmem
  rw [hfi] at htop
  rw [htop] at hmem
  rw [layersOf_last R arr] at hmem
  exact List.mem_singleton.mp hmem

theorem nodesOf_fst_le (R : Rng) (arr : List Int) (u : Cell)
    (hu : u ∈ nodesOf R arr) : u.1 ≤ numLayersOf arr - 1 := by
  obtain ⟨i, hi, hmem⟩ := nodesOf_layers R arr u hu
  have hfi : u.1 = i := layersOf_fst R arr i u hmem
  have hL : (layersOf R arr).length = numLayersOf arr := layersOf_length R arr
  omega

theorem buildInterior_flatten_fst (R : Rng) :
    ∀ (n lid : Nat) (s : R.State), ∀ c ∈ ((buildInterior R lid n s).1).flatten,
      lid ≤ c.1 ∧ c.1 < lid + n := by
  intro n
  induction n with
  | zero => intro lid s c hc; simp [buildInterior] at hc
  | succ m ih =>
    intro lid s c hc
    simp only [buildInterior, List.flatten_cons, List.mem_append] at hc
    rcases hc with hc | hc
    · obtain ⟨j, _, rfl⟩ := List.mem_map.mp hc
      show lid ≤ lid ∧ lid < lid + (m + 1)
      omega
    · have := ih (lid + 1) _ c hc
      omega

theorem genWeighted_edges_eq (R : Rng) (g0 : R.State) (arr : List Int) :
    (genWeighted R g0 arr).edges =
      (connectAll R (layersOf R arr)
        (List.range ((layersOf R arr).length - 1))
        ([], (nodesOf R arr).map (fun n => (n, [])),
          interiorStateOf R arr)).1 := rfl

theorem genWeighted_adj_eq (R : Rng) (g0 : R.State) (arr : List Int) :
    (genWeighted R g0 arr).adj =
      (connectAll R (layersOf R arr)
        (List.range ((layersOf R arr).length - 1))
        ([], (nodesOf R arr).map (fun n => (n, [])),
          interiorStateOf R arr)).2.1 := rfl

theorem genWeighted_inv (R : Rng) (hR : RngOk R) (g0 : R.State)
    (arr : List Int) :
    ((genWeighted R g0 arr).adj.map Prod.fst = nodesOf R arr) ∧
    AdjHas (genWeighted R g0 arr).edges (genWeighted R g0 arr).adj ∧
    AdjSym (genWeighted R g0 arr).adj ∧
    (∀ e ∈ (genWeighted R g0 arr).edges, e.2.1.1 = e.1.1 + 1) := by
  rw [genWeighted_edges_eq, genWeighted_adj_eq]
  apply connectAll_inv R hR (layersOf R arr) (nodesOf R arr)
    (layersOf_subset_nodes R arr) (layersOf_fst R arr)
  · simp [Function.comp_def]
  · intro u v w h
    simp at h
  · intro u v w h
    rw [adjGet_init] at h
    simp at h
  · intro e he
    simp at he

theorem genWeighted_edge_from (R : Rng) (hR : RngOk R) (g0 : R.State)
    (arr : List Int) (u : Cell) (hu : u ∈ (genWeighted R g0 arr).nodes)
    (hlt : u.1 < numLayersOf arr - 1) :
    ∃ t w, (u, t, w) ∈ (genWeighted R g0 arr).edges ∧
      t ∈ (layersOf R arr).getD (u.1 + 1) [] := by
  have hu2 : u ∈ nodesOf R arr := hu
  obtain ⟨i, hi, hmem⟩ := nodesOf_layers R arr u hu2
  have hfi : u.1 = i := layersOf_fst R arr i u hmem
  have hL : (layersOf R arr).length = numLayersOf arr := layersOf_length R arr
  rw [genWeighted_edges_eq]
  apply connectAll_cover R hR (layersOf R arr) _ _ _ _ u.1 u
  · rw [List.mem_range]
    omega
  · rw [hfi]; exact hmem
  · exact layersOf_ne R hR arr (u.1 + 1) (by omega)

theorem genWeighted_reach_goal (R : Rng) (hR : RngOk R) (g0 : R.State)
    (arr : List Int) :
    ∀ (m : Nat) (u : Cell), u ∈ (genWeighted R g0 arr).nodes →
      numLayersOf arr - 1 - u.1 ≤ m →
      wReach (genWeighted R g0 arr) u (genWeighted R g0 arr).goal := by
  obtain ⟨hkeys, hHas, hSym, hCon⟩ := genWeighted_inv R hR g0 arr
  intro m
  induction m with
  | zero =>
    intro u hu hm
    have hle : u.1 ≤ numLayersOf arr - 1 := nodesOf_fst_le R arr u hu
    have : u = (numLayersOf arr - 1, 0) :=
      nodesOf_top_is_goal R arr u hu (by omega)
    rw [show (genWeighted R g0 arr).goal = (numLayersOf arr - 1, 0) from rfl,
      this]
    exact Relation.ReflTransGen.refl
  | succ m ih =>
    intro u hu hm
    by_cases hg : u = (numLayersOf arr - 1, 0)
    · rw [show (genWeighted R g0 arr).goal = (numLayersOf arr - 1, 0) from rfl,
        hg]
      exact Relation.ReflTransGen.refl
    · have hle : u.1 ≤ numLayersOf arr - 1 := nodesOf_fst_le R arr u hu
      have hlt : u.1 < numLayersOf arr - 1 := by
        rcases Nat.lt_or_ge u.1 (numLayersOf arr - 1) with h | h
        · exact h
        · exact absurd (nodesOf_top_is_goal R arr u hu (by omega)) hg
      obtain ⟨t, w, htw, hts⟩ := genWeighted_edge_from R hR g0 arr u hu hlt
      have htn : t ∈ (genWeighted R g0 arr).nodes :=
        layersOf_subset_nodes R arr (u.1 + 1) t hts
      have htf : t.1 = u.1 + 1 := layersOf_fst R arr (u.1 + 1) t hts
      have hadj : wAdjacent (genWeighted R g0 arr) u t :=
        ⟨w, (hHas u t w htw).1⟩
      exact Relation.ReflTransGen.head hadj (ih t htn (by omega))

theorem numLayersOf_head (arr : List Int) (k : Int)
    (hhead : arr.head? = some k) (hk : 0 < k) :
    numLayersOf arr = max 3 (min k.toNat 10) := by
  cases arr with
  | nil => simp at hhead
  | cons a t =>
    have ha : a = k := by simpa using hhead
    subst ha
    simp only [numLayersOf, levelOf]
    rw [if_pos hk]

theorem nodesOf_exists_layer (R : Rng) (hR : RngOk R) (arr : List Int)
    (l : Nat) (hl : l < numLayersOf arr) :
    ∃ n ∈ nodesOf R arr, n.1 = l := by
  have hL : (layersOf R arr).length = numLayersOf arr := layersOf_length R arr
  have hne := layersOf_ne R hR arr l hl
  obtain ⟨c, hc⟩ := List.exists_mem_of_ne_nil _ hne
  exact ⟨c, layersOf_subset_nodes R arr l c hc, layersOf_fst R arr l c hc⟩

theorem genWeighted_degree (R : Rng) (hR : RngOk R) (g0 : R.State)
    (arr : List Int) :
    ∀ n ∈ (genWeighted R g0 arr).nodes,
      adjGet (genWeighted R g0 arr).adj n ≠ [] := by
  obtain ⟨hkeys, hHas, hSym, hCon⟩ := genWeighted_inv R hR g0 arr
  have h3 : 3 ≤ numLayersOf arr := le_max_left _ _
  intro u hu
  have hle : u.1 ≤ numLayersOf arr - 1 := nodesOf_fst_le R arr u hu
  by_cases hlt : u.1 < numLayersOf arr - 1
  · obtain ⟨t, w, htw, _⟩ := genWeighted_edge_from R hR g0 arr u hu hlt
    exact List.ne_nil_of_mem (hHas u t w htw).1
  · have hgoal : u = (numLayersOf arr - 1, 0) :=
      nodesOf_top_is_goal R arr u hu (by omega)
    have hpen : (layersOf R arr).getD (numLayersOf arr - 2) [] ≠ [] :=
      layersOf_ne R hR arr (numLayersOf arr - 2) (by omega)
    obtain ⟨v, hv⟩ := List.exists_mem_of_ne_nil _ hpen
    have hvn : v ∈ (genWeighted R g0 arr).nodes :=
      layersOf_subset_nodes R arr _ v hv
    have hvf : v.1 = numLayersOf arr - 2 := layersOf_fst R arr _ v hv
    obtain ⟨t, w, htw, hts⟩ := genWeighted_edge_from R hR g0 arr v hvn
      (by omega)
    have hts2 : t ∈ (layersOf R arr).getD (numLayersOf arr - 1) [] := by
      rw [show v.1 + 1 = numLayersOf arr - 1 by omega] at hts
      exact hts
    rw [layersOf_last R arr] at hts2
    have : t = (numLayersOf arr - 1, 0) := List.mem_singleton.mp hts2
    subst this
    rw [hgoal]
    exact List.ne_nil_of_mem (hHas v _ w htw).2

theorem genWeighted_connected (R : Rng) (hR : RngOk R) (g0 : R.State)
    (arr : List Int) :
    ∀ n ∈ (genWeighted R g0 arr).nodes,
      wReach (genWeighted R g0 arr) (genWeighted R g0 arr).start n := by
  obtain ⟨hkeys, hHas, hSym, hCon⟩ := genWeighted_inv R hR g0 arr
  intro n hn
  have hsymm : Symmetric (wAdjacent (genWeighted R g0 arr)) := by
    intro u v ⟨w, h⟩
    exact ⟨w, hSym u v w h⟩
  have hstart : (genWeighted R g0 arr).start ∈ (genWeighted R g0 arr).nodes :=
    List.mem_cons_self _ _
  have h1 : wReach (genWeighted R g0 arr) (genWeighted R g0 arr).start
      (genWeighted R g0 arr).goal :=
    genWeighted_reach_goal R hR g0 arr (numLayersOf arr) _ hstart
      (by omega)
  have h2 : wReach (genWeighted R g0 arr) n (genWeighted R g0 arr).goal :=
    genWeighted_reach_goal R hR g0 arr (numLayersOf arr) n hn (by omega)
  exact h1.trans (Relation.ReflTransGen.symmetric hsymm h2)

theorem filter_cons_pos {α : Type} (p : α → Bool) (a : α) (l : List α)
    (h : p a = true) : (a :: l).filter p = a :: l.filter p := by
  rw [List.filter_cons, if_pos h]

theorem filter_cons_neg {α : Type} (p : α → Bool) (a : α) (l : List α)
    (h : p a = false) : (a :: l).filter p = l.filter p := by
  rw [List.filter_cons, if_neg (by simp [h])]

theorem filter_drop_left {α : Type} (p : α → Bool) (l l2 : List α)
    (h : ∀ c ∈ l, p c = false) : (l ++ l2).filter p = l2.filter p := by
  induction l with
  | nil => rfl
  | cons a t ih =>
    rw [List.cons_append, filter_cons_neg p a _ (h a (List.mem_cons_self _ _))]
    exact ih (fun c hc => h c (List.mem_cons_of_mem _ hc))

/-- C4 (amended): `_generate_weighted_graph` adds no skip edge at all: every
edge it returns joins consecutive layers (the target's layer is the source's
layer plus one), so in particular no edge joins the layer-0 start to a node
of layer 2, for every RNG behaviour satisfying the `random` contract. -/
theorem genWeighted_edges_join_consecutive_layers (R : Rng) (h : RngOk R)
    (g0 : R.State) (arr : List Int) :
    (∀ e ∈ (genWeighted R g0 arr).edges, e.2.1.1 = e.1.1 + 1) ∧
    (¬ ∃ e ∈ (genWeighted R g0 arr).edges, e.1.1 = 0 ∧ e.2.1.1 = 2) := by
  obtain ⟨_, _, _, hCon⟩ := genWeighted_inv R h g0 arr
  refine ⟨hCon, ?_⟩
  rintro ⟨e, he, h1, h2⟩
  have := hCon e he
  omega

/-- Witness for C4's amended theorem at the trivial model and level 4. -/
theorem genWeighted_edges_join_consecutive_layers_witness :
    (∀ e ∈ (genWeighted idRng () [4]).edges, e.2.1.1 = e.1.1 + 1) ∧
    (¬ ∃ e ∈ (genWeighted idRng () [4]).edges, e.1.1 = 0 ∧ e.2.1.1 = 2) :=
  genWeighted_edges_join_consecutive_layers idRng idRng_ok () [4]

/-- C5: for every positive level input and every RNG behaviour satisfying
the `random` contract, the generated layered graph gives every node at
least one incident adjacency entry and is connected (undirected reachability
from `start` covers every node); for `level = 4` it has exactly the layers
`0..3`, with layer 0 = `{start}` and layer 3 = `{goal}` as singletons. -/
theorem genWeighted_degree_connectivity_layers (R : Rng) (h : RngOk R)
    (g0 : R.State) (arr : List Int) (k : Int)
    (hhead : arr.head? = some k) (hk : 1 ≤ k) :
    (∀ n ∈ (genWeighted R g0 arr).nodes,
      adjGet (genWeighted R g0 arr).adj n ≠ []) ∧
    (∀ n ∈ (genWeighted R g0 arr).nodes,
      wReach (genWeighted R g0 arr) (genWeighted R g0 arr).start n) ∧
    (k = 4 →
      ((genWeighted R g0 arr).nodes.filter (fun n => n.1 == 0) = [(0, 0)]) ∧
      ((genWeighted R g0 arr).nodes.filter (fun n => n.1 == 3) = [(3, 0)]) ∧
      (genWeighted R g0 arr).goal = (3, 0) ∧
      (∀ n ∈ (genWeighted R g0 arr).nodes, n.1 ≤ 3) ∧
      (∀ l, l ≤ 3 → ∃ n ∈ (genWeighted R g0 arr).nodes, n.1 = l)) := by
  refine ⟨genWeighted_degree R h g0 arr, genWeighted_connected R h g0 arr, ?_⟩
  intro hk4
  have hL4 : numLayersOf arr = 4 := by
    rw [numLayersOf_head arr k hhead (by omega), hk4]
    decide
  have hflat : ∀ c ∈ (interiorOf R arr).flatten, 1 ≤ c.1 ∧ c.1 < 3 := by
    intro c hc
    have := buildInterior_flatten_fst R (numLayersOf arr - 2) 1 _ c hc
    omega
  have hnodes : (genWeighted R g0 arr).nodes =
      ((0, 0) : Cell) :: (interiorOf R arr).flatten ++
        [((numLayersOf arr - 1, 0) : Cell)] := rfl
  refine ⟨?_, ?_, ?_, ?_, ?_⟩
  · rw [hnodes, hL4]
    refine (filter_cons_pos _ _ _ (by decide)).trans ?_
    have h2 : List.filter (fun n => n.1 == 0)
        ((interiorOf R arr).flatten ++ [(((4 : Nat) - 1, 0) : Cell)]) = [] := by
      refine (filter_drop_left _ _ _ (fun c hc => ?_)).trans (by decide)
      have := hflat c hc
      rw [beq_eq_false_iff_ne]
      omega
    exact congrArg (fun l => ((0, 0) : Cell) :: l) h2
  · rw [hnodes, hL4]
    refine (filter_cons_neg _ _ _ (by decide)).trans ?_
    refine (filter_drop_left _ _ _ (fun c hc => ?_)).trans (by decide)
    have := hflat c hc
    rw [beq_eq_false_iff_ne]
    omega
  · show ((numLayersOf arr - 1, 0) : Cell) = (3, 0)
    rw [hL4]
  · intro n hn
    have := nodesOf_fst_le R arr n hn
    omega
  · intro l hl
    exact nodesOf_exists_layer R h arr l (by omega)

/-- Witness for C5 at the trivial model and level 4. -/
theorem genWeighted_degree_connectivity_layers_witness :
    (∀ n ∈ (genWeighted idRng () [4]).nodes,
      adjGet (genWeighted idRng () [4]).adj n ≠ []) ∧
    (∀ n ∈ (genWeighted idRng () [4]).nodes,
      wReach (genWeighted idRng () [4]) (genWeighted idRng () [4]).start n) ∧
    ((4 : Int) = 4 →
      ((genWeighted idRng () [4]).nodes.filter (fun n => n.1 == 0) = [(0, 0)]) ∧
      ((genWeighted idRng () [4]).nodes.filter (fun n => n.1 == 3) = [(3, 0)]) ∧
      (genWeighted idRng () [4]).goal = (3, 0) ∧
      (∀ n ∈ (genWeighted idRng () [4]).nodes, n.1 ≤ 3) ∧
      (∀ l, l ≤ 3 → ∃ n ∈ (genWeighted idRng () [4]).nodes, n.1 = l)) :=
  genWeighted_degree_connectivity_layers idRng idRng_ok () [4] 4 rfl
    (by decide)

/-! ### Grid-cell lemmas for the maze generator -/

theorem listSet_getD_self {α : Type} (l : List α) (i : Nat) (x d : α)
    (h : i < l.length) : (l.set i x).getD i d = x := by
  rw [List.getD_eq_getElem?_getD, List.getElem?_set_self h]
  rfl

theorem listSet_getD_other {α : Type} (l : List α) (i j : Nat) (x d : α)
    (h : i ≠ j) : (l.set i x).getD j d = l.getD j d := by
  rw [List.getD_eq_getElem?_getD, List.getElem?_set_ne h,
    ← List.getD_eq_getElem?_getD]

theorem listSet_self_eq {α : Type} (l : List α) (i : Nat) (h : i < l.length) :
    l.set i l[i] = l := by
  apply List.ext_getElem?
  intro n
  by_cases hn : n = i
  · subst hn
    rw [List.getElem?_set_self h]
    exact (List.getElem?_eq_getElem h).symm
  · rw [List.getElem?_set_ne (fun e => hn e.symm)]

theorem setCell_length (g : Grid) (i j v : Nat) :
    (setCell g i j v).length = g.length :=
  List.length_set g i _

theorem setCell_noop (g : Grid) (i j v : Nat)
    (h : ¬ (i < g.length ∧ j < (g.getD i []).length)) :
    setCell g i j v = g := by
  unfold setCell
  by_cases hi : i < g.length
  · have hj : ¬ j < (g.getD i []).length := fun hj => h ⟨hi, hj⟩
    rw [List.set_eq_of_length_le (le_of_not_lt hj)]
    rw [List.getD_eq_getElem _ _ hi]
    exact listSet_self_eq g i hi
  · exact List.set_eq_of_length_le (le_of_not_lt hi)

theorem getCell_setCell_ne (g : Grid) (i j v a b : Nat)
    (h : ¬ (a = i ∧ b = j)) :
    getCell (setCell g i j v) a b = getCell g a b := by
  by_cases hai : a = i
  · subst hai
    have hbj : b ≠ j := fun hb => h ⟨rfl, hb⟩
    by_cases hlen : a < g.length
    · unfold getCell setCell
      rw [listSet_getD_self _ _ _ _ hlen]
      exact listSet_getD_other _ _ _ _ _ (fun e => hbj e.symm)
    · rw [show setCell g a j v = g from setCell_noop g a j v
        (fun hc => hlen hc.1)]
  · unfold getCell setCell
    rw [listSet_getD_other _ _ _ _ _ (fun e => hai e.symm)]

theorem getCell_setCell_eq (g : Grid) (i j v : Nat) (hi : i < g.length)
    (hj : j < (g.getD i []).length) :
    getCell (setCell g i j v) i j = v := by
  unfold getCell setCell
  rw [listSet_getD_self _ _ _ _ hi]
  exact listSet_getD_self _ _ _ _ hj

theorem getCell_setCell_cases (g : Grid) (i j v a b : Nat) :
    getCell (setCell g i j v) a b = v ∨
    getCell (setCell g i j v) a b = getCell g a b := by
  by_cases hab : a = i ∧ b = j
  · obtain ⟨rfl, rfl⟩ := hab
    by_cases hr : a < g.length ∧ b < (g.getD a []).length
    · exact Or.inl (getCell_setCell_eq g a b v hr.1 hr.2)
    · exact Or.inr (by rw [setCell_noop g a b v hr])
  · exact Or.inr (getCell_setCell_ne g i j v a b hab)

theorem getCell_setCell_zero (g : Grid) (i j a b : Nat)
    (h : getCell g a b = 0) : getCell (setCell g i j 0) a b = 0 := by
  rcases getCell_setCell_cases g i j 0 a b with hc | hc <;> rw [hc]
  exact h

theorem getCell_setCell_one (g : Grid) (i j a b : Nat)
    (h : getCell g a b = 1) : getCell (setCell g i j 1) a b = 1 := by
  rcases getCell_setCell_cases g i j 1 a b with hc | hc <;> rw [hc]
  exact h

theorem gdims_setCell (g : Grid) (rows cols i j v : Nat)
    (h : GDims g rows cols) : GDims (setCell g i j v) rows cols := by
  by_cases hi : i < g.length
  · refine ⟨by rw [setCell_length]; exact h.1, ?_⟩
    intro row hrow
    unfold setCell at hrow
    rcases List.mem_or_eq_of_mem_set hrow with hmem | heq
    · exact h.2 row hmem
    · subst heq
      rw [List.length_set, List.getD_eq_getElem _ _ hi]
      exact h.2 _ (List.getElem_mem hi)
  · rw [setCell_noop g i j v (fun hc => hi hc.1)]
    exact h

theorem gdims_row_len (g : Grid) (rows cols i : Nat) (h : GDims g rows cols)
    (hi : i < rows) : (g.getD i []).length = cols := by
  have hi' : i < g.length := by rw [h.1]; exact hi
  rw [List.getD_eq_getElem _ _ hi']
  exact h.2 _ (List.getElem_mem hi')

theorem gdims_replicate (rows cols v : Nat) :
    GDims (List.replicate rows (List.replicate cols v)) rows cols := by
  refine ⟨List.length_replicate _ _, ?_⟩
  intro row hrow
  rw [List.eq_of_mem_replicate hrow]
  exact List.length_replicate _ _

theorem gdims_foldl {α : Type} (f : Grid → α → Grid)
    (hf : ∀ g x rr cc, GDims g rr cc → GDims (f g x) rr cc) (l : List α) :
    ∀ (g : Grid) (rr cc : Nat), GDims g rr cc → GDims (l.foldl f g) rr cc := by
  induction l with
  | nil => intro g rr cc h; exact h
  | cons x t ih =>
    intro g rr cc h
    rw [List.foldl_cons]
    exact ih _ _ _ (hf _ _ _ _ h)

theorem foldl_pres {α : Type} (f : Grid → α → Grid) (a b v : Nat)
    (hf : ∀ g x, getCell g a b = v → getCell (f g x) a b = v) (l : List α) :
    ∀ g : Grid, getCell g a b = v → getCell (l.foldl f g) a b = v := by
  induction l with
  | nil => intro g h; exact h
  | cons x t ih =>
    intro g h
    rw [List.foldl_cons]
    exact ih _ (hf _ _ h)

theorem gdims_carveLoop (R : Rng) (rows cols : Nat) :
    ∀ (fuel : Nat) (st : List Cell) (g : Grid) (s : R.State) (rr cc : Nat),
    GDims g rr cc → GDims (carveLoop R rows cols fuel st g s).1 rr cc := by
  intro fuel
  induction fuel with
  | zero => intro st g s rr cc h; exact h
  | succ n ih =>
    intro st g s rr cc h
    match st with
    | [] => exact h
    | c :: rest =>
      simp only [carveLoop]
      split
      · exact ih _ _ _ _ _ (gdims_setCell _ _ _ _ _ _
          (gdims_setCell _ _ _ _ _ _ h))
      · exact ih _ _ _ _ _ h

theorem carveLoop_zero (R : Rng) (rows cols : Nat) :
    ∀ (fuel : Nat) (st : List Cell) (g : Grid) (s : R.State) (a b : Nat),
    getCell g a b = 0 → getCell (carveLoop R rows cols fuel st g s).1 a b = 0 := by
  intro fuel
  induction fuel with
  | zero => intro st g s a b h; exact h
  | succ n ih =>
    intro st g s a b h
    match st with
    | [] => exact h
    | c :: rest =>
      simp only [carveLoop]
      split
      · exact ih _ _ _ _ _ (getCell_setCell_zero _ _ _ _ _
          (getCell_setCell_zero _ _ _ _ _ h))
      · exact ih _ _ _ _ _ h

theorem gdims_setBorders (g : Grid) (rows cols rr cc : Nat)
    (h : GDims g rr cc) : GDims (setBorders g rows cols) rr cc := by
  unfold setBorders
  refine gdims_foldl _ ?_ _ _ _ _ (gdims_foldl _ ?_ _ _ _ _ h) <;>
    · intro g' x rr' cc' h'
      exact gdims_setCell _ _ _ _ _ _ (gdims_setCell _ _ _ _ _ _ h')

theorem setBorders_interior (g : Grid) (rows cols a b : Nat)
    (ha0 : a ≠ 0) (ha1 : a ≠ rows - 1) (hb0 : b ≠ 0) (hb1 : b ≠ cols - 1) :
    getCell (setBorders g rows cols) a b = getCell g a b := by
  unfold setBorders
  have hrow : ∀ (l : List Nat) (g' : Grid),
      getCell (l.foldl (fun acc i => setCell (setCell acc i 0 1) i (cols - 1) 1) g') a b
        = getCell g' a b := by
    intro l
    induction l with
    | nil => intro g'; rfl
    | cons i t ih =>
      intro g'
      rw [List.foldl_cons, ih,
        getCell_setCell_ne _ _ _ _ _ _ (fun hc => hb1 hc.2),
        getCell_setCell_ne _ _ _ _ _ _ (fun hc => hb0 hc.2)]
  have hcol : ∀ (l : List Nat) (g' : Grid),
      getCell (l.foldl (fun acc j => setCell (setCell acc 0 j 1) (rows - 1) j 1) g') a b
        = getCell g' a b := by
    intro l
    induction l with
    | nil => intro g'; rfl
    | cons j t ih =>
      intro g'
      rw [List.foldl_cons, ih,
        getCell_setCell_ne _ _ _ _ _ _ (fun hc => ha1 hc.1),
        getCell_setCell_ne _ _ _ _ _ _ (fun hc => ha0 hc.1)]
  rw [hcol, hrow]

theorem setBorders_border (g : Grid) (rows cols a b : Nat)
    (h : GDims g rows cols) (hrows : 0 < rows) (hcols : 0 < cols)
    (ha : a < rows) (hb : b < cols)
    (hborder : a = 0 ∨ a = rows - 1 ∨ b = 0 ∨ b = cols - 1) :
    getCell (setBorders g rows cols) a b = 1 := by
  unfold setBorders
  have hrowdims : ∀ (l : List Nat) (g' : Grid) (rr cc : Nat), GDims g' rr cc →
      GDims (l.foldl (fun acc i => setCell (setCell acc i 0 1) i (cols - 1) 1) g') rr cc :=
    gdims_foldl _ (fun g' x rr cc h' =>
      gdims_setCell _ _ _ _ _ _ (gdims_setCell _ _ _ _ _ _ h'))
  -- the row pass paints (i, 0) and (i, cols-1) for every i it visits
  have hrowpaint : ∀ (l : List Nat) (g' : Grid), GDims g' rows cols →
      a ∈ l → (b = 0 ∨ b = cols - 1) →
      getCell (l.foldl (fun acc i => setCell (setCell acc i 0 1) i (cols - 1) 1) g') a b = 1 := by
    intro l
    induction l with
    | nil => intro g' _ hmem _; exact absurd hmem (List.not_mem_nil _)
    | cons i t ih =>
      intro g' hg hmem hbb
      rw [List.foldl_cons]
      by_cases hia : i = a
      · subst hia
        have h1 : getCell (setCell (setCell g' i 0 1) i (cols - 1) 1) i b = 1 := by
          rcases hbb with rfl | rfl
          · apply getCell_setCell_one
            apply getCell_setCell_eq
            · rw [hg.1]; exact ha
            · rw [gdims_row_len _ _ _ _ hg ha]; exact hcols
          · apply getCell_setCell_eq
            · rw [(gdims_setCell _ _ _ _ _ _ hg).1]; exact ha
            · rw [gdims_row_len _ _ _ _ (gdims_setCell _ _ _ _ _ _ hg) ha]
              omega
        exact foldl_pres _ _ _ _ (fun g'' x hx =>
          getCell_setCell_one _ _ _ _ _ (getCell_setCell_one _ _ _ _ _ hx)) _ _ h1
      · rcases List.mem_cons.mp hmem with rfl | hmem'
        · exact absurd rfl hia
        · exact ih _ (gdims_setCell _ _ _ _ _ _ (gdims_setCell _ _ _ _ _ _ hg))
            hmem' hbb
  -- the column pass paints (0, j) and (rows-1, j) for every j it visits
  have hcolpaint : ∀ (l : List Nat) (g' : Grid), GDims g' rows cols →
      b ∈ l → (a = 0 ∨ a = rows - 1) →
      getCell (l.foldl (fun acc j => setCell (setCell acc 0 j 1) (rows - 1) j 1) g') a b = 1 := by
    intro l
    induction l with
    | nil => intro g' _ hmem _; exact absurd hmem (List.not_mem_nil _)
    | cons j t ih =>
      intro g' hg hmem haa
      rw [List.foldl_cons]
      by_cases hjb : j = b
      · subst hjb
        have h1 : getCell (setCell (setCell g' 0 j 1) (rows - 1) j 1) a j = 1 := by
          rcases haa with rfl | rfl
          · apply getCell_setCell_one
            apply getCell_setCell_eq
            · rw [hg.1]; exact hrows
            · rw [gdims_row_len _ _ _ _ hg hrows]; exact hb
          · apply getCell_setCell_eq
            · rw [(gdims_setCell _ _ _ _ _ _ hg).1]; omega
            · rw [gdims_row_len _ _ _ _ (gdims_setCell _ _ _ _ _ _ hg)
                (by omega : rows - 1 < rows)]
              exact hb
        exact foldl_pres _ _ _ _ (fun g'' x hx =>
          getCell_setCell_one _ _ _ _ _ (getCell_setCell_one _ _ _ _ _ hx)) _ _ h1
      · rcases List.mem_cons.mp hmem with rfl | hmem'
        · exact absurd rfl hjb
        · exact ih _ (gdims_setCell _ _ _ _ _ _ (gdims_setCell _ _ _ _ _ _ hg))
            hmem' haa
  by_cases haside : a = 0 ∨ a = rows - 1
  · exact hcolpaint _ _ (hrowdims _ _ _ _ h) (List.mem_range.mpr hb) haside
  · have hbside : b = 0 ∨ b = cols - 1 := by
      rcases hborder with h' | h' | h' | h'
      · exact absurd (Or.inl h') haside
      · exact absurd (Or.inr h') haside
      · exact Or.inl h'
      · exact Or.inr h'
    have h1 := hrowpaint (List.range rows) g h (List.mem_range.mpr ha) hbside
    push_neg at haside
    exact (foldl_pres _ _ _ _ (fun g'' x hx =>
      getCell_setCell_one _ _ _ _ _ (getCell_setCell_one _ _ _ _ _ hx)) _ _ h1)

theorem wallCells_mem (g : Grid) (rows cols : Nat) (c : Cell)
    (hc : c ∈ wallCells g rows cols) :
    (2 ≤ c.1 ∧ c.1 < 2 + (rows - 4)) ∧ (2 ≤ c.2 ∧ c.2 < 2 + (cols - 4)) := by
  unfold wallCells at hc
  rw [List.mem_flatMap] at hc
  obtain ⟨i, hi, hc⟩ := hc
  rw [List.mem_filterMap] at hc
  obtain ⟨j, hj, hc⟩ := hc
  rw [List.mem_range'_1] at hi
  rw [List.mem_range'_1] at hj
  split at hc
  · rw [Option.some_inj] at hc
    subst hc
    exact ⟨⟨hi.1, hi.2⟩, ⟨hj.1, hj.2⟩⟩
  · exact absurd hc (by simp)

theorem gdims_fallbackCarve (e : Cell) :
    ∀ (fuel : Nat) (c : Cell) (g : Grid) (rr cc : Nat),
    GDims g rr cc → GDims (fallbackCarve e fuel c g) rr cc := by
  intro fuel
  induction fuel with
  | zero => intro c g rr cc h; exact h
  | succ n ih =>
    intro c g rr cc h
    rw [fallbackCarve]
    split
    · exact h
    · exact ih _ _ _ _ (gdims_setCell _ _ _ _ _ _ (gdims_setCell _ _ _ _ _ _ h))

theorem fallbackCarve_zero (e : Cell) :
    ∀ (fuel : Nat) (c : Cell) (g : Grid) (a b : Nat),
    getCell g a b = 0 → getCell (fallbackCarve e fuel c g) a b = 0 := by
  intro fuel
  induction fuel with
  | zero => intro c g a b h; exact h
  | succ n ih =>
    intro c g a b h
    rw [fallbackCarve]
    split
    · exact h
    · exact ih _ _ _ _ (getCell_setCell_zero _ _ _ _ _
        (getCell_setCell_zero _ _ _ _ _ h))

theorem fallbackCarve_outside (e : Cell) :
    ∀ (fuel : Nat) (c : Cell) (g : Grid) (a b : Nat),
    c.1 ≤ e.1 → c.2 ≤ e.2 →
    (a < c.1 ∨ e.1 < a ∨ b < c.2 ∨ e.2 < b) →
    getCell (fallbackCarve e fuel c g) a b = getCell g a b := by
  intro fuel
  induction fuel with
  | zero => intro c g a b _ _ _; rfl
  | succ n ih =>
    intro c g a b h1 h2 hout
    rw [fallbackCarve]
    split
    · rfl
    · next hne =>
      have hne' : c ≠ e := by
        intro hc; rw [hc] at hne; simp at hne
      by_cases hlt : c.1 < e.1
      · rw [if_pos hlt]
        rw [ih ((c.1 + 1, c.2)) _ a b (by omega) (by simp; omega)
          (by simp; omega)]
        rw [getCell_setCell_ne _ _ _ _ _ _ (by simp; omega),
          getCell_setCell_ne _ _ _ _ _ _ (by omega)]
      · rw [if_neg hlt]
        have hc1 : c.1 = e.1 := by omega
        have hlt2 : c.2 < e.2 := by
          rcases Nat.lt_or_ge c.2 e.2 with h | h
          · exact h
          · exact absurd (Prod.ext hc1 (by omega)) hne'
        rw [if_pos hlt2]
        rw [ih ((c.1, c.2 + 1)) _ a b (by simp; omega) (by simp; omega)
          (by simp; omega)]
        rw [getCell_setCell_ne _ _ _ _ _ _ (by simp; omega),
          getCell_setCell_ne _ _ _ _ _ _ (by omega)]

theorem fallbackCarve_reach (e : Cell) (rows cols : Nat)
    (he1 : e.1 < rows) (he2 : e.2 < cols) :
    ∀ (fuel : Nat) (c : Cell) (g : Grid),
    GDims g rows cols → c.1 ≤ e.1 → c.2 ≤ e.2 →
    e.1 - c.1 + (e.2 - c.2) < fuel →
    Relation.ReflTransGen (gridAdj (fallbackCarve e fuel c g) rows cols) c e := by
  intro fuel
  induction fuel with
  | zero => intro c g _ _ _ hd; omega
  | succ n ih =>
    intro c g hg h1 h2 hd
    rw [fallbackCarve]
    by_cases hce : c = e
    · rw [if_pos (by rw [hce]; simp)]
      rw [hce]
    · rw [if_neg (by simp [hce])]
      by_cases hlt : c.1 < e.1
      · rw [if_pos hlt]
        set c' : Cell := (c.1 + 1, c.2) with hc'
        set g2 := setCell (setCell g c.1 c.2 0) c'.1 c'.2 0 with hg2
        have hg2d : GDims g2 rows cols :=
          gdims_setCell _ _ _ _ _ _ (gdims_setCell _ _ _ _ _ _ hg)
        have hrest := ih c' g2 hg2d (by simp [hc']; omega) h2 (by simp [hc']; omega)
        refine Relation.ReflTransGen.head ?_ hrest
        refine ⟨by simp [hc']; omega, by simp [hc']; omega, ?_, ?_⟩
        · apply fallbackCarve_zero
          apply getCell_setCell_eq
          · rw [(gdims_setCell _ _ _ _ _ _ hg).1]; simp [hc']; omega
          · rw [gdims_row_len _ _ _ _ (gdims_setCell _ _ _ _ _ _ hg)
              (by simp [hc']; omega : c'.1 < rows)]
            simp [hc']; omega
        · exact Or.inl ⟨rfl, rfl⟩
      · rw [if_neg hlt]
        have hc1 : c.1 = e.1 := by omega
        have hlt2 : c.2 < e.2 := by
          rcases Nat.lt_or_ge c.2 e.2 with h | h
          · exact h
          · exact absurd (Prod.ext hc1 (by omega)) hce
        rw [if_pos hlt2]
        set c' : Cell := (c.1, c.2 + 1) with hc'
        set g2 := setCell (setCell g c.1 c.2 0) c'.1 c'.2 0 with hg2
        have hg2d : GDims g2 rows cols :=
          gdims_setCell _ _ _ _ _ _ (gdims_setCell _ _ _ _ _ _ hg)
        have hrest := ih c' g2 hg2d (by simp [hc']; omega) (by simp [hc']; omega)
          (by simp [hc']; omega)
        refine Relation.ReflTransGen.head ?_ hrest
        refine ⟨by simp [hc']; omega, by simp [hc']; omega, ?_, ?_⟩
        · apply fallbackCarve_zero
          apply getCell_setCell_eq
          · rw [(gdims_setCell _ _ _ _ _ _ hg).1]; simp [hc']; omega
          · rw [gdims_row_len _ _ _ _ (gdims_setCell _ _ _ _ _ _ hg)
              (by simp [hc']; omega : c'.1 < rows)]
            simp [hc']; omega
        · exact Or.inr (Or.inr (Or.inl ⟨rfl, rfl⟩))

theorem setCell_eq_self (g : Grid) (i j v : Nat) (hi : i < g.length)
    (hj : j < (g.getD i []).length) (h : getCell g i j = v) :
    setCell g i j v = g := by
  unfold getCell at h
  rw [List.getD_eq_getElem _ _ hj] at h
  unfold setCell
  rw [← h, listSet_self_eq _ _ hj, List.getD_eq_getElem _ _ hi,
    listSet_self_eq _ _ hi]

theorem foldl_pres_mem {α : Type} (f : Grid → α → Grid) (a b v : Nat) :
    ∀ (l : List α),
    (∀ (g : Grid) (x : α), x ∈ l → getCell g a b = v → getCell (f g x) a b = v) →
    ∀ g : Grid, getCell g a b = v → getCell (l.foldl f g) a b = v := by
  intro l
  induction l with
  | nil => intro _ g h; exact h
  | cons x t ih =>
    intro hf g h
    rw [List.foldl_cons]
    exact ih (fun g' y hy => hf g' y (List.mem_cons_of_mem _ hy)) _
      (hf g x (List.mem_cons_self _ _) h)

theorem nodup_inrange_length_le (v : List Cell) (rows cols : Nat)
    (hnd : v.Nodup) (hin : ∀ c ∈ v, c.1 < rows ∧ c.2 < cols) :
    v.length ≤ rows * cols := by
  have hcard : v.toFinset.card = v.length := List.toFinset_card_of_nodup hnd
  have hsub : v.toFinset ⊆ Finset.range rows ×ˢ Finset.range cols := by
    intro c hc
    rw [List.mem_toFinset] at hc
    rw [Finset.mem_product, Finset.mem_range, Finset.mem_range]
    exact hin c hc
  calc v.length = v.toFinset.card := hcard.symm
    _ ≤ (Finset.range rows ×ˢ Finset.range cols).card := Finset.card_le_card hsub
    _ = rows * cols := by rw [Finset.card_product, Finset.card_range, Finset.card_range]

theorem closed_reach_mem (g : Grid) (rows cols : Nat) (v : List Cell)
    (s e : Cell) (hs : s ∈ v)
    (hclosed : ∀ c ∈ v, ∀ d, gridAdj g rows cols c d → d ∈ v)
    (hreach : gridReach g rows cols s e) : e ∈ v := by
  induction hreach with
  | refl => exact hs
  | tail _ hbe ih => exact hclosed _ ih _ hbe

theorem cellStep_offCell (rows cols : Nat) (c d : Cell)
    (hs : cellStep c d) (hd1 : d.1 < rows) (hd2 : d.2 < cols) :
    ∃ dir ∈ bfsDirs, offOk rows cols c dir ∧ offCell c dir = d := by
  rcases hs with ⟨h1, h2⟩ | ⟨h1, h2⟩ | ⟨h1, h2⟩ | ⟨h1, h2⟩
  · refine ⟨(1, 0), by decide, ?_, ?_⟩
    · refine ⟨by omega, by omega, by omega, by omega⟩
    · rw [offCell, Prod.ext_iff]; constructor <;> simp <;> omega
  · refine ⟨(-1, 0), by decide, ?_, ?_⟩
    · refine ⟨by omega, by omega, by omega, by omega⟩
    · rw [offCell, Prod.ext_iff]; constructor <;> simp <;> omega
  · refine ⟨(0, 1), by decide, ?_, ?_⟩
    · refine ⟨by omega, by omega, by omega, by omega⟩
    · rw [offCell, Prod.ext_iff]; constructor <;> simp <;> omega
  · refine ⟨(0, -1), by decide, ?_, ?_⟩
    · refine ⟨by omega, by omega, by omega, by omega⟩
    · rw [offCell, Prod.ext_iff]; constructor <;> simp <;> omega

theorem offCell_cellStep (rows cols : Nat) (c : Cell) (dir : Int × Int)
    (hdir : dir ∈ bfsDirs) (hok : offOk rows cols c dir) :
    cellStep c (offCell c dir) := by
  obtain ⟨h1, h2, h3, h4⟩ := hok
  simp only [bfsDirs, List.mem_cons, List.not_mem_nil, or_false] at hdir
  rcases hdir with rfl | rfl | rfl | rfl
  · refine Or.inr (Or.inl ⟨?_, ?_⟩) <;> · rw [offCell]; simp <;> omega
  · refine Or.inl ⟨?_, ?_⟩ <;> · rw [offCell]; simp <;> omega
  · refine Or.inr (Or.inr (Or.inr ⟨?_, ?_⟩)) <;> · rw [offCell]; simp <;> omega
  · refine Or.inr (Or.inr (Or.inl ⟨?_, ?_⟩)) <;> · rw [offCell]; simp <;> omega

theorem bfsExpand_spec (g : Grid) (rows cols : Nat) (c : Cell) :
    ∀ (ds : List (Int × Int)) (v q : List Cell),
    ∃ L : List Cell,
      bfsExpand g rows cols c ds (v, q) = (v ++ L, q ++ L) ∧
      L.Nodup ∧
      (∀ d ∈ L, d ∉ v ∧ d.1 < rows ∧ d.2 < cols ∧ getCell g d.1 d.2 = 0 ∧
        (∃ dir ∈ ds, offOk rows cols c dir ∧ offCell c dir = d)) ∧
      (∀ dir ∈ ds, offOk rows cols c dir →
        getCell g (offCell c dir).1 (offCell c dir).2 = 0 →
        offCell c dir ∈ v ++ L) := by
  intro ds
  induction ds with
  | nil =>
    intro v q
    exact ⟨[], by simp [bfsExpand], List.nodup_nil, by simp, by simp⟩
  | cons dir ds ih =>
    intro v q
    simp only [bfsExpand]
    split
    · next hcond =>
      obtain ⟨h1, h2, h3, h4, h5, h6⟩ := hcond
      obtain ⟨L', heq', hnd', hmem', hcov'⟩ :=
        ih (v ++ [offCell c dir]) (q ++ [offCell c dir])
      refine ⟨offCell c dir :: L', ?_, ?_, ?_, ?_⟩
      · exact heq'.trans (by simp)
      · refine List.nodup_cons.mpr ⟨?_, hnd'⟩
        intro hmem
        exact (hmem' _ hmem).1 (by simp)
      · intro d hd
        rcases List.mem_cons.mp hd with rfl | hd'
        · refine ⟨h6, ?_, ?_, h5, ⟨dir, List.mem_cons_self _ _,
            ⟨h1, h2, h3, h4⟩, rfl⟩⟩
          · simp only [offCell]; omega
          · simp only [offCell]; omega
        · obtain ⟨hnv, hr1, hr2, hop, dir', hdir', hrest⟩ := hmem' d hd'
          refine ⟨fun hv => hnv (List.mem_append_left _ hv), hr1, hr2, hop,
            ⟨dir', List.mem_cons_of_mem _ hdir', hrest⟩⟩
      · intro dir' hdir' hok hop
        rcases List.mem_cons.mp hdir' with rfl | hdir''
        · simp
        · have := hcov' dir' hdir'' hok hop
          rw [List.append_assoc] at this
          simpa using this
    · next hcond =>
      obtain ⟨L', heq', hnd', hmem', hcov'⟩ := ih v q
      refine ⟨L', heq', hnd', ?_, ?_⟩
      · intro d hd
        obtain ⟨hnv, hr1, hr2, hop, dir', hdir', hrest⟩ := hmem' d hd
        exact ⟨hnv, hr1, hr2, hop, ⟨dir', List.mem_cons_of_mem _ hdir', hrest⟩⟩
      · intro dir' hdir' hok hop
        rcases List.mem_cons.mp hdir' with rfl | hdir''
        · by_cases hv : offCell c dir' ∈ v
          · exact List.mem_append_left _ hv
          · exact absurd ⟨hok.1, hok.2.1, hok.2.2.1, hok.2.2.2, hop, hv⟩ hcond
        · exact hcov' dir' hdir'' hok hop

theorem hasPathAux_reach_true (g : Grid) (rows cols : Nat) (s e : Cell)
    (hreach : gridReach g rows cols s e) :
    ∀ (fuel : Nat) (v q : List Cell),
    s ∈ v → q ⊆ v → v.Nodup →
    (∀ c ∈ v, c.1 < rows ∧ c.2 < cols) →
    (∀ c ∈ v, c ∉ q → ∀ d, gridAdj g rows cols c d → d ∈ v) →
    (e ∈ v → e ∈ q) →
    2 * (rows * cols - v.length) + q.length ≤ fuel →
    hasPathAux g rows cols e fuel v q = true := by
  intro fuel
  induction fuel with
  | zero =>
    intro v q hs hqv hnd hin hcl hev hfuel
    have hq : q = [] := List.eq_nil_of_length_eq_zero (by omega)
    subst hq
    exact absurd (hev (closed_reach_mem g rows cols v s e hs
      (fun c hc d hd => hcl c hc (List.not_mem_nil c) d hd) hreach))
      (List.not_mem_nil e)
  | succ n ih =>
    intro v q hs hqv hnd hin hcl hev hfuel
    match q with
    | [] =>
      exact absurd (hev (closed_reach_mem g rows cols v s e hs
        (fun c hc d hd => hcl c hc (List.not_mem_nil c) d hd) hreach))
        (List.not_mem_nil e)
    | c :: rest =>
      rw [hasPathAux]
      by_cases hce : c = e
      · rw [if_pos (by simp [hce])]
      · rw [if_neg (by simp [hce])]
        obtain ⟨L, heq, hndL, hmemL, hcov⟩ :=
          bfsExpand_spec g rows cols c bfsDirs v rest
        show hasPathAux g rows cols e n
          (bfsExpand g rows cols c bfsDirs (v, rest)).1
          (bfsExpand g rows cols c bfsDirs (v, rest)).2 = true
        rw [heq]
        have hclen : (v ++ L).length ≤ rows * cols := by
          apply nodup_inrange_length_le _ rows cols
          · exact List.Nodup.append hnd hndL
              (fun a ha hal => (hmemL a hal).1 ha)
          · intro d hd
            rcases List.mem_append.mp hd with hd' | hd'
            · exact hin d hd'
            · exact ⟨(hmemL d hd').2.1, (hmemL d hd').2.2.1⟩
        apply ih (v ++ L) (rest ++ L)
        · exact List.mem_append_left _ hs
        · intro x hx
          rcases List.mem_append.mp hx with hx' | hx'
          · exact List.mem_append_left _ (hqv (List.mem_cons_of_mem _ hx'))
          · exact List.mem_append_right _ hx'
        · exact List.Nodup.append hnd hndL (fun a ha hal => (hmemL a hal).1 ha)
        · intro d hd
          rcases List.mem_append.mp hd with hd' | hd'
          · exact hin d hd'
          · exact ⟨(hmemL d hd').2.1, (hmemL d hd').2.2.1⟩
        · intro c' hc' hnc' d hd
          rcases List.mem_append.mp hc' with hc'' | hc''
          · by_cases hcc : c' = c
            · subst hcc
              obtain ⟨hd1, hd2, hop, hstep⟩ := hd
              obtain ⟨dir, hdir, hok, heqd⟩ :=
                cellStep_offCell rows cols c' d hstep hd1 hd2
              have := hcov dir hdir hok (by rw [heqd]; exact hop)
              rw [heqd] at this
              exact this
            · have hnq : c' ∉ c :: rest := by
                intro hmem
                rcases List.mem_cons.mp hmem with h' | h'
                · exact hcc h'
                · exact hnc' (List.mem_append_left _ h')
              exact List.mem_append_left _ (hcl c' hc'' hnq d hd)
          · exact absurd (List.mem_append_right _ hc'') hnc'
        · intro hev'
          rcases List.mem_append.mp hev' with he' | he'
          · rcases List.mem_cons.mp (hev he') with h' | h'
            · exact absurd h'.symm hce
            · exact List.mem_append_left _ h'
          · exact List.mem_append_right _ he'
        · have h1 : (v ++ L).length = v.length + L.length := List.length_append _ _
          have h2 : (rest ++ L).length = rest.length + L.length :=
            List.length_append _ _
          have h3 : (c :: rest).length = rest.length + 1 := by simp
          rw [h3] at hfuel
          omega

theorem hasPathAux_sound (g : Grid) (rows cols : Nat) (s e : Cell) :
    ∀ (fuel : Nat) (v q : List Cell),
    (∀ c ∈ q, gridReach g rows cols s c) →
    hasPathAux g rows cols e fuel v q = true →
    gridReach g rows cols s e := by
  intro fuel
  induction fuel with
  | zero => intro v q _ h; exact absurd h (by rw [hasPathAux]; simp)
  | succ n ih =>
    intro v q hq h
    match q with
    | [] => exact absurd h (by rw [hasPathAux]; simp)
    | c :: rest =>
      by_cases hce : c = e
      · subst hce; exact hq c (List.mem_cons_self _ _)
      · rw [hasPathAux, if_neg (by simp [hce])] at h
        obtain ⟨L, heq, _, hmemL, _⟩ := bfsExpand_spec g rows cols c bfsDirs v rest
        rw [heq] at h
        refine ih (v ++ L) (rest ++ L) ?_ h
        intro c' hc'
        rcases List.mem_append.mp hc' with hc'' | hc''
        · exact hq c' (List.mem_cons_of_mem _ hc'')
        · obtain ⟨_, hr1, hr2, hop, dir, hdir, hok, heqd⟩ := hmemL c' hc''
          refine Relation.ReflTransGen.tail (hq c (List.mem_cons_self _ _)) ?_
          refine ⟨hr1, hr2, hop, ?_⟩
          rw [← heqd]
          exact offCell_cellStep rows cols c dir hdir hok

theorem hasPath_true_of_reach (g : Grid) (rows cols : Nat) (s e : Cell)
    (hg : GDims g rows cols) (hrows : 0 < rows)
    (hs1 : s.1 < rows) (hs2 : s.2 < cols)
    (hreach : gridReach g rows cols s e) :
    hasPath g s e = true := by
  show hasPathAux g g.length (g.getD 0 []).length e
    (2 * g.length * (g.getD 0 []).length + 1) [s] [s] = true
  rw [hg.1, gdims_row_len g rows cols 0 hg hrows]
  apply hasPathAux_reach_true g rows cols s e hreach
  · exact List.mem_singleton.mpr rfl
  · exact fun x hx => hx
  · exact List.nodup_singleton s
  · intro c hc
    rw [List.mem_singleton] at hc
    subst hc
    exact ⟨hs1, hs2⟩
  · intro c hc hnc
    exact absurd hc hnc
  · exact fun h => h
  · have hassoc : 2 * rows * cols = 2 * (rows * cols) := Nat.mul_assoc 2 rows cols
    simp
    omega

theorem hasPath_sound (g : Grid) (rows cols : Nat) (s e : Cell)
    (hg : GDims g rows cols) (hrows : 0 < rows)
    (h : hasPath g s e = true) : gridReach g rows cols s e := by
  have h' : hasPathAux g g.length (g.getD 0 []).length e
      (2 * g.length * (g.getD 0 []).length + 1) [s] [s] = true := h
  have hr := hasPathAux_sound g g.length (g.getD 0 []).length s e _ [s] [s]
    (fun c hc => by
      rw [List.mem_singleton] at hc
      subst hc
      exact Relation.ReflTransGen.refl) h'
  rw [hg.1, gdims_row_len g rows cols 0 hg hrows] at hr
  exact hr

theorem generateGrid_eq_pipeline (R : Rng) (g0 : R.State) (k : Int)
    (t : List Int) (hk : 0 < k) :
    generateGrid R g0 (k :: t) = gridPipeline R k.toNat := by
  simp only [generateGrid, gridPipeline]
  rw [if_pos hk]

theorem gridPipeline_invariants (R : Rng) (hR : RngOk R) (n : Nat)
    (hn : 4 ≤ n) :
    (gridPipeline R n).start = (1, 1) ∧
    (gridPipeline R n).endCell = (n - 2, n - 2) ∧
    getCell (gridPipeline R n).grid 1 1 = 0 ∧
    getCell (gridPipeline R n).grid (n - 2) (n - 2) = 0 ∧
    (∀ i j, i < n → j < n → (i = 0 ∨ i = n - 1 ∨ j = 0 ∨ j = n - 1) →
      getCell (gridPipeline R n).grid i j = 1) ∧
    gridReach (gridPipeline R n).grid n n (1, 1) (n - 2, n - 2) ∧
    hasPath (gridPipeline R n).grid (1, 1) (n - 2, n - 2) = true := by
  have main : ∃ g4 : Grid,
      (gridPipeline R n).grid =
        setCell (setCell (if hasPath g4 (1, 1) (n - 2, n - 2) then g4
          else fallbackCarve (n - 2, n - 2) (n + n) (1, 1) g4) 1 1 0)
          (n - 2) (n - 2) 0 ∧
      GDims g4 n n ∧ getCell g4 1 1 = 0 ∧ getCell g4 (n - 2) (n - 2) = 0 ∧
      (∀ i j, i < n → j < n → (i = 0 ∨ i = n - 1 ∨ j = 0 ∨ j = n - 1) →
        getCell g4 i j = 1) := by
    have hg0d : GDims (List.replicate n (List.replicate n 1)) n n :=
      gdims_replicate n n 1
    have hg1d : GDims (setCell (List.replicate n (List.replicate n 1)) 1 1 0) n n :=
      gdims_setCell _ _ _ _ _ _ hg0d
    have hpcd : GDims (carveLoop R n n (2 * n * n + 2) [(1, 1)]
        (setCell (List.replicate n (List.replicate n 1)) 1 1 0) (R.seed 42)).1 n n :=
      gdims_carveLoop R n n _ _ _ _ _ _ hg1d
    have hg2d : GDims (setCell (carveLoop R n n (2 * n * n + 2) [(1, 1)]
        (setCell (List.replicate n (List.replicate n 1)) 1 1 0) (R.seed 42)).1
        (n - 2) (n - 2) 0) n n := gdims_setCell _ _ _ _ _ _ hpcd
    have hg3d : GDims (setBorders (setCell (carveLoop R n n (2 * n * n + 2) [(1, 1)]
        (setCell (List.replicate n (List.replicate n 1)) 1 1 0) (R.seed 42)).1
        (n - 2) (n - 2) 0) n n) n n := gdims_setBorders _ _ _ _ _ hg2d
    refine ⟨_, rfl, ?_, ?_, ?_, ?_⟩
    · exact gdims_foldl _ (fun g' x rr cc h' => gdims_setCell _ _ _ _ _ _ h')
        _ _ _ _ hg3d
    · -- start stays open through every stage up to g4
      apply foldl_pres _ 1 1 0 (fun g' x h' => getCell_setCell_zero _ _ _ _ _ h')
      rw [setBorders_interior _ _ _ _ _ (by omega) (by omega) (by omega) (by omega)]
      apply getCell_setCell_zero
      apply carveLoop_zero
      apply getCell_setCell_eq
      · rw [hg0d.1]; omega
      · rw [gdims_row_len _ _ _ _ hg0d (by omega)]; omega
    · -- the end cell is opened at g2 and stays open
      apply foldl_pres _ _ _ 0 (fun g' x h' => getCell_setCell_zero _ _ _ _ _ h')
      rw [setBorders_interior _ _ _ _ _ (by omega) (by omega) (by omega) (by omega)]
      apply getCell_setCell_eq
      · rw [hpcd.1]; omega
      · rw [gdims_row_len _ _ _ _ hpcd (by omega)]; omega
    · -- borders are painted by setBorders and never repainted
      intro i j hi hj hbord
      apply foldl_pres_mem _ i j 1 _ ?hf
      · exact setBorders_border _ _ _ _ _ hg2d (by omega) (by omega) hi hj hbord
      case hf =>
        intro g' x hx h'
        have hxwc : x ∈ wallCells (setBorders (setCell (carveLoop R n n
            (2 * n * n + 2) [(1, 1)] (setCell (List.replicate n
            (List.replicate n 1)) 1 1 0) (R.seed 42)).1 (n - 2) (n - 2) 0) n n) n n := by
          have hx' := List.take_subset _ _ hx
          exact (hR.shuffleCells_perm _ _).subset hx'
        obtain ⟨⟨hx1, hx2⟩, hx3, hx4⟩ := wallCells_mem _ _ _ _ hxwc
        rw [getCell_setCell_ne]
        · exact h'
        · rcases hbord with rfl | rfl | rfl | rfl
          · intro hc; omega
          · intro hc; omega
          · intro hc; omega
          · intro hc; omega
  obtain ⟨g4, hgeq, hg4d, h11, hee, hbor⟩ := main
  set g5 : Grid := if hasPath g4 (1, 1) (n - 2, n - 2) then g4
    else fallbackCarve (n - 2, n - 2) (n + n) (1, 1) g4 with hg5
  have hg5d : GDims g5 n n := by
    rw [hg5]; split
    · exact hg4d
    · exact gdims_fallbackCarve _ _ _ _ _ _ hg4d
  have h11_5 : getCell g5 1 1 = 0 := by
    rw [hg5]; split
    · exact h11
    · exact fallbackCarve_zero _ _ _ _ _ _ h11
  have hee_5 : getCell g5 (n - 2) (n - 2) = 0 := by
    rw [hg5]; split
    · exact hee
    · exact fallbackCarve_zero _ _ _ _ _ _ hee
  have hbor_5 : ∀ i j, i < n → j < n →
      (i = 0 ∨ i = n - 1 ∨ j = 0 ∨ j = n - 1) → getCell g5 i j = 1 := by
    intro i j hi hj hbord
    rw [hg5]; split
    · exact hbor i j hi hj hbord
    · rw [fallbackCarve_outside _ _ _ _ _ _ (by simp; omega) (by simp; omega)
        (by simp; omega)]
      exact hbor i j hi hj hbord
  have hreach5 : gridReach g5 n n (1, 1) (n - 2, n - 2) := by
    rw [hg5]; split
    · next hyes => exact hasPath_sound _ _ _ _ _ hg4d (by omega) hyes
    · exact fallbackCarve_reach (n - 2, n - 2) n n (by simp; omega)
        (by simp; omega) (n + n) (1, 1) g4 hg4d (by simp; omega)
        (by simp; omega) (by simp; omega)
  have hg6 : (gridPipeline R n).grid = g5 := by
    rw [hgeq]
    rw [setCell_eq_self g5 1 1 0 (by rw [hg5d.1]; omega)
      (by rw [gdims_row_len _ _ _ _ hg5d (by omega)]; omega) h11_5]
    exact setCell_eq_self g5 (n - 2) (n - 2) 0 (by rw [hg5d.1]; omega)
      (by rw [gdims_row_len _ _ _ _ hg5d (by omega)]; omega) hee_5
  refine ⟨rfl, rfl, ?_, ?_, ?_, ?_, ?_⟩
  · rw [hg6]; exact h11_5
  · rw [hg6]; exact hee_5
  · rw [hg6]; exact hbor_5
  · rw [hg6]; exact hreach5
  · rw [hg6]
    exact hasPath_true_of_reach g5 n n (1, 1) (n - 2, n - 2) hg5d (by omega)
      (by simp; omega) (by simp; omega) hreach5

/-- C1: for every input array whose first element `k` is a supported grid
size (at least 4), `_generate_grid` returns a maze with `start = (1, 1)`
and `end = (k-2, k-2)` both open, every border cell a wall, `end`
reachable from `start` by a finite path over open cells, and the source's
own BFS `has_path` reporting that reachability — for size 10 in particular
this instantiates to `start = (1,1)`, `end = (8,8)` connected. -/
theorem generateGrid_supported_invariants (R : Rng) (hR : RngOk R)
    (g0 : R.State) (arr : List Int) (k : Int)
    (hhead : arr.head? = some k) (hk : 4 ≤ k) :
    (generateGrid R g0 arr).start = (1, 1) ∧
    (generateGrid R g0 arr).endCell = (k.toNat - 2, k.toNat - 2) ∧
    getCell (generateGrid R g0 arr).grid 1 1 = 0 ∧
    getCell (generateGrid R g0 arr).grid (k.toNat - 2) (k.toNat - 2) = 0 ∧
    (∀ i j, i < k.toNat → j < k.toNat →
      (i = 0 ∨ i = k.toNat - 1 ∨ j = 0 ∨ j = k.toNat - 1) →
      getCell (generateGrid R g0 arr).grid i j = 1) ∧
    gridReach (generateGrid R g0 arr).grid k.toNat k.toNat (1, 1)
      (k.toNat - 2, k.toNat - 2) ∧
    hasPath (generateGrid R g0 arr).grid (1, 1)
      (k.toNat - 2, k.toNat - 2) = true := by
  obtain ⟨t, rfl⟩ : ∃ t, arr = k :: t := by
    cases arr with
    | nil => exact absurd hhead (by simp)
    | cons a t =>
      rw [List.head?_cons, Option.some_inj] at hhead
      exact ⟨t, by rw [hhead]⟩
  rw [generateGrid_eq_pipeline R g0 k t (by omega)]
  exact gridPipeline_invariants R hR k.toNat (by omega)

theorem generateGrid_supported_invariants_witness :
    RngOk idRng ∧ ([10] : List Int).head? = some 10 ∧ (4 : Int) ≤ 10 ∧
    ((generateGrid idRng () [10]).start = (1, 1) ∧
     (generateGrid idRng () [10]).endCell = (8, 8) ∧
     getCell (generateGrid idRng () [10]).grid 1 1 = 0 ∧
     getCell (generateGrid idRng () [10]).grid 8 8 = 0 ∧
     (∀ i j, i < 10 → j < 10 → (i = 0 ∨ i = 9 ∨ j = 0 ∨ j = 9) →
       getCell (generateGrid idRng () [10]).grid i j = 1) ∧
     gridReach (generateGrid idRng () [10]).grid 10 10 (1, 1) (8, 8) ∧
     hasPath (generateGrid idRng () [10]).grid (1, 1) (8, 8) = true) :=
  ⟨idRng_ok, rfl, by decide,
    generateGrid_supported_invariants idRng idRng_ok () [10] 10 rfl (by decide)⟩

theorem alook_aset_same {α β : Type} [DecidableEq α] (l : List (α × β))
    (k : α) (v : β) :
    alook (aset l k v) k = (alook l k).map (fun _ => v) :=
  alook_update_same l k (fun _ => v)

theorem alook_aset_other {α β : Type} [DecidableEq α] (l : List (α × β))
    (k u : α) (v : β) (hu : u ≠ k) :
    alook (aset l k v) u = alook l u :=
  alook_update_other l k u hu (fun _ => v)

theorem isSome_aset {α β : Type} [DecidableEq α] (l : List (α × β))
    (k u : α) (v : β) :
    (alook (aset l k v) u).isSome = (alook l u).isSome := by
  by_cases hu : u = k
  · subst hu
    rw [alook_aset_same]
    cases alook l u <;> rfl
  · rw [alook_aset_other l k u v hu]

theorem pgetU_aset_same {α : Type} [DecidableEq α] (par : List (α × α))
    (rk : List (α × Nat)) (x v : α) (h : (alook par x).isSome = true) :
    pgetU ⟨aset par x v, rk⟩ x = v := by
  show (alook (aset par x v) x).getD x = v
  rw [alook_aset_same]
  obtain ⟨b, hb⟩ := Option.isSome_iff_exists.mp h
  rw [hb]
  rfl

theorem pgetU_aset_other {α : Type} [DecidableEq α] (par : List (α × α))
    (rk : List (α × Nat)) (x u v : α) (hu : u ≠ x) :
    pgetU ⟨aset par x v, rk⟩ u = (alook par u).getD u := by
  show (alook (aset par x v) u).getD u = _
  rw [alook_aset_other par x u v hu]

theorem rgetU_aset_same {α : Type} [DecidableEq α] (par : List (α × α))
    (rk : List (α × Nat)) (x : α) (v : Nat)
    (h : (alook rk x).isSome = true) :
    rgetU ⟨par, aset rk x v⟩ x = v := by
  show (alook (aset rk x v) x).getD 0 = v
  rw [alook_aset_same]
  obtain ⟨b, hb⟩ := Option.isSome_iff_exists.mp h
  rw [hb]
  rfl

theorem rgetU_aset_other {α : Type} [DecidableEq α] (par : List (α × α))
    (rk : List (α × Nat)) (x u : α) (v : Nat) (hu : u ≠ x) :
    rgetU ⟨par, aset rk x v⟩ u = (alook rk u).getD 0 := by
  show (alook (aset rk x v) u).getD 0 = _
  rw [alook_aset_other rk x u v hu]

theorem rgetU_congr {α : Type} [DecidableEq α] (s t : UF α)
    (h : t.rank = s.rank) : rgetU t = rgetU s := by
  funext z
  show (alook t.rank z).getD 0 = (alook s.rank z).getD 0
  rw [h]

theorem pgetU_init {α : Type} [DecidableEq α] :
    ∀ (nodes : List α) (x : α), pgetU (ufInit nodes) x = x := by
  intro nodes
  induction nodes with
  | nil => intro x; rfl
  | cons a t ih =>
    intro x
    show (alook ((a, a) :: t.map (fun n => (n, n))) x).getD x = x
    rw [alook]
    by_cases hax : a = x
    · subst hax
      rw [if_pos rfl]
      rfl
    · rw [if_neg hax]
      exact ih x

theorem rgetU_init {α : Type} [DecidableEq α] :
    ∀ (nodes : List α) (x : α), rgetU (ufInit nodes) x = 0 := by
  intro nodes
  induction nodes with
  | nil => intro x; rfl
  | cons a t ih =>
    intro x
    show (alook ((a, 0) :: t.map (fun n => (n, 0))) x).getD 0 = 0
    rw [alook]
    by_cases hax : a = x
    · subst hax
      rw [if_pos rfl]
      rfl
    · rw [if_neg hax]
      exact ih x

theorem init_parent_isSome {α : Type} [DecidableEq α] :
    ∀ (nodes : List α) (x : α), x ∈ nodes →
    (alook (ufInit nodes).parent x).isSome = true := by
  intro nodes
  induction nodes with
  | nil => intro x hx; exact absurd hx (List.not_mem_nil _)
  | cons a t ih =>
    intro x hx
    show (alook ((a, a) :: t.map (fun n => (n, n))) x).isSome = true
    rw [alook]
    by_cases hax : a = x
    · rw [if_pos hax]
      rfl
    · rw [if_neg hax]
      rcases List.mem_cons.mp hx with h | h
      · exact absurd h.symm hax
      · exact ih x h

theorem init_rank_isSome {α : Type} [DecidableEq α] :
    ∀ (nodes : List α) (x : α), x ∈ nodes →
    (alook (ufInit nodes).rank x).isSome = true := by
  intro nodes
  induction nodes with
  | nil => intro x hx; exact absurd hx (List.not_mem_nil _)
  | cons a t ih =>
    intro x hx
    show (alook ((a, 0) :: t.map (fun n => (n, 0))) x).isSome = true
    rw [alook]
    by_cases hax : a = x
    · rw [if_pos hax]
      rfl
    · rw [if_neg hax]
      rcases List.mem_cons.mp hx with h | h
      · exact absurd h.symm hax
      · exact ih x h

theorem UFWf_init {α : Type} [DecidableEq α] (nodes : List α) :
    UFWf nodes (ufInit nodes) := by
  refine ⟨init_parent_isSome nodes, init_rank_isSome nodes, ?_, ?_⟩
  · intro x hx
    rw [pgetU_init]
    exact hx
  · intro x hx h
    exact absurd (pgetU_init nodes x) h

theorem filter_sublist_filter {α : Type} (p q : α → Bool)
    (h : ∀ a, p a = true → q a = true) :
    ∀ l : List α, List.Sublist (l.filter p) (l.filter q) := by
  intro l
  induction l with
  | nil => exact List.Sublist.refl _
  | cons a t ih =>
    by_cases hpa : p a = true
    · rw [List.filter_cons_of_pos hpa, List.filter_cons_of_pos (h a hpa)]
      exact ih.cons₂ a
    · rw [List.filter_cons_of_neg (by simpa using hpa)]
      by_cases hqa : q a = true
      · rw [List.filter_cons_of_pos hqa]
        exact ih.cons a
      · rw [List.filter_cons_of_neg (by simpa using hqa)]
        exact ih

theorem rankAbove_lt_length {α : Type} [DecidableEq α] (nodes : List α)
    (s : UF α) (x : α) (hx : x ∈ nodes) :
    rankAbove nodes s x < nodes.length := by
  unfold rankAbove
  have hsub : List.Sublist (nodes.filter
      (fun y => decide (rgetU s x < rgetU s y))) nodes :=
    List.filter_sublist _
  rcases Nat.lt_or_ge (nodes.filter
      (fun y => decide (rgetU s x < rgetU s y))).length nodes.length with h | h
  · exact h
  · exfalso
    have heq := hsub.eq_of_length (le_antisymm hsub.length_le h)
    have hx' : x ∈ nodes.filter (fun y => decide (rgetU s x < rgetU s y)) := by
      rw [heq]; exact hx
    have := (List.mem_filter.mp hx').2
    simp at this

theorem rankAbove_lt_of_rank_lt {α : Type} [DecidableEq α] (nodes : List α)
    (s : UF α) (x w : α) (hw : w ∈ nodes) (hrank : rgetU s x < rgetU s w) :
    rankAbove nodes s w < rankAbove nodes s x := by
  unfold rankAbove
  have hsub := filter_sublist_filter
    (fun y => decide (rgetU s w < rgetU s y))
    (fun y => decide (rgetU s x < rgetU s y))
    (fun a ha => by
      rw [decide_eq_true_eq] at ha ⊢
      omega) nodes
  rcases Nat.lt_or_ge (nodes.filter
      (fun y => decide (rgetU s w < rgetU s y))).length
      (nodes.filter (fun y => decide (rgetU s x < rgetU s y))).length with h | h
  · exact h
  · exfalso
    have heq := hsub.eq_of_length (le_antisymm hsub.length_le h)
    have hwmem : w ∈ nodes.filter (fun y => decide (rgetU s x < rgetU s y)) :=
      List.mem_filter.mpr ⟨hw, by rw [decide_eq_true_eq]; exact hrank⟩
    rw [← heq] at hwmem
    have := (List.mem_filter.mp hwmem).2
    simp at this

theorem rankAbove_congr {α : Type} [DecidableEq α] (nodes : List α)
    (s t : UF α) (h : t.rank = s.rank) (x : α) :
    rankAbove nodes t x = rankAbove nodes s x := by
  unfold rankAbove
  rw [rgetU_congr s t h]

theorem ufRootD_of_root {α : Type} [DecidableEq α] (fuel : Nat) (s : UF α)
    (z : α) (h : pgetU s z = z) : ufRootD fuel s z = z := by
  cases fuel with
  | zero => rfl
  | succ n => rw [ufRootD, if_pos h]

theorem ufRootD_stable {α : Type} [DecidableEq α] (nodes : List α) (s : UF α)
    (hWf : UFWf nodes s) :
    ∀ (f₁ : Nat) (z : α) (f₂ : Nat), z ∈ nodes →
    rankAbove nodes s z < f₁ → rankAbove nodes s z < f₂ →
    ufRootD f₁ s z = ufRootD f₂ s z := by
  intro f₁
  induction f₁ with
  | zero => intro z f₂ hz h1 h2; omega
  | succ a ih =>
    intro z f₂ hz h1 h2
    cases f₂ with
    | zero => omega
    | succ b =>
      by_cases hroot : pgetU s z = z
      · rw [ufRootD, if_pos hroot, ufRootD, if_pos hroot]
      · rw [ufRootD, if_neg hroot, ufRootD, if_neg hroot]
        have hpz : pgetU s z ∈ nodes := hWf.pmem z hz
        have hlt : rankAbove nodes s (pgetU s z) < rankAbove nodes s z :=
          rankAbove_lt_of_rank_lt nodes s z (pgetU s z) hpz
            (hWf.rstrict z hz hroot)
        exact ih (pgetU s z) b hpz (by omega) (by omega)

theorem ufRootD_mem {α : Type} [DecidableEq α] (nodes : List α) (s : UF α)
    (hWf : UFWf nodes s) :
    ∀ (f : Nat) (z : α), z ∈ nodes → rankAbove nodes s z < f →
    ufRootD f s z ∈ nodes := by
  intro f
  induction f with
  | zero => intro z hz h; omega
  | succ a ih =>
    intro z hz hf
    by_cases hroot : pgetU s z = z
    · rw [ufRootD, if_pos hroot]
      exact hz
    · rw [ufRootD, if_neg hroot]
      have hpz : pgetU s z ∈ nodes := hWf.pmem z hz
      have hlt : rankAbove nodes s (pgetU s z) < rankAbove nodes s z :=
        rankAbove_lt_of_rank_lt nodes s z (pgetU s z) hpz (hWf.rstrict z hz hroot)
      exact ih (pgetU s z) hpz (by omega)

theorem ufRootD_fix {α : Type} [DecidableEq α] (nodes : List α) (s : UF α)
    (hWf : UFWf nodes s) :
    ∀ (f : Nat) (z : α), z ∈ nodes → rankAbove nodes s z < f →
    pgetU s (ufRootD f s z) = ufRootD f s z := by
  intro f
  induction f with
  | zero => intro z hz h; omega
  | succ a ih =>
    intro z hz hf
    by_cases hroot : pgetU s z = z
    · rw [ufRootD, if_pos hroot]
      exact hroot
    · rw [ufRootD, if_neg hroot]
      have hpz : pgetU s z ∈ nodes := hWf.pmem z hz
      have hlt : rankAbove nodes s (pgetU s z) < rankAbove nodes s z :=
        rankAbove_lt_of_rank_lt nodes s z (pgetU s z) hpz (hWf.rstrict z hz hroot)
      exact ih (pgetU s z) hpz (by omega)

theorem ufRootD_rank_le {α : Type} [DecidableEq α] (nodes : List α) (s : UF α)
    (hWf : UFWf nodes s) :
    ∀ (f : Nat) (z : α), z ∈ nodes → rankAbove nodes s z < f →
    rgetU s z ≤ rgetU s (ufRootD f s z) := by
  intro f
  induction f with
  | zero => intro z hz h; omega
  | succ a ih =>
    intro z hz hf
    by_cases hroot : pgetU s z = z
    · rw [ufRootD, if_pos hroot]
    · rw [ufRootD, if_neg hroot]
      have hpz : pgetU s z ∈ nodes := hWf.pmem z hz
      have hstrict := hWf.rstrict z hz hroot
      have hlt : rankAbove nodes s (pgetU s z) < rankAbove nodes s z :=
        rankAbove_lt_of_rank_lt nodes s z (pgetU s z) hpz hstrict
      have := ih (pgetU s z) hpz (by omega)
      omega

theorem ufRootD_rank_strict {α : Type} [DecidableEq α] (nodes : List α)
    (s : UF α) (hWf : UFWf nodes s) (f : Nat) (z : α) (hz : z ∈ nodes)
    (hf : rankAbove nodes s z < f) (hne : pgetU s z ≠ z) :
    rgetU s z < rgetU s (ufRootD f s z) := by
  cases f with
  | zero => omega
  | succ a =>
    rw [ufRootD, if_neg hne]
    have hpz : pgetU s z ∈ nodes := hWf.pmem z hz
    have hstrict := hWf.rstrict z hz hne
    have hlt : rankAbove nodes s (pgetU s z) < rankAbove nodes s z :=
      rankAbove_lt_of_rank_lt nodes s z (pgetU s z) hpz hstrict
    have := ufRootD_rank_le nodes s hWf a (pgetU s z) hpz (by omega)
    omega

theorem ufRootD_eq_self_iff {α : Type} [DecidableEq α] (nodes : List α)
    (s : UF α) (hWf : UFWf nodes s) (f : Nat) (z : α) (hz : z ∈ nodes)
    (hf : rankAbove nodes s z < f) :
    ufRootD f s z = z ↔ pgetU s z = z := by
  constructor
  · intro h
    by_contra hroot
    have := ufRootD_rank_strict nodes s hWf f z hz hf hroot
    rw [h] at this
    omega
  · exact ufRootD_of_root f s z

theorem UFWf_redirect {α : Type} [DecidableEq α] (nodes : List α) (s : UF α)
    (w : α) (hWf : UFWf nodes s) (hw : w ∈ nodes) :
    UFWf nodes ⟨aset s.parent w (ufRootD nodes.length s w), s.rank⟩ := by
  have hra : rankAbove nodes s w < nodes.length :=
    rankAbove_lt_length nodes s w hw
  have hrmem : ufRootD nodes.length s w ∈ nodes :=
    ufRootD_mem nodes s hWf nodes.length w hw hra
  constructor
  · intro z hz
    show (alook (aset s.parent w (ufRootD nodes.length s w)) z).isSome = true
    rw [isSome_aset]
    exact hWf.pkeys z hz
  · intro z hz
    exact hWf.rkeys z hz
  · intro z hz
    by_cases hzw : z = w
    · subst hzw
      rw [pgetU_aset_same _ _ _ _ (hWf.pkeys z hz)]
      exact hrmem
    · have h' : pgetU (⟨aset s.parent w (ufRootD nodes.length s w), s.rank⟩ : UF α) z
          = pgetU s z := pgetU_aset_other _ _ _ _ _ hzw
      rw [h']
      exact hWf.pmem z hz
  · intro z hz hne
    by_cases hzw : z = w
    · subst hzw
      rw [pgetU_aset_same _ _ _ _ (hWf.pkeys z hz)] at hne ⊢
      show rgetU s z < rgetU s (ufRootD nodes.length s z)
      have hpne : pgetU s z ≠ z := by
        intro hroot
        exact hne (ufRootD_of_root nodes.length s z hroot)
      exact ufRootD_rank_strict nodes s hWf nodes.length z hz hra hpne
    · have h' : pgetU (⟨aset s.parent w (ufRootD nodes.length s w), s.rank⟩ : UF α) z
          = pgetU s z := pgetU_aset_other _ _ _ _ _ hzw
      rw [h'] at hne ⊢
      show rgetU s z < rgetU s (pgetU s z)
      exact hWf.rstrict z hz hne

theorem ufRootD_redirect {α : Type} [DecidableEq α] (nodes : List α)
    (s : UF α) (w : α) (hWf : UFWf nodes s) (hw : w ∈ nodes) :
    ∀ z ∈ nodes,
    ufRootD nodes.length ⟨aset s.parent w (ufRootD nodes.length s w), s.rank⟩ z
      = ufRootD nodes.length s z := by
  have hN : 0 < nodes.length := List.length_pos.mpr (List.ne_nil_of_mem hw)
  obtain ⟨m, hm⟩ : ∃ m, nodes.length = m + 1 := ⟨nodes.length - 1, by omega⟩
  have hra : rankAbove nodes s w < nodes.length :=
    rankAbove_lt_length nodes s w hw
  have hWf' : UFWf nodes ⟨aset s.parent w (ufRootD nodes.length s w), s.rank⟩ :=
    UFWf_redirect nodes s w hWf hw
  have hrkeq : (⟨aset s.parent w (ufRootD nodes.length s w), s.rank⟩ : UF α).rank
      = s.rank := rfl
  have hracongr : ∀ z, rankAbove nodes
      (⟨aset s.parent w (ufRootD nodes.length s w), s.rank⟩ : UF α) z =
      rankAbove nodes s z := rankAbove_congr nodes s _ hrkeq
  have hrgeq : rgetU (⟨aset s.parent w (ufRootD nodes.length s w), s.rank⟩ : UF α)
      = rgetU s := rgetU_congr s _ hrkeq
  have main : ∀ (f : Nat) (z : α), z ∈ nodes → rankAbove nodes s z < f →
      ufRootD nodes.length
        ⟨aset s.parent w (ufRootD nodes.length s w), s.rank⟩ z =
      ufRootD nodes.length s z := by
    intro f
    induction f with
    | zero => intro z hz h; omega
    | succ a ih =>
      intro z hz hf
      by_cases hzw : z = w
      · subst hzw
        have hpr : pgetU (⟨aset s.parent z (ufRootD nodes.length s z), s.rank⟩ : UF α) z
            = ufRootD nodes.length s z := pgetU_aset_same _ _ _ _ (hWf.pkeys z hz)
        by_cases hroot : ufRootD nodes.length s z = z
        · have hpr' : pgetU (⟨aset s.parent z (ufRootD nodes.length s z),
              s.rank⟩ : UF α) z = z := by
            rw [hpr, hroot]
          rw [ufRootD_of_root _ _ _ hpr', hroot]
        · have unfold1 : ∀ (s' : UF α) (u : α), pgetU s' u ≠ u →
              ufRootD nodes.length s' u = ufRootD m s' (pgetU s' u) := by
            intro s' u hne
            rw [hm, ufRootD, if_neg hne]
          rw [unfold1 _ _ (by rw [hpr]; exact hroot), hpr]
          have hfixr : pgetU s (ufRootD nodes.length s z) =
              ufRootD nodes.length s z :=
            ufRootD_fix nodes s hWf nodes.length z hz hra
          have hfix' : pgetU (⟨aset s.parent z (ufRootD nodes.length s z), s.rank⟩ : UF α)
              (ufRootD nodes.length s z) = ufRootD nodes.length s z := by
            have h' : pgetU (⟨aset s.parent z (ufRootD nodes.length s z), s.rank⟩ : UF α)
                (ufRootD nodes.length s z) = pgetU s (ufRootD nodes.length s z) :=
              pgetU_aset_other _ _ _ _ _ hroot
            rw [h', hfixr]
          rw [ufRootD_of_root _ _ _ hfix']
      · have hpz' : pgetU (⟨aset s.parent w (ufRootD nodes.length s w), s.rank⟩ : UF α) z
            = pgetU s z := pgetU_aset_other _ _ _ _ _ hzw
        by_cases hroot : pgetU s z = z
        · rw [ufRootD_of_root _ _ _ (by rw [hpz']; exact hroot),
            ufRootD_of_root _ _ _ hroot]
        · have hpz : pgetU s z ∈ nodes := hWf.pmem z hz
          have hlt : rankAbove nodes s (pgetU s z) < rankAbove nodes s z :=
            rankAbove_lt_of_rank_lt nodes s z (pgetU s z) hpz
              (hWf.rstrict z hz hroot)
          have hih := ih (pgetU s z) hpz (by omega)
          have unfold1 : ∀ (s' : UF α) (u : α), pgetU s' u ≠ u →
              ufRootD nodes.length s' u = ufRootD m s' (pgetU s' u) := by
            intro s' u hne
            rw [hm, ufRootD, if_neg hne]
          have hstep' : ufRootD nodes.length
              (⟨aset s.parent w (ufRootD nodes.length s w), s.rank⟩ : UF α) z =
              ufRootD m
              (⟨aset s.parent w (ufRootD nodes.length s w), s.rank⟩ : UF α)
              (pgetU s z) := by
            rw [unfold1 _ _ (by rw [hpz']; exact hroot), hpz']
          have hstep : ufRootD nodes.length s z = ufRootD m s (pgetU s z) :=
            unfold1 s z hroot
          rw [hstep', hstep]
          have hstab' : ufRootD m
              (⟨aset s.parent w (ufRootD nodes.length s w), s.rank⟩ : UF α)
              (pgetU s z) = ufRootD nodes.length
              (⟨aset s.parent w (ufRootD nodes.length s w), s.rank⟩ : UF α)
              (pgetU s z) := by
            apply ufRootD_stable nodes _ hWf' m (pgetU s z) nodes.length hpz
            · rw [hracongr]
              have hzlt : rankAbove nodes s z < nodes.length :=
                rankAbove_lt_length nodes s z hz
              omega
            · rw [hracongr]
              exact rankAbove_lt_length nodes s (pgetU s z) hpz
          have hstab : ufRootD m s (pgetU s z) = ufRootD nodes.length s (pgetU s z) := by
            apply ufRootD_stable nodes s hWf m (pgetU s z) nodes.length hpz
            · have hzlt : rankAbove nodes s z < nodes.length :=
                rankAbove_lt_length nodes s z hz
              omega
            · exact rankAbove_lt_length nodes s (pgetU s z) hpz
          rw [hstab', hstab]
          exact hih
  intro z hz
  exact main (rankAbove nodes s z + 1) z hz (by omega)

theorem ufFind_spec {α : Type} [DecidableEq α] (nodes : List α) :
    ∀ (fuel : Nat) (s : UF α) (x : α), UFWf nodes s → x ∈ nodes →
    rankAbove nodes s x < fuel →
    (ufFind fuel s x).1 = ufRootD nodes.length s x ∧
    UFWf nodes (ufFind fuel s x).2 ∧
    ((ufFind fuel s x).2).rank = s.rank ∧
    (∀ z ∈ nodes, ufRootD nodes.length (ufFind fuel s x).2 z =
      ufRootD nodes.length s z) ∧
    (∀ z : α, pgetU (ufFind fuel s x).2 z ≠ pgetU s z →
      rgetU s x ≤ rgetU s z) := by
  intro fuel
  induction fuel with
  | zero => intro s x hWf hx h; omega
  | succ a ih =>
    intro s x hWf hx hf
    have hN : 0 < nodes.length := List.length_pos.mpr (List.ne_nil_of_mem hx)
    obtain ⟨m, hm⟩ : ∃ m, nodes.length = m + 1 := ⟨nodes.length - 1, by omega⟩
    by_cases hroot : pgetU s x = x
    · have hres : ufFind (a + 1) s x = (x, s) := by
        simp only [ufFind]
        rw [if_pos hroot]
      rw [hres]
      exact ⟨(ufRootD_of_root _ _ _ hroot).symm, hWf, rfl, fun z hz => rfl,
        fun z h => absurd rfl h⟩
    · have hpx : pgetU s x ∈ nodes := hWf.pmem x hx
      have hlt : rankAbove nodes s (pgetU s x) < rankAbove nodes s x :=
        rankAbove_lt_of_rank_lt nodes s x (pgetU s x) hpx (hWf.rstrict x hx hroot)
      obtain ⟨ha, hb, hc, hd, he⟩ := ih s (pgetU s x) hWf hpx (by omega)
      have hres : ufFind (a + 1) s x =
          ((ufFind a s (pgetU s x)).1,
           ⟨aset (ufFind a s (pgetU s x)).2.parent x (ufFind a s (pgetU s x)).1,
            (ufFind a s (pgetU s x)).2.rank⟩) := by
        simp only [ufFind]
        rw [if_neg hroot]
      rw [hres]
      have hstepx : ufRootD nodes.length s x =
          ufRootD nodes.length s (pgetU s x) := by
        rw [hm, ufRootD, if_neg hroot]
        apply ufRootD_stable nodes s hWf m (pgetU s x) (m + 1) hpx
        · have := rankAbove_lt_length nodes s x hx
          omega
        · rw [← hm]
          exact rankAbove_lt_length nodes s (pgetU s x) hpx
      have ha' : (ufFind a s (pgetU s x)).1 = ufRootD nodes.length s x := by
        rw [ha, hstepx]
      have hroot2 : (ufFind a s (pgetU s x)).1 =
          ufRootD nodes.length (ufFind a s (pgetU s x)).2 x :=
        ha'.trans (hd x hx).symm
      refine ⟨ha', ?_, hc, ?_, ?_⟩
      · show UFWf nodes ⟨aset (ufFind a s (pgetU s x)).2.parent x
          (ufFind a s (pgetU s x)).1, (ufFind a s (pgetU s x)).2.rank⟩
        rw [hroot2]
        exact UFWf_redirect nodes (ufFind a s (pgetU s x)).2 x hb hx
      · intro z hz
        show ufRootD nodes.length (⟨aset (ufFind a s (pgetU s x)).2.parent x
          (ufFind a s (pgetU s x)).1, (ufFind a s (pgetU s x)).2.rank⟩ : UF α) z =
          ufRootD nodes.length s z
        rw [hroot2]
        exact (ufRootD_redirect nodes (ufFind a s (pgetU s x)).2 x hb hx z
          hz).trans (hd z hz)
      · intro z hzc
        by_cases hzx : z = x
        · subst hzx
          exact le_refl _
        · have h2 : pgetU (⟨aset (ufFind a s (pgetU s x)).2.parent x
              (ufFind a s (pgetU s x)).1, (ufFind a s (pgetU s x)).2.rank⟩ : UF α) z =
              pgetU (ufFind a s (pgetU s x)).2 z :=
            pgetU_aset_other _ _ _ _ _ hzx
          rw [h2] at hzc
          have := he z hzc
          have := hWf.rstrict x hx hroot
          omega

theorem ufAttach_wf {α : Type} [DecidableEq α] (nodes : List α) (s : UF α)
    (rA rB : α) (newrank : List (α × Nat)) (hWf : UFWf nodes s)
    (hA : rA ∈ nodes) (hB : rB ∈ nodes)
    (hrootA : pgetU s rA = rA) (hrootB : pgetU s rB = rB) (hne : rA ≠ rB)
    (hcase : (newrank = s.rank ∧ rgetU s rA < rgetU s rB) ∨
      (newrank = aset s.rank rB (rgetU s rB + 1) ∧ rgetU s rA = rgetU s rB)) :
    UFWf nodes ⟨aset s.parent rA rB, newrank⟩ := by
  have hrg : ∀ z, z ≠ rB → rgetU (⟨aset s.parent rA rB, newrank⟩ : UF α) z =
      rgetU s z := by
    intro z hz
    rcases hcase with ⟨rfl, _⟩ | ⟨rfl, _⟩
    · rfl
    · exact rgetU_aset_other _ _ _ _ _ hz
  have hrgB : rgetU (⟨aset s.parent rA rB, newrank⟩ : UF α) rB = rgetU s rB ∨
      (rgetU (⟨aset s.parent rA rB, newrank⟩ : UF α) rB = rgetU s rB + 1 ∧
       rgetU s rA = rgetU s rB) := by
    rcases hcase with ⟨rfl, _⟩ | ⟨rfl, htie⟩
    · exact Or.inl rfl
    · exact Or.inr ⟨rgetU_aset_same _ _ _ _ (hWf.rkeys rB hB), htie⟩
  have hrkcase : rgetU s rA < rgetU s rB ∨ rgetU s rA = rgetU s rB := by
    rcases hcase with ⟨_, h⟩ | ⟨_, h⟩
    · exact Or.inl h
    · exact Or.inr h
  constructor
  · intro z hz
    show (alook (aset s.parent rA rB) z).isSome = true
    rw [isSome_aset]
    exact hWf.pkeys z hz
  · intro z hz
    show (alook newrank z).isSome = true
    rcases hcase with ⟨rfl, _⟩ | ⟨rfl, _⟩
    · exact hWf.rkeys z hz
    · rw [isSome_aset]
      exact hWf.rkeys z hz
  · intro z hz
    by_cases hzA : z = rA
    · subst hzA
      rw [pgetU_aset_same _ _ _ _ (hWf.pkeys z hz)]
      exact hB
    · have h' : pgetU (⟨aset s.parent rA rB, newrank⟩ : UF α) z = pgetU s z :=
        pgetU_aset_other _ _ _ _ _ hzA
      rw [h']
      exact hWf.pmem z hz
  · intro z hz hnz
    by_cases hzA : z = rA
    · subst hzA
      rw [pgetU_aset_same _ _ _ _ (hWf.pkeys z hz)] at hnz ⊢
      rw [hrg z hne]
      rcases hrgB with h | ⟨h, htie⟩ <;> rw [h]
      · rcases hrkcase with h' | h'
        · exact h'
        · rcases hcase with ⟨hrk, hlt⟩ | ⟨hrk, _⟩
          · exact hlt
          · exfalso
            have hb : rgetU (⟨aset s.parent z rB, newrank⟩ : UF α) rB =
                rgetU s rB + 1 := by
              rw [hrk]
              exact rgetU_aset_same _ _ _ _ (hWf.rkeys rB hB)
            omega
      · omega
    · have h' : pgetU (⟨aset s.parent rA rB, newrank⟩ : UF α) z = pgetU s z :=
        pgetU_aset_other _ _ _ _ _ hzA
      rw [h'] at hnz ⊢
      have hzB : z ≠ rB := by
        intro hzB
        subst hzB
        exact hnz hrootB
      rw [hrg z hzB]
      have hstrict := hWf.rstrict z hz hnz
      by_cases hpB : pgetU s z = rB
      · rw [hpB] at hstrict ⊢
        rcases hrgB with h | ⟨h, _⟩ <;> rw [h] <;> omega
      · rw [hrg _ hpB]
        exact hstrict

theorem ufAttach_rootmap {α : Type} [DecidableEq α] (nodes : List α) (s : UF α)
    (rA rB : α) (newrank : List (α × Nat)) (hWf : UFWf nodes s)
    (hA : rA ∈ nodes) (hB : rB ∈ nodes)
    (hrootA : pgetU s rA = rA) (hrootB : pgetU s rB = rB) (hne : rA ≠ rB)
    (hcase : (newrank = s.rank ∧ rgetU s rA < rgetU s rB) ∨
      (newrank = aset s.rank rB (rgetU s rB + 1) ∧ rgetU s rA = rgetU s rB)) :
    ∀ z ∈ nodes,
    ufRootD nodes.length (⟨aset s.parent rA rB, newrank⟩ : UF α) z =
      if ufRootD nodes.length s z = rA then rB
      else ufRootD nodes.length s z := by
  have hWf' : UFWf nodes (⟨aset s.parent rA rB, newrank⟩ : UF α) :=
    ufAttach_wf nodes s rA rB newrank hWf hA hB hrootA hrootB hne hcase
  have hN : 0 < nodes.length := List.length_pos.mpr (List.ne_nil_of_mem hA)
  obtain ⟨m, hm⟩ : ∃ m, nodes.length = m + 1 := ⟨nodes.length - 1, by omega⟩
  have unfold1 : ∀ (s' : UF α) (u : α), pgetU s' u ≠ u →
      ufRootD nodes.length s' u = ufRootD m s' (pgetU s' u) := by
    intro s' u hnu
    rw [hm, ufRootD, if_neg hnu]
  have main : ∀ (f : Nat) (z : α), z ∈ nodes →
      rankAbove nodes (⟨aset s.parent rA rB, newrank⟩ : UF α) z < f →
      ufRootD nodes.length (⟨aset s.parent rA rB, newrank⟩ : UF α) z =
        if ufRootD nodes.length s z = rA then rB
        else ufRootD nodes.length s z := by
    intro f
    induction f with
    | zero => intro z hz h; omega
    | succ a ih =>
      intro z hz hf
      by_cases hzA : z = rA
      · subst hzA
        have hpA : pgetU (⟨aset s.parent z rB, newrank⟩ : UF α) z = rB :=
          pgetU_aset_same _ _ _ _ (hWf.pkeys z hz)
        rw [unfold1 _ _ (by rw [hpA]; exact fun h => hne h.symm), hpA]
        have hfixB : pgetU (⟨aset s.parent z rB, newrank⟩ : UF α) rB = rB := by
          have h' : pgetU (⟨aset s.parent z rB, newrank⟩ : UF α) rB =
              pgetU s rB := pgetU_aset_other _ _ _ _ _ (fun h => hne h.symm)
          rw [h', hrootB]
        rw [ufRootD_of_root _ _ _ hfixB]
        rw [ufRootD_of_root _ _ _ hrootA, if_pos rfl]
      · have hpz' : pgetU (⟨aset s.parent rA rB, newrank⟩ : UF α) z =
            pgetU s z := pgetU_aset_other _ _ _ _ _ hzA
        by_cases hroot : pgetU s z = z
        · rw [ufRootD_of_root _ _ _ (by rw [hpz']; exact hroot),
            ufRootD_of_root _ _ _ hroot, if_neg hzA]
        · have hpz : pgetU s z ∈ nodes := hWf.pmem z hz
          have hlt' : rankAbove nodes (⟨aset s.parent rA rB, newrank⟩ : UF α)
              (pgetU s z) <
              rankAbove nodes (⟨aset s.parent rA rB, newrank⟩ : UF α) z := by
            apply rankAbove_lt_of_rank_lt _ _ _ _ hpz
            have := hWf'.rstrict z hz (by rw [hpz']; exact hroot)
            rw [hpz'] at this
            exact this
          rw [unfold1 _ _ (by rw [hpz']; exact hroot), hpz']
          rw [unfold1 s z hroot]
          have hstab' : ufRootD m (⟨aset s.parent rA rB, newrank⟩ : UF α)
              (pgetU s z) = ufRootD nodes.length
              (⟨aset s.parent rA rB, newrank⟩ : UF α) (pgetU s z) := by
            apply ufRootD_stable nodes _ hWf' m (pgetU s z) nodes.length hpz
            · have := rankAbove_lt_length nodes
                (⟨aset s.parent rA rB, newrank⟩ : UF α) z hz
              omega
            · exact rankAbove_lt_length nodes _ (pgetU s z) hpz
          have hstab : ufRootD m s (pgetU s z) =
              ufRootD nodes.length s (pgetU s z) := by
            apply ufRootD_stable nodes s hWf m (pgetU s z) nodes.length hpz
            · have h1 := rankAbove_lt_length nodes s z hz
              have h2 := rankAbove_lt_of_rank_lt nodes s z (pgetU s z) hpz
                (hWf.rstrict z hz hroot)
              omega
            · exact rankAbove_lt_length nodes s (pgetU s z) hpz
          rw [hstab', hstab]
          exact ih (pgetU s z) hpz (by omega)
  intro z hz
  exact main (rankAbove nodes (⟨aset s.parent rA rB, newrank⟩ : UF α) z + 1)
    z hz (by omega)

theorem ufUnion_spec {α : Type} [DecidableEq α] (nodes : List α) (s : UF α)
    (x y : α) (hWf : UFWf nodes s) (hx : x ∈ nodes) (hy : y ∈ nodes) :
    UFWf nodes (ufUnion nodes.length s x y).2 ∧
    (ufRootD nodes.length s x = ufRootD nodes.length s y →
      (ufUnion nodes.length s x y).1 = false ∧
      (ufUnion nodes.length s x y).2.rank = s.rank ∧
      (∀ z ∈ nodes, ufRootD nodes.length (ufUnion nodes.length s x y).2 z =
        ufRootD nodes.length s z)) ∧
    (ufRootD nodes.length s x ≠ ufRootD nodes.length s y →
      (ufUnion nodes.length s x y).1 = true ∧
      (∃ A B : α, A ≠ B ∧
        ((A = ufRootD nodes.length s x ∧ B = ufRootD nodes.length s y) ∨
         (A = ufRootD nodes.length s y ∧ B = ufRootD nodes.length s x)) ∧
        ∀ z ∈ nodes, ufRootD nodes.length (ufUnion nodes.length s x y).2 z =
          if ufRootD nodes.length s z = A then B
          else ufRootD nodes.length s z) ∧
      (rgetU s (ufRootD nodes.length s x) < rgetU s (ufRootD nodes.length s y) →
        pgetU (ufUnion nodes.length s x y).2 (ufRootD nodes.length s x) =
          ufRootD nodes.length s y ∧
        (ufUnion nodes.length s x y).2.rank = s.rank) ∧
      (rgetU s (ufRootD nodes.length s y) < rgetU s (ufRootD nodes.length s x) →
        pgetU (ufUnion nodes.length s x y).2 (ufRootD nodes.length s y) =
          ufRootD nodes.length s x ∧
        (ufUnion nodes.length s x y).2.rank = s.rank) ∧
      (rgetU s (ufRootD nodes.length s x) = rgetU s (ufRootD nodes.length s y) →
        pgetU (ufUnion nodes.length s x y).2 (ufRootD nodes.length s y) =
          ufRootD nodes.length s x ∧
        rgetU (ufUnion nodes.length s x y).2 (ufRootD nodes.length s x) =
          rgetU s (ufRootD nodes.length s x) + 1 ∧
        (∀ z : α, z ≠ ufRootD nodes.length s x →
          rgetU (ufUnion nodes.length s x y).2 z = rgetU s z))) := by
  have hNx := rankAbove_lt_length nodes s x hx
  have hNy := rankAbove_lt_length nodes s y hy
  obtain ⟨r1, s1, hp1⟩ : ∃ r s', ufFind nodes.length s x = (r, s') :=
    ⟨_, _, rfl⟩
  have hs1 := ufFind_spec nodes nodes.length s x hWf hx hNx
  rw [hp1] at hs1
  obtain ⟨ha1, hb1, hc1, hd1, _⟩ := hs1
  have har1 : r1 = ufRootD nodes.length s x := ha1
  have hWf1 : UFWf nodes s1 := hb1
  have hrk1 : s1.rank = s.rank := hc1
  have hd1' : ∀ z ∈ nodes, ufRootD nodes.length s1 z =
      ufRootD nodes.length s z := hd1
  obtain ⟨r2, s2, hp2⟩ : ∃ r s', ufFind nodes.length s1 y = (r, s') :=
    ⟨_, _, rfl⟩
  have hs2 := ufFind_spec nodes nodes.length s1 y hWf1 hy
    (by rw [rankAbove_congr nodes s s1 hrk1]; exact hNy)
  rw [hp2] at hs2
  obtain ⟨ha2, hb2, hc2, hd2, _⟩ := hs2
  have hWf2 : UFWf nodes s2 := hb2
  have hrk2 : s2.rank = s.rank := by
    have h' : s2.rank = s1.rank := hc2
    rw [h', hrk1]
  have hr2' : r2 = ufRootD nodes.length s y := by
    have h' : r2 = ufRootD nodes.length s1 y := ha2
    rw [h', hd1' y hy]
  have hpres : ∀ z ∈ nodes, ufRootD nodes.length s2 z =
      ufRootD nodes.length s z := by
    intro z hz
    have h' : ufRootD nodes.length s2 z = ufRootD nodes.length s1 z := hd2 z hz
    rw [h', hd1' z hz]
  have hrgeq : rgetU s2 = rgetU s := rgetU_congr s s2 hrk2
  have hu : ufUnion nodes.length s x y =
      (if r1 = r2 then (false, s2)
       else if rgetU s2 r1 < rgetU s2 r2 then
         (true, ⟨aset s2.parent r1 r2, s2.rank⟩)
       else if rgetU s2 r2 < rgetU s2 r1 then
         (true, ⟨aset s2.parent r2 r1, s2.rank⟩)
       else (true, ⟨aset s2.parent r2 r1,
         aset s2.rank r1 (rgetU s2 r1 + 1)⟩)) := by
    simp only [ufUnion, hp1, hp2]
  have hr1mem : r1 ∈ nodes := by
    rw [har1]
    exact ufRootD_mem nodes s hWf nodes.length x hx hNx
  have hr2mem : r2 ∈ nodes := by
    rw [hr2']
    exact ufRootD_mem nodes s hWf nodes.length y hy hNy
  have hroot1 : pgetU s r1 = r1 := by
    rw [har1]
    exact ufRootD_fix nodes s hWf nodes.length x hx hNx
  have hroot2 : pgetU s r2 = r2 := by
    rw [hr2']
    exact ufRootD_fix nodes s hWf nodes.length y hy hNy
  have hroot1s2 : pgetU s2 r1 = r1 := by
    apply (ufRootD_eq_self_iff nodes s2 hWf2 nodes.length r1 hr1mem
      (rankAbove_lt_length nodes s2 r1 hr1mem)).mp
    rw [hpres r1 hr1mem]
    exact ufRootD_of_root _ _ _ hroot1
  have hroot2s2 : pgetU s2 r2 = r2 := by
    apply (ufRootD_eq_self_iff nodes s2 hWf2 nodes.length r2 hr2mem
      (rankAbove_lt_length nodes s2 r2 hr2mem)).mp
    rw [hpres r2 hr2mem]
    exact ufRootD_of_root _ _ _ hroot2
  by_cases hr : r1 = r2
  · have hxyeq : ufRootD nodes.length s x = ufRootD nodes.length s y := by
      rw [← har1, ← hr2', hr]
    rw [hu, if_pos hr]
    refine ⟨hWf2, ?_, ?_⟩
    · intro _
      exact ⟨rfl, hrk2, hpres⟩
    · intro hne
      exact absurd hxyeq hne
  · have hxyne : ufRootD nodes.length s x ≠ ufRootD nodes.length s y := by
      rw [← har1, ← hr2']
      exact hr
    have hrg1 : rgetU s (ufRootD nodes.length s x) = rgetU s2 r1 := by
      rw [← har1, hrgeq]
    have hrg2 : rgetU s (ufRootD nodes.length s y) = rgetU s2 r2 := by
      rw [← hr2', hrgeq]
    rw [hu, if_neg hr]
    by_cases hlt : rgetU s2 r1 < rgetU s2 r2
    · rw [if_pos hlt]
      refine ⟨ufAttach_wf nodes s2 r1 r2 s2.rank hWf2 hr1mem hr2mem hroot1s2
          hroot2s2 hr (Or.inl ⟨rfl, hlt⟩),
        fun h => absurd h hxyne, ?_⟩
      intro _
      refine ⟨rfl, ⟨r1, r2, hr, Or.inl ⟨har1, hr2'⟩, ?_⟩, ?_, ?_, ?_⟩
      · intro z hz
        have hmap := ufAttach_rootmap nodes s2 r1 r2 s2.rank hWf2 hr1mem
          hr2mem hroot1s2 hroot2s2 hr (Or.inl ⟨rfl, hlt⟩) z hz
        rw [hpres z hz] at hmap
        exact hmap
      · intro _
        refine ⟨?_, ?_⟩
        · rw [← har1, ← hr2']
          exact pgetU_aset_same _ _ _ _ (hWf2.pkeys r1 hr1mem)
        · show s2.rank = s.rank
          exact hrk2
      · intro hcon
        rw [hrg1, hrg2] at hcon
        omega
      · intro hcon
        rw [hrg1, hrg2] at hcon
        omega
    · rw [if_neg hlt]
      by_cases hlt2 : rgetU s2 r2 < rgetU s2 r1
      · rw [if_pos hlt2]
        refine ⟨ufAttach_wf nodes s2 r2 r1 s2.rank hWf2 hr2mem hr1mem hroot2s2
            hroot1s2 (fun h => hr h.symm) (Or.inl ⟨rfl, hlt2⟩),
          fun h => absurd h hxyne, ?_⟩
        intro _
        refine ⟨rfl, ⟨r2, r1, fun h => hr h.symm, Or.inr ⟨hr2', har1⟩, ?_⟩,
          ?_, ?_, ?_⟩
        · intro z hz
          have hmap := ufAttach_rootmap nodes s2 r2 r1 s2.rank hWf2 hr2mem
            hr1mem hroot2s2 hroot1s2 (fun h => hr h.symm)
            (Or.inl ⟨rfl, hlt2⟩) z hz
          rw [hpres z hz] at hmap
          exact hmap
        · intro hcon
          rw [hrg1, hrg2] at hcon
          omega
        · intro _
          refine ⟨?_, ?_⟩
          · rw [← har1, ← hr2']
            exact pgetU_aset_same _ _ _ _ (hWf2.pkeys r2 hr2mem)
          · show s2.rank = s.rank
            exact hrk2
        · intro hcon
          rw [hrg1, hrg2] at hcon
          omega
      · rw [if_neg hlt2]
        have htie : rgetU s2 r2 = rgetU s2 r1 := by omega
        refine ⟨ufAttach_wf nodes s2 r2 r1
            (aset s2.rank r1 (rgetU s2 r1 + 1)) hWf2 hr2mem hr1mem hroot2s2
            hroot1s2 (fun h => hr h.symm) (Or.inr ⟨rfl, htie⟩),
          fun h => absurd h hxyne, ?_⟩
        intro _
        refine ⟨rfl, ⟨r2, r1, fun h => hr h.symm, Or.inr ⟨hr2', har1⟩, ?_⟩,
          ?_, ?_, ?_⟩
        · intro z hz
          have hmap := ufAttach_rootmap nodes s2 r2 r1
            (aset s2.rank r1 (rgetU s2 r1 + 1)) hWf2 hr2mem hr1mem hroot2s2
            hroot1s2 (fun h => hr h.symm) (Or.inr ⟨rfl, htie⟩) z hz
          rw [hpres z hz] at hmap
          exact hmap
        · intro hcon
          rw [hrg1, hrg2] at hcon
          omega
        · intro hcon
          rw [hrg1, hrg2] at hcon
          omega
        · intro _
          refine ⟨?_, ?_, ?_⟩
          · rw [← har1, ← hr2']
            exact pgetU_aset_same _ _ _ _ (hWf2.pkeys r2 hr2mem)
          · rw [← har1]
            have hstep : rgetU (⟨aset s2.parent r2 r1,
                aset s2.rank r1 (rgetU s2 r1 + 1)⟩ : UF α) r1 =
                rgetU s2 r1 + 1 :=
              rgetU_aset_same _ _ _ _ (hWf2.rkeys r1 hr1mem)
            rw [hstep, hrgeq]
          · intro z hz
            rw [← har1] at hz
            have h1 : rgetU (⟨aset s2.parent r2 r1,
                aset s2.rank r1 (rgetU s2 r1 + 1)⟩ : UF α) z =
                rgetU s2 z :=
              rgetU_aset_other _ _ _ _ _ hz
            rw [h1]
            exact congrFun hrgeq z

theorem eqvGen_empty_iff {α : Type} (u v : α) :
    Relation.EqvGen (fun a b => (a, b) ∈ ([] : List (α × α))) u v ↔ u = v := by
  constructor
  · intro h
    induction h with
    | rel a b hab => exact absurd hab (List.not_mem_nil _)
    | refl a => rfl
    | symm a b _ ih => exact ih.symm
    | trans a b c _ _ ih1 ih2 => exact ih1.trans ih2
  · intro h
    rw [h]
    exact Relation.EqvGen.refl v

theorem eqvGen_mono_mem {α : Type} (cs : List (α × α)) (c : α × α) (a b : α)
    (h : Relation.EqvGen (fun a b => (a, b) ∈ cs) a b) :
    Relation.EqvGen (fun a b => (a, b) ∈ cs ++ [c]) a b := by
  induction h with
  | rel a b hab => exact Relation.EqvGen.rel a b (List.mem_append_left _ hab)
  | refl a => exact Relation.EqvGen.refl a
  | symm a b _ ih => exact Relation.EqvGen.symm a b ih
  | trans a b d _ _ ih1 ih2 => exact Relation.EqvGen.trans a b d ih1 ih2

theorem eqvGen_snoc {α : Type} (cs : List (α × α)) (c : α × α) (u v : α) :
    Relation.EqvGen (fun a b => (a, b) ∈ cs ++ [c]) u v ↔
    (Relation.EqvGen (fun a b => (a, b) ∈ cs) u v ∨
     (Relation.EqvGen (fun a b => (a, b) ∈ cs) u c.1 ∧
      Relation.EqvGen (fun a b => (a, b) ∈ cs) c.2 v) ∨
     (Relation.EqvGen (fun a b => (a, b) ∈ cs) u c.2 ∧
      Relation.EqvGen (fun a b => (a, b) ∈ cs) c.1 v)) := by
  constructor
  · intro h
    induction h with
    | rel a b hab =>
      rcases List.mem_append.mp hab with h' | h'
      · exact Or.inl (Relation.EqvGen.rel a b h')
      · rw [List.mem_singleton] at h'
        have h1 : a = c.1 := by rw [← h']
        have h2 : b = c.2 := by rw [← h']
        refine Or.inr (Or.inl ⟨?_, ?_⟩)
        · rw [h1]
          exact Relation.EqvGen.refl _
        · rw [h2]
          exact Relation.EqvGen.refl _
    | refl a => exact Or.inl (Relation.EqvGen.refl a)
    | symm a b _ ih =>
      rcases ih with h' | ⟨h1, h2⟩ | ⟨h1, h2⟩
      · exact Or.inl (Relation.EqvGen.symm _ _ h')
      · exact Or.inr (Or.inr ⟨Relation.EqvGen.symm _ _ h2,
          Relation.EqvGen.symm _ _ h1⟩)
      · exact Or.inr (Or.inl ⟨Relation.EqvGen.symm _ _ h2,
          Relation.EqvGen.symm _ _ h1⟩)
    | trans a b d _ _ ih1 ih2 =>
      rcases ih1 with h1 | ⟨h1a, h1b⟩ | ⟨h1a, h1b⟩ <;>
        rcases ih2 with h2 | ⟨h2a, h2b⟩ | ⟨h2a, h2b⟩
      · exact Or.inl (Relation.EqvGen.trans _ _ _ h1 h2)
      · exact Or.inr (Or.inl ⟨Relation.EqvGen.trans _ _ _ h1 h2a, h2b⟩)
      · exact Or.inr (Or.inr ⟨Relation.EqvGen.trans _ _ _ h1 h2a, h2b⟩)
      · exact Or.inr (Or.inl ⟨h1a, Relation.EqvGen.trans _ _ _ h1b h2⟩)
      · exact Or.inr (Or.inl ⟨h1a, h2b⟩)
      · exact Or.inl (Relation.EqvGen.trans _ _ _ h1a h2b)
      · exact Or.inr (Or.inr ⟨h1a, Relation.EqvGen.trans _ _ _ h1b h2⟩)
      · exact Or.inl (Relation.EqvGen.trans _ _ _ h1a h2b)
      · exact Or.inr (Or.inr ⟨h1a, h2b⟩)
  · intro h
    have hc : Relation.EqvGen (fun a b => (a, b) ∈ cs ++ [c]) c.1 c.2 :=
      Relation.EqvGen.rel _ _
        (List.mem_append_right _ (by rw [List.mem_singleton]))
    rcases h with h | ⟨h1, h2⟩ | ⟨h1, h2⟩
    · exact eqvGen_mono_mem cs c u v h
    · exact Relation.EqvGen.trans _ _ _
        (Relation.EqvGen.trans _ _ _ (eqvGen_mono_mem cs c _ _ h1) hc)
        (eqvGen_mono_mem cs c _ _ h2)
    · exact Relation.EqvGen.trans _ _ _
        (Relation.EqvGen.trans _ _ _ (eqvGen_mono_mem cs c _ _ h1)
          (Relation.EqvGen.symm _ _ hc))
        (eqvGen_mono_mem cs c _ _ h2)

theorem collapse_eq_iff {α : Type} [DecidableEq α] (A B r r' : α)
    (hAB : A ≠ B) :
    ((if r = A then B else r) = (if r' = A then B else r')) ↔
    (r = r' ∨ (r = A ∧ r' = B) ∨ (r = B ∧ r' = A)) := by
  by_cases h1 : r = A <;> by_cases h2 : r' = A
  · rw [if_pos h1, if_pos h2]
    constructor
    · intro _
      exact Or.inl (h1.trans h2.symm)
    · intro _
      rfl
  · rw [if_pos h1, if_neg h2]
    constructor
    · intro h
      exact Or.inr (Or.inl ⟨h1, h.symm⟩)
    · rintro (h | ⟨ha, hb⟩ | ⟨ha, hb⟩)
      · exact absurd (h ▸ h1) h2
      · exact hb.symm
      · exact absurd (ha.symm.trans h1).symm hAB
  · rw [if_neg h1, if_pos h2]
    constructor
    · intro h
      exact Or.inr (Or.inr ⟨h, h2⟩)
    · rintro (h | ⟨ha, hb⟩ | ⟨ha, hb⟩)
      · exact absurd (h.trans h2) h1
      · exact absurd ha h1
      · exact ha
  · rw [if_neg h1, if_neg h2]
    constructor
    · intro h
      exact Or.inl h
    · rintro (h | ⟨ha, hb⟩ | ⟨ha, hb⟩)
      · exact h
      · exact absurd ha h1
      · exact absurd hb h2

theorem ufRun_classes {α : Type} [DecidableEq α] (nodes : List α) :
    ∀ (calls : List (α × α)), (∀ c ∈ calls, c.1 ∈ nodes ∧ c.2 ∈ nodes) →
    UFWf nodes (ufRun nodes calls) ∧
    (∀ u ∈ nodes, ∀ v ∈ nodes,
      (ufRootD nodes.length (ufRun nodes calls) u =
       ufRootD nodes.length (ufRun nodes calls) v ↔
       Relation.EqvGen (fun a b => (a, b) ∈ calls) u v)) := by
  intro calls
  induction calls using List.reverseRecOn with
  | nil =>
    intro _
    refine ⟨UFWf_init nodes, ?_⟩
    intro u hu v hv
    rw [ufRootD_of_root nodes.length (ufRun nodes []) u (pgetU_init nodes u),
      ufRootD_of_root nodes.length (ufRun nodes []) v (pgetU_init nodes v)]
    exact (eqvGen_empty_iff u v).symm
  | append_singleton cs c ih =>
    intro hcalls
    have hcs : ∀ c' ∈ cs, c'.1 ∈ nodes ∧ c'.2 ∈ nodes :=
      fun c' hc' => hcalls c' (List.mem_append_left _ hc')
    have hcin : c.1 ∈ nodes ∧ c.2 ∈ nodes :=
      hcalls c (List.mem_append_right _ (by rw [List.mem_singleton]))
    obtain ⟨hWf, hiff⟩ := ih hcs
    have hrun : ufRun nodes (cs ++ [c]) =
        (ufUnion nodes.length (ufRun nodes cs) c.1 c.2).2 := by
      unfold ufRun
      rw [List.foldl_append]
      rfl
    obtain ⟨hWfU, hEqCase, hNeCase⟩ :=
      ufUnion_spec nodes (ufRun nodes cs) c.1 c.2 hWf hcin.1 hcin.2
    rw [hrun]
    refine ⟨hWfU, ?_⟩
    intro u hu v hv
    by_cases hr : ufRootD nodes.length (ufRun nodes cs) c.1 =
        ufRootD nodes.length (ufRun nodes cs) c.2
    · obtain ⟨_, _, hmap⟩ := hEqCase hr
      rw [hmap u hu, hmap v hv, hiff u hu v hv, eqvGen_snoc]
      have hcc : Relation.EqvGen (fun a b => (a, b) ∈ cs) c.1 c.2 :=
        (hiff c.1 hcin.1 c.2 hcin.2).mp hr
      constructor
      · exact fun h => Or.inl h
      · rintro (h | ⟨h1, h2⟩ | ⟨h1, h2⟩)
        · exact h
        · exact Relation.EqvGen.trans _ _ _
            (Relation.EqvGen.trans _ _ _ h1 hcc) h2
        · exact Relation.EqvGen.trans _ _ _
            (Relation.EqvGen.trans _ _ _ h1 (Relation.EqvGen.symm _ _ hcc)) h2
    · obtain ⟨_, ⟨A, B, hAB, hABor, hmap⟩, _, _, _⟩ := hNeCase hr
      rw [hmap u hu, hmap v hv, collapse_eq_iff A B _ _ hAB,
        hiff u hu v hv, eqvGen_snoc]
      rcases hABor with ⟨hA, hB⟩ | ⟨hA, hB⟩
      · rw [hA, hB, hiff u hu c.1 hcin.1, hiff v hv c.2 hcin.2,
          hiff u hu c.2 hcin.2, hiff v hv c.1 hcin.1]
        constructor
        · rintro (h | ⟨h1, h2⟩ | ⟨h1, h2⟩)
          · exact Or.inl h
          · exact Or.inr (Or.inl ⟨h1, Relation.EqvGen.symm _ _ h2⟩)
          · exact Or.inr (Or.inr ⟨h1, Relation.EqvGen.symm _ _ h2⟩)
        · rintro (h | ⟨h1, h2⟩ | ⟨h1, h2⟩)
          · exact Or.inl h
          · exact Or.inr (Or.inl ⟨h1, Relation.EqvGen.symm _ _ h2⟩)
          · exact Or.inr (Or.inr ⟨h1, Relation.EqvGen.symm _ _ h2⟩)
      · rw [hA, hB, hiff u hu c.2 hcin.2, hiff v hv c.1 hcin.1,
          hiff u hu c.1 hcin.1, hiff v hv c.2 hcin.2]
        constructor
        · rintro (h | ⟨h1, h2⟩ | ⟨h1, h2⟩)
          · exact Or.inl h
          · exact Or.inr (Or.inr ⟨h1, Relation.EqvGen.symm _ _ h2⟩)
          · exact Or.inr (Or.inl ⟨h1, Relation.EqvGen.symm _ _ h2⟩)
        · rintro (h | ⟨h1, h2⟩ | ⟨h1, h2⟩)
          · exact Or.inl h
          · exact Or.inr (Or.inr ⟨h1, Relation.EqvGen.symm _ _ h2⟩)
          · exact Or.inr (Or.inl ⟨h1, Relation.EqvGen.symm _ _ h2⟩)

/-- C7 (amended): over any node set, `find` (with the fuel `|nodes|` that
covers every rank-increasing parent chain) terminates at a root and is
idempotent; after any sequence of `union` calls over in-set arguments,
`find(x) == find(y)` iff `x` and `y` were merged directly or transitively;
`union` on two already-merged arguments returns `False` and merges nothing
(every node keeps its root), though its two `find` calls may still compress
paths; otherwise it returns `True` and attaches the lower-rank root under
the higher-rank root, incrementing the surviving root's rank only on a
tie. -/
theorem unionFind_spec {α : Type} [DecidableEq α] (nodes : List α)
    (calls : List (α × α)) (x y : α)
    (hcalls : ∀ c ∈ calls, c.1 ∈ nodes ∧ c.2 ∈ nodes)
    (hx : x ∈ nodes) (hy : y ∈ nodes) :
    (∀ z ∈ nodes,
      pgetU (ufFind nodes.length (ufRun nodes calls) z).2
          (ufRoot nodes.length (ufRun nodes calls) z) =
        ufRoot nodes.length (ufRun nodes calls) z ∧
      ufRoot nodes.length (ufFind nodes.length (ufRun nodes calls) z).2
          (ufRoot nodes.length (ufRun nodes calls) z) =
        ufRoot nodes.length (ufRun nodes calls) z) ∧
    (ufRoot nodes.length (ufRun nodes calls) x =
        ufRoot nodes.length (ufRun nodes calls) y ↔
      Relation.EqvGen (fun a b => (a, b) ∈ calls) x y) ∧
    (ufRoot nodes.length (ufRun nodes calls) x =
        ufRoot nodes.length (ufRun nodes calls) y →
      (ufUnion nodes.length (ufRun nodes calls) x y).1 = false ∧
      (∀ z ∈ nodes,
        ufRoot nodes.length
            (ufUnion nodes.length (ufRun nodes calls) x y).2 z =
          ufRoot nodes.length (ufRun nodes calls) z)) ∧
    (ufRoot nodes.length (ufRun nodes calls) x ≠
        ufRoot nodes.length (ufRun nodes calls) y →
      (ufUnion nodes.length (ufRun nodes calls) x y).1 = true ∧
      (rgetU (ufRun nodes calls)
          (ufRoot nodes.length (ufRun nodes calls) x) <
         rgetU (ufRun nodes calls)
          (ufRoot nodes.length (ufRun nodes calls) y) →
        pgetU (ufUnion nodes.length (ufRun nodes calls) x y).2
            (ufRoot nodes.length (ufRun nodes calls) x) =
          ufRoot nodes.length (ufRun nodes calls) y ∧
        (ufUnion nodes.length (ufRun nodes calls) x y).2.rank =
          (ufRun nodes calls).rank) ∧
      (rgetU (ufRun nodes calls)
          (ufRoot nodes.length (ufRun nodes calls) y) <
         rgetU (ufRun nodes calls)
          (ufRoot nodes.length (ufRun nodes calls) x) →
        pgetU (ufUnion nodes.length (ufRun nodes calls) x y).2
            (ufRoot nodes.length (ufRun nodes calls) y) =
          ufRoot nodes.length (ufRun nodes calls) x ∧
        (ufUnion nodes.length (ufRun nodes calls) x y).2.rank =
          (ufRun nodes calls).rank) ∧
      (rgetU (ufRun nodes calls)
          (ufRoot nodes.length (ufRun nodes calls) x) =
         rgetU (ufRun nodes calls)
          (ufRoot nodes.length (ufRun nodes calls) y) →
        pgetU (ufUnion nodes.length (ufRun nodes calls) x y).2
            (ufRoot nodes.length (ufRun nodes calls) y) =
          ufRoot nodes.length (ufRun nodes calls) x ∧
        rgetU (ufUnion nodes.length (ufRun nodes calls) x y).2
            (ufRoot nodes.length (ufRun nodes calls) x) =
          rgetU (ufRun nodes calls)
            (ufRoot nodes.length (ufRun nodes calls) x) + 1 ∧
        (∀ z : α, z ≠ ufRoot nodes.length (ufRun nodes calls) x →
          rgetU (ufUnion nodes.length (ufRun nodes calls) x y).2 z =
            rgetU (ufRun nodes calls) z))) := by
  obtain ⟨hWf, hiff⟩ := ufRun_classes nodes calls hcalls
  have hrootz : ∀ z ∈ nodes, ufRoot nodes.length (ufRun nodes calls) z =
      ufRootD nodes.length (ufRun nodes calls) z := by
    intro z hz
    exact (ufFind_spec nodes nodes.length (ufRun nodes calls) z hWf hz
      (rankAbove_lt_length nodes (ufRun nodes calls) z hz)).1
  have hrx := hrootz x hx
  have hry := hrootz y hy
  refine ⟨?_, ?_, ?_, ?_⟩
  · intro z hz
    have hNz := rankAbove_lt_length nodes (ufRun nodes calls) z hz
    obtain ⟨ha, hb, hc, hd, _⟩ :=
      ufFind_spec nodes nodes.length (ufRun nodes calls) z hWf hz hNz
    have hrz := hrootz z hz
    have hrmem : ufRoot nodes.length (ufRun nodes calls) z ∈ nodes := by
      rw [hrz]
      exact ufRootD_mem nodes (ufRun nodes calls) hWf nodes.length z hz hNz
    have hfixs : pgetU (ufRun nodes calls)
        (ufRoot nodes.length (ufRun nodes calls) z) =
        ufRoot nodes.length (ufRun nodes calls) z := by
      rw [hrz]
      exact ufRootD_fix nodes (ufRun nodes calls) hWf nodes.length z hz hNz
    have hrootDs : ufRootD nodes.length (ufRun nodes calls)
        (ufRoot nodes.length (ufRun nodes calls) z) =
        ufRoot nodes.length (ufRun nodes calls) z :=
      ufRootD_of_root _ _ _ hfixs
    have hpost : ufRootD nodes.length
        (ufFind nodes.length (ufRun nodes calls) z).2
        (ufRoot nodes.length (ufRun nodes calls) z) =
        ufRoot nodes.length (ufRun nodes calls) z := by
      rw [hd _ hrmem]
      exact hrootDs
    constructor
    · exact (ufRootD_eq_self_iff nodes
        (ufFind nodes.length (ufRun nodes calls) z).2 hb nodes.length
        (ufRoot nodes.length (ufRun nodes calls) z) hrmem
        (rankAbove_lt_length nodes _ _ hrmem)).mp hpost
    · have := (ufFind_spec nodes nodes.length
        (ufFind nodes.length (ufRun nodes calls) z).2
        (ufRoot nodes.length (ufRun nodes calls) z) hb hrmem
        (rankAbove_lt_length nodes _ _ hrmem)).1
      rw [hpost] at this
      exact this
  · rw [hrx, hry]
    exact hiff x hx y hy
  · intro heq
    have heq' : ufRootD nodes.length (ufRun nodes calls) x =
        ufRootD nodes.length (ufRun nodes calls) y := by
      rw [← hrx, ← hry]
      exact heq
    obtain ⟨hWfU, hEq, _⟩ :=
      ufUnion_spec nodes (ufRun nodes calls) x y hWf hx hy
    obtain ⟨hfalse, hrank, hmap⟩ := hEq heq'
    refine ⟨hfalse, ?_⟩
    intro z hz
    have h1 : ufRoot nodes.length
        (ufUnion nodes.length (ufRun nodes calls) x y).2 z =
        ufRootD nodes.length
        (ufUnion nodes.length (ufRun nodes calls) x y).2 z :=
      (ufFind_spec nodes nodes.length _ z hWfU hz
        (rankAbove_lt_length nodes _ z hz)).1
    rw [h1, hmap z hz, ← hrootz z hz]
  · intro hne
    have hne' : ufRootD nodes.length (ufRun nodes calls) x ≠
        ufRootD nodes.length (ufRun nodes calls) y := by
      rw [← hrx, ← hry]
      exact hne
    obtain ⟨hWfU, _, hNe⟩ :=
      ufUnion_spec nodes (ufRun nodes calls) x y hWf hx hy
    obtain ⟨htrue, _, hxy, hyx, htie⟩ := hNe hne'
    rw [hrx, hry]
    exact ⟨htrue, hxy, hyx, htie⟩

theorem unionFind_spec_witness :
    (∀ c ∈ [((0 : Nat), (1 : Nat)), (2, 3)],
      c.1 ∈ [0, 1, 2, 3] ∧ c.2 ∈ [(0 : Nat), 1, 2, 3]) ∧
    (1 : Nat) ∈ [0, 1, 2, 3] ∧ (3 : Nat) ∈ [0, 1, 2, 3] ∧
    ((∀ z ∈ [(0 : Nat), 1, 2, 3],
      pgetU (ufFind 4 (ufRun [0, 1, 2, 3] [(0, 1), (2, 3)]) z).2
          (ufRoot 4 (ufRun [0, 1, 2, 3] [(0, 1), (2, 3)]) z) =
        ufRoot 4 (ufRun [0, 1, 2, 3] [(0, 1), (2, 3)]) z ∧
      ufRoot 4 (ufFind 4 (ufRun [0, 1, 2, 3] [(0, 1), (2, 3)]) z).2
          (ufRoot 4 (ufRun [0, 1, 2, 3] [(0, 1), (2, 3)]) z) =
        ufRoot 4 (ufRun [0, 1, 2, 3] [(0, 1), (2, 3)]) z) ∧
    (ufRoot 4 (ufRun [0, 1, 2, 3] [(0, 1), (2, 3)]) 1 =
        ufRoot 4 (ufRun [0, 1, 2, 3] [(0, 1), (2, 3)]) 3 ↔
      Relation.EqvGen (fun a b => (a, b) ∈ [((0 : Nat), (1 : Nat)), (2, 3)])
        1 3) ∧
    (ufRoot 4 (ufRun [0, 1, 2, 3] [(0, 1), (2, 3)]) 1 =
        ufRoot 4 (ufRun [0, 1, 2, 3] [(0, 1), (2, 3)]) 3 →
      (ufUnion 4 (ufRun [0, 1, 2, 3] [(0, 1), (2, 3)]) 1 3).1 = false ∧
      (∀ z ∈ [(0 : Nat), 1, 2, 3],
        ufRoot 4 (ufUnion 4 (ufRun [0, 1, 2, 3] [(0, 1), (2, 3)]) 1 3).2 z =
          ufRoot 4 (ufRun [0, 1, 2, 3] [(0, 1), (2, 3)]) z)) ∧
    (ufRoot 4 (ufRun [0, 1, 2, 3] [(0, 1), (2, 3)]) 1 ≠
        ufRoot 4 (ufRun [0, 1, 2, 3] [(0, 1), (2, 3)]) 3 →
      (ufUnion 4 (ufRun [0, 1, 2, 3] [(0, 1), (2, 3)]) 1 3).1 = true ∧
      (rgetU (ufRun [0, 1, 2, 3] [(0, 1), (2, 3)])
          (ufRoot 4 (ufRun [0, 1, 2, 3] [(0, 1), (2, 3)]) 1) <
         rgetU (ufRun [0, 1, 2, 3] [(0, 1), (2, 3)])
          (ufRoot 4 (ufRun [0, 1, 2, 3] [(0, 1), (2, 3)]) 3) →
        pgetU (ufUnion 4 (ufRun [0, 1, 2, 3] [(0, 1), (2, 3)]) 1 3).2
            (ufRoot 4 (ufRun [0, 1, 2, 3] [(0, 1), (2, 3)]) 1) =
          ufRoot 4 (ufRun [0, 1, 2, 3] [(0, 1), (2, 3)]) 3 ∧
        (ufUnion 4 (ufRun [0, 1, 2, 3] [(0, 1), (2, 3)]) 1 3).2.rank =
          (ufRun [0, 1, 2, 3] [(0, 1), (2, 3)]).rank) ∧
      (rgetU (ufRun [0, 1, 2, 3] [(0, 1), (2, 3)])
          (ufRoot 4 (ufRun [0, 1, 2, 3] [(0, 1), (2, 3)]) 3) <
         rgetU (ufRun [0, 1, 2, 3] [(0, 1), (2, 3)])
          (ufRoot 4 (ufRun [0, 1, 2, 3] [(0, 1), (2, 3)]) 1) →
        pgetU (ufUnion 4 (ufRun [0, 1, 2, 3] [(0, 1), (2, 3)]) 1 3).2
            (ufRoot 4 (ufRun [0, 1, 2, 3] [(0, 1), (2, 3)]) 3) =
          ufRoot 4 (ufRun [0, 1, 2, 3] [(0, 1), (2, 3)]) 1 ∧
        (ufUnion 4 (ufRun [0, 1, 2, 3] [(0, 1), (2, 3)]) 1 3).2.rank =
          (ufRun [0, 1, 2, 3] [(0, 1), (2, 3)]).rank) ∧
      (rgetU (ufRun [0, 1, 2, 3] [(0, 1), (2, 3)])
          (ufRoot 4 (ufRun [0, 1, 2, 3] [(0, 1), (2, 3)]) 1) =
         rgetU (ufRun [0, 1, 2, 3] [(0, 1), (2, 3)])
          (ufRoot 4 (ufRun [0, 1, 2, 3] [(0, 1), (2, 3)]) 3) →
        pgetU (ufUnion 4 (ufRun [0, 1, 2, 3] [(0, 1), (2, 3)]) 1 3).2
            (ufRoot 4 (ufRun [0, 1, 2, 3] [(0, 1), (2, 3)]) 3) =
          ufRoot 4 (ufRun [0, 1, 2, 3] [(0, 1), (2, 3)]) 1 ∧
        rgetU (ufUnion 4 (ufRun [0, 1, 2, 3] [(0, 1), (2, 3)]) 1 3).2
            (ufRoot 4 (ufRun [0, 1, 2, 3] [(0, 1), (2, 3)]) 1) =
          rgetU (ufRun [0, 1, 2, 3] [(0, 1), (2, 3)])
            (ufRoot 4 (ufRun [0, 1, 2, 3] [(0, 1), (2, 3)]) 1) + 1 ∧
        (∀ z : Nat, z ≠ ufRoot 4 (ufRun [0, 1, 2, 3] [(0, 1), (2, 3)]) 1 →
          rgetU (ufUnion 4 (ufRun [0, 1, 2, 3] [(0, 1), (2, 3)]) 1 3).2 z =
            rgetU (ufRun [0, 1, 2, 3] [(0, 1), (2, 3)]) z)))) :=
  ⟨by decide, by decide, by decide,
    unionFind_spec [0, 1, 2, 3] [(0, 1), (2, 3)] 1 3 (by decide) (by decide)
      (by decide)⟩

theorem mAdjE_symm (T : List (Int × Int × Nat)) (x y : Int)
    (h : mAdjE T x y) : mAdjE T y x := by
  obtain ⟨w, h | h⟩ := h
  · exact ⟨w, Or.inr h⟩
  · exact ⟨w, Or.inl h⟩

theorem mReach_symm (T : List (Int × Int × Nat)) (x y : Int)
    (h : mReach T x y) : mReach T y x := by
  induction h with
  | refl => exact Relation.ReflTransGen.refl
  | tail _ hadj ih =>
    exact Relation.ReflTransGen.head (mAdjE_symm _ _ _ hadj) ih

theorem mReach_mono (T₁ T₂ : List (Int × Int × Nat))
    (hsub : ∀ g ∈ T₁, g ∈ T₂) (x y : Int) (h : mReach T₁ x y) :
    mReach T₂ x y := by
  induction h with
  | refl => exact Relation.ReflTransGen.refl
  | tail _ hadj ih =>
    refine Relation.ReflTransGen.tail ih ?_
    obtain ⟨w, h' | h'⟩ := hadj
    · exact ⟨w, Or.inl (hsub _ h')⟩
    · exact ⟨w, Or.inr (hsub _ h')⟩

theorem mReach_lift (T₁ T₂ : List (Int × Int × Nat))
    (hstep : ∀ a b, mAdjE T₁ a b → mReach T₂ a b) (x y : Int)
    (h : mReach T₁ x y) : mReach T₂ x y := by
  induction h with
  | refl => exact Relation.ReflTransGen.refl
  | tail _ hadj ih => exact Relation.ReflTransGen.trans ih (hstep _ _ hadj)

theorem mReach_nil (x y : Int) (h : mReach [] x y) : x = y := by
  induction h with
  | refl => rfl
  | tail _ hadj ih =>
    obtain ⟨w, h' | h'⟩ := hadj <;> exact absurd h' (List.not_mem_nil _)

theorem mReach_erase_decomp (T : List (Int × Int × Nat))
    (g : Int × Int × Nat) (x y : Int) (h : mReach T x y) :
    mReach (T.erase g) x y ∨
    (mReach (T.erase g) x g.1 ∧ mReach (T.erase g) g.2.1 y) ∨
    (mReach (T.erase g) x g.2.1 ∧ mReach (T.erase g) g.1 y) := by
  induction h with
  | refl => exact Or.inl Relation.ReflTransGen.refl
  | tail hxb hadj ih =>
    rename_i b c
    obtain ⟨w, hw | hw⟩ := hadj
    · by_cases hg : (b, c, w) = g
      · have hb : g.1 = b := by rw [← hg]
        have hc : g.2.1 = c := by rw [← hg]
        rcases ih with h1 | ⟨h1, h2⟩ | ⟨h1, h2⟩
        · refine Or.inr (Or.inl ⟨?_, ?_⟩)
          · rw [hb]
            exact h1
          · rw [hc]
            exact Relation.ReflTransGen.refl
        · refine Or.inl ?_
          rw [← hc]
          rw [← hb] at h2
          exact h1.trans (mReach_symm _ _ _ h2)
        · refine Or.inl ?_
          rw [← hc]
          exact h1
      · have hw' : (b, c, w) ∈ T.erase g := (List.mem_erase_of_ne hg).mpr hw
        have hstep : mAdjE (T.erase g) b c := ⟨w, Or.inl hw'⟩
        rcases ih with h1 | ⟨h1, h2⟩ | ⟨h1, h2⟩
        · exact Or.inl (h1.tail hstep)
        · exact Or.inr (Or.inl ⟨h1, h2.tail hstep⟩)
        · exact Or.inr (Or.inr ⟨h1, h2.tail hstep⟩)
    · by_cases hg : (c, b, w) = g
      · have hb : g.2.1 = b := by rw [← hg]
        have hc : g.1 = c := by rw [← hg]
        rcases ih with h1 | ⟨h1, h2⟩ | ⟨h1, h2⟩
        · refine Or.inr (Or.inr ⟨?_, ?_⟩)
          · rw [hb]
            exact h1
          · rw [hc]
            exact Relation.ReflTransGen.refl
        · refine Or.inl ?_
          rw [← hc]
          exact h1
        · refine Or.inl ?_
          rw [← hc]
          rw [← hb] at h2
          exact h1.trans (mReach_symm _ _ _ h2)
      · have hw' : (c, b, w) ∈ T.erase g := (List.mem_erase_of_ne hg).mpr hw
        have hstep : mAdjE (T.erase g) b c := ⟨w, Or.inr hw'⟩
        rcases ih with h1 | ⟨h1, h2⟩ | ⟨h1, h2⟩
        · exact Or.inl (h1.tail hstep)
        · exact Or.inr (Or.inl ⟨h1, h2.tail hstep⟩)
        · exact Or.inr (Or.inr ⟨h1, h2.tail hstep⟩)

theorem cross_edge :
    ∀ (n : Nat) (T : List (Int × Int × Nat)), T.length ≤ n →
    ∀ (K : Int → Prop) (x y : Int), mReach T x y → K x → ¬ K y →
    ∃ g ∈ T, ∃ a b : Int,
      ((g.1 = a ∧ g.2.1 = b) ∨ (g.1 = b ∧ g.2.1 = a)) ∧
      K a ∧ ¬ K b ∧ mReach (T.erase g) x a ∧ mReach (T.erase g) b y := by
  intro n
  induction n with
  | zero =>
    intro T hT K x y hreach hx hy
    have hT0 : T = [] := List.eq_nil_of_length_eq_zero (by omega)
    subst hT0
    exact absurd ((mReach_nil x y hreach) ▸ hx) hy
  | succ n ihn =>
    intro T hT K x y hreach hx hy
    have inner : ∀ (a : Int), mReach T a y → K a →
        ∃ g ∈ T, ∃ aa bb : Int,
        ((g.1 = aa ∧ g.2.1 = bb) ∨ (g.1 = bb ∧ g.2.1 = aa)) ∧
        K aa ∧ ¬ K bb ∧ mReach (T.erase g) a aa ∧
        mReach (T.erase g) bb y := by
      intro a hr
      induction hr using Relation.ReflTransGen.head_induction_on with
      | refl => intro ha; exact absurd ha hy
      | head hstep hrest ih2 =>
        rename_i a b
        intro ha
        by_cases hKb : K b
        · obtain ⟨g, hgT, aa, bb, horient, hKaa, hKbb, h1, h2⟩ := ih2 hKb
          have hstep' : mAdjE (T.erase g) a b := by
            obtain ⟨w, hw | hw⟩ := hstep
            · refine ⟨w, Or.inl ((List.mem_erase_of_ne ?_).mpr hw)⟩
              intro he
              rcases horient with ⟨he1, he2⟩ | ⟨he1, he2⟩
              · rw [← he] at he1 he2
                exact hKbb (he2 ▸ hKb)
              · rw [← he] at he1 he2
                exact hKbb (he1 ▸ ha)
            · refine ⟨w, Or.inr ((List.mem_erase_of_ne ?_).mpr hw)⟩
              intro he
              rcases horient with ⟨he1, he2⟩ | ⟨he1, he2⟩
              · rw [← he] at he1 he2
                exact hKbb (he2 ▸ ha)
              · rw [← he] at he1 he2
                exact hKbb (he1 ▸ hKb)
          exact ⟨g, hgT, aa, bb, horient, hKaa, hKbb,
            Relation.ReflTransGen.head hstep' h1, h2⟩
        · obtain ⟨w, hw | hw⟩ := hstep
          · rcases mReach_erase_decomp T (a, b, w) b y hrest with
              h1 | ⟨h1, h2⟩ | ⟨h1, h2⟩
            · exact ⟨(a, b, w), hw, a, b, Or.inl ⟨rfl, rfl⟩, ha, hKb,
                Relation.ReflTransGen.refl, h1⟩
            · exact ⟨(a, b, w), hw, a, b, Or.inl ⟨rfl, rfl⟩, ha, hKb,
                Relation.ReflTransGen.refl, h2⟩
            · -- h2 : mReach (T.erase (a,b,w)) a y; recurse on the smaller list
              have hlen : (T.erase (a, b, w)).length ≤ n := by
                rw [List.length_erase_of_mem hw]
                omega
              obtain ⟨g', hg', aa, bb, horient, hKaa, hKbb, hr1, hr2⟩ :=
                ihn (T.erase (a, b, w)) hlen K a y h2 ha hy
              refine ⟨g', List.mem_of_mem_erase hg', aa, bb, horient, hKaa,
                hKbb, ?_, ?_⟩
              · refine mReach_mono _ _ ?_ _ _ hr1
                intro e he
                rw [List.erase_comm] at he
                exact List.mem_of_mem_erase he
              · refine mReach_mono _ _ ?_ _ _ hr2
                intro e he
                rw [List.erase_comm] at he
                exact List.mem_of_mem_erase he
          · rcases mReach_erase_decomp T (b, a, w) b y hrest with
              h1 | ⟨h1, h2⟩ | ⟨h1, h2⟩
            · exact ⟨(b, a, w), hw, a, b, Or.inr ⟨rfl, rfl⟩, ha, hKb,
                Relation.ReflTransGen.refl, h1⟩
            · -- h2 : mReach (T.erase (b,a,w)) a y; recurse
              have hlen : (T.erase (b, a, w)).length ≤ n := by
                rw [List.length_erase_of_mem hw]
                omega
              obtain ⟨g', hg', aa, bb, horient, hKaa, hKbb, hr1, hr2⟩ :=
                ihn (T.erase (b, a, w)) hlen K a y h2 ha hy
              refine ⟨g', List.mem_of_mem_erase hg', aa, bb, horient, hKaa,
                hKbb, ?_, ?_⟩
              · refine mReach_mono _ _ ?_ _ _ hr1
                intro e he
                rw [List.erase_comm] at he
                exact List.mem_of_mem_erase he
              · refine mReach_mono _ _ ?_ _ _ hr2
                intro e he
                rw [List.erase_comm] at he
                exact List.mem_of_mem_erase he
            · exact ⟨(b, a, w), hw, a, b, Or.inr ⟨rfl, rfl⟩, ha, hKb,
                Relation.ReflTransGen.refl, h2⟩
    exact inner x hreach hx

theorem wsum_append (A B : List (Int × Int × Nat)) :
    wsum (A ++ B) = wsum A + wsum B := by
  unfold wsum
  rw [List.map_append, List.sum_append]

theorem wsum_perm (A B : List (Int × Int × Nat)) (h : A.Perm B) :
    wsum A = wsum B :=
  List.Perm.sum_eq (List.Perm.map _ h)

theorem wsum_erase (g : Int × Int × Nat) :
    ∀ (M : List (Int × Int × Nat)), g ∈ M →
    wsum M = g.2.2 + wsum (M.erase g) := by
  intro M
  induction M with
  | nil => intro h; exact absurd h (List.not_mem_nil _)
  | cons e t ih =>
    intro h
    by_cases hg : e = g
    · subst hg
      rw [List.erase_cons_head]
      unfold wsum
      rw [List.map_cons, List.sum_cons]
    · have hmem : g ∈ t := by
        rcases List.mem_cons.mp h with h' | h'
        · exact absurd h'.symm hg
        · exact h'
      rw [List.erase_cons_tail (by simp [hg])]
      have hih := ih hmem
      unfold wsum at hih ⊢
      rw [List.map_cons, List.sum_cons, List.map_cons, List.sum_cons]
      omega

theorem exchange_step (nodes : List Int) (E : List (Int × Int × Nat))
    (r : Int) (F M : List (Int × Int × Nat)) (u v : Int) (w : Nat)
    (hFM : ∀ g ∈ F, g ∈ M)
    (hMsub : ∀ g ∈ M, g ∈ E) (hMspan : ∀ z ∈ nodes, mReach M r z)
    (hMnodup : M.Nodup)
    (hMmin : ∀ S, (∀ g ∈ S, g ∈ E) → (∀ z ∈ nodes, mReach S r z) →
      wsum M ≤ wsum S)
    (he : (u, v, w) ∈ E) (hnotF : ¬ mReach F u v)
    (hu : u ∈ nodes) (hv : v ∈ nodes)
    (hcut : ∀ g ∈ E, ∀ a b : Int,
      ((g.1 = a ∧ g.2.1 = b) ∨ (g.1 = b ∧ g.2.1 = a)) →
      mReach F u a → ¬ mReach F u b → w ≤ g.2.2) :
    ∃ M', (∀ g ∈ F, g ∈ M') ∧ (u, v, w) ∈ M' ∧ (∀ g ∈ M', g ∈ E) ∧
      (∀ z ∈ nodes, mReach M' r z) ∧ M'.Nodup ∧ wsum M' = wsum M := by
  by_cases heM : (u, v, w) ∈ M
  · exact ⟨M, hFM, heM, hMsub, hMspan, hMnodup, rfl⟩
  · have hrUV : mReach M u v :=
      (mReach_symm _ _ _ (hMspan u hu)).trans (hMspan v hv)
    obtain ⟨g, hgM, a, b, horient, hKa, hKb, hua, hbv⟩ :=
      cross_edge M.length M (le_refl _) (fun z => mReach F u z) u v hrUV
        Relation.ReflTransGen.refl hnotF
    have hgE : g ∈ E := hMsub g hgM
    have hwle : w ≤ g.2.2 := hcut g hgE a b horient hKa hKb
    have hgF : g ∉ F := by
      intro hgFmem
      apply hKb
      refine hKa.tail ?_
      rcases horient with ⟨h1, h2⟩ | ⟨h1, h2⟩
      · exact ⟨g.2.2, Or.inl (by rw [← h1, ← h2]; exact hgFmem)⟩
      · exact ⟨g.2.2, Or.inr (by rw [← h1, ← h2]; exact hgFmem)⟩
    have hFerase : ∀ g' ∈ F, g' ∈ M.erase g := by
      intro g' hg'
      exact (List.mem_erase_of_ne (fun h => hgF (by rw [← h]; exact hg'))).mpr
        (hFM g' hg')
    have hab : mReach (M.erase g ++ [(u, v, w)]) a b := by
      have h1 : mReach (M.erase g ++ [(u, v, w)]) a u :=
        mReach_mono F _ (fun g' hg' => List.mem_append_left _ (hFerase g' hg'))
          _ _ (mReach_symm _ _ _ hKa)
      have h2 : mAdjE (M.erase g ++ [(u, v, w)]) u v :=
        ⟨w, Or.inl (List.mem_append_right _ (by rw [List.mem_singleton]))⟩
      have h3 : mReach (M.erase g ++ [(u, v, w)]) v b :=
        mReach_mono _ _ (fun g' hg' => List.mem_append_left _ hg') _ _
          (mReach_symm _ _ _ hbv)
      exact (h1.tail h2).trans h3
    have hlift : ∀ x y, mReach M x y →
        mReach (M.erase g ++ [(u, v, w)]) x y := by
      intro x y
      apply mReach_lift
      intro p q hpq
      obtain ⟨w', hw' | hw'⟩ := hpq
      · by_cases hg' : (p, q, w') = g
        · rcases horient with ⟨h1, h2⟩ | ⟨h1, h2⟩
          · have hp : p = a := by rw [← h1, ← hg']
            have hq : q = b := by rw [← h2, ← hg']
            rw [hp, hq]
            exact hab
          · have hp : p = b := by rw [← h1, ← hg']
            have hq : q = a := by rw [← h2, ← hg']
            rw [hp, hq]
            exact mReach_symm _ _ _ hab
        · exact Relation.ReflTransGen.single ⟨w', Or.inl
            (List.mem_append_left _ ((List.mem_erase_of_ne hg').mpr hw'))⟩
      · by_cases hg' : (q, p, w') = g
        · rcases horient with ⟨h1, h2⟩ | ⟨h1, h2⟩
          · have hq : q = a := by rw [← h1, ← hg']
            have hp : p = b := by rw [← h2, ← hg']
            rw [hp, hq]
            exact mReach_symm _ _ _ hab
          · have hq : q = b := by rw [← h1, ← hg']
            have hp : p = a := by rw [← h2, ← hg']
            rw [hp, hq]
            exact hab
        · exact Relation.ReflTransGen.single ⟨w', Or.inr
            (List.mem_append_left _ ((List.mem_erase_of_ne hg').mpr hw'))⟩
    have hspan' : ∀ z ∈ nodes, mReach (M.erase g ++ [(u, v, w)]) r z :=
      fun z hz => hlift r z (hMspan z hz)
    have hsub' : ∀ g' ∈ M.erase g ++ [(u, v, w)], g' ∈ E := by
      intro g' hg'
      rcases List.mem_append.mp hg' with h' | h'
      · exact hMsub g' (List.mem_of_mem_erase h')
      · rw [List.mem_singleton] at h'
        rw [h']
        exact he
    have hnodup' : (M.erase g ++ [(u, v, w)]).Nodup := by
      refine List.Nodup.append (hMnodup.erase g) (List.nodup_singleton _) ?_
      intro e' he1 he2
      rw [List.mem_singleton] at he2
      exact heM (he2 ▸ List.mem_of_mem_erase he1)
    have hsum : wsum (M.erase g ++ [(u, v, w)]) = wsum (M.erase g) + w := by
      rw [wsum_append]
      rfl
    have hsumM : wsum M = g.2.2 + wsum (M.erase g) := wsum_erase g M hgM
    have hge : wsum M ≤ wsum (M.erase g ++ [(u, v, w)]) :=
      hMmin _ hsub' hspan'
    have hle : wsum (M.erase g ++ [(u, v, w)]) ≤ wsum M := by
      rw [hsum, hsumM]
      omega
    exact ⟨M.erase g ++ [(u, v, w)],
      fun g' hg' => List.mem_append_left _ (hFerase g' hg'),
      List.mem_append_right _ (by rw [List.mem_singleton]),
      hsub', hspan', hnodup', le_antisymm hle hge⟩

theorem mReach_iff_eqvGen (F : List (Int × Int × Nat)) (x y : Int) :
    mReach F x y ↔
    Relation.EqvGen (fun a b => (a, b) ∈ F.map (fun e => (e.1, e.2.1))) x y := by
  constructor
  · intro h
    induction h with
    | refl => exact Relation.EqvGen.refl _
    | tail _ hadj ih =>
      refine Relation.EqvGen.trans _ _ _ ih ?_
      obtain ⟨w, hw | hw⟩ := hadj
      · exact Relation.EqvGen.rel _ _ (List.mem_map.mpr ⟨_, hw, rfl⟩)
      · exact Relation.EqvGen.symm _ _
          (Relation.EqvGen.rel _ _ (List.mem_map.mpr ⟨_, hw, rfl⟩))
  · intro h
    induction h with
    | rel a b hab =>
      obtain ⟨e, he, heq⟩ := List.mem_map.mp hab
      have h1 : e.1 = a := congrArg Prod.fst heq
      have h2 : e.2.1 = b := congrArg Prod.snd heq
      refine Relation.ReflTransGen.single ⟨e.2.2, Or.inl ?_⟩
      rw [← h1, ← h2]
      exact he
    | refl a => exact Relation.ReflTransGen.refl
    | symm a b _ ih => exact mReach_symm _ _ _ ih
    | trans a b c _ _ ih1 ih2 => exact ih1.trans ih2

theorem sublist_sum_le (l₁ l₂ : List Nat) (h : List.Sublist l₁ l₂) :
    l₁.sum ≤ l₂.sum := by
  induction h with
  | slnil => exact le_refl _
  | cons a _ ih =>
    rw [List.sum_cons]
    omega
  | cons₂ a _ ih =>
    rw [List.sum_cons, List.sum_cons]
    omega

theorem wsum_le_of_subset (T M : List (Int × Int × Nat)) (hnd : T.Nodup)
    (hsub : ∀ g ∈ T, g ∈ M) : wsum T ≤ wsum M := by
  obtain ⟨l, hperm, hsl⟩ := hnd.subperm hsub
  calc wsum T = wsum l := (wsum_perm l T hperm).symm
    _ ≤ wsum M := sublist_sum_le _ _ (List.Sublist.map _ hsl)

theorem min_span_exists (nodes : List Int) (E : List (Int × Int × Nat))
    (r : Int) (hconn : ∀ z ∈ nodes, mReach E r z) :
    ∃ M, (∀ g ∈ M, g ∈ E) ∧ (∀ z ∈ nodes, mReach M r z) ∧ M.Nodup ∧
      (∀ S, (∀ g ∈ S, g ∈ E) → (∀ z ∈ nodes, mReach S r z) →
        wsum M ≤ wsum S) := by
  have hdedup : ∀ z ∈ nodes, mReach E.dedup r z := by
    intro z hz
    refine mReach_lift E _ ?_ _ _ (hconn z hz)
    intro a b hab
    obtain ⟨w, hw | hw⟩ := hab
    · exact Relation.ReflTransGen.single ⟨w, Or.inl (List.mem_dedup.mpr hw)⟩
    · exact Relation.ReflTransGen.single ⟨w, Or.inr (List.mem_dedup.mpr hw)⟩
  set W : Set Nat := {n | ∃ S, (∀ g ∈ S, g ∈ E) ∧
    (∀ z ∈ nodes, mReach S r z) ∧ S.Nodup ∧ wsum S = n} with hW
  have hne : W.Nonempty :=
    ⟨wsum E.dedup, E.dedup, fun g hg => List.mem_dedup.mp hg, hdedup,
      List.nodup_dedup E, rfl⟩
  obtain ⟨M, hM1, hM2, hM3, hM4⟩ := Nat.sInf_mem hne
  refine ⟨M, hM1, hM2, hM3, ?_⟩
  intro S hS1 hS2
  have hSd : sInf W ≤ wsum S.dedup := by
    apply Nat.sInf_le
    refine ⟨S.dedup, fun g hg => hS1 g (List.mem_dedup.mp hg), ?_,
      List.nodup_dedup S, rfl⟩
    intro z hz
    refine mReach_lift S _ ?_ _ _ (hS2 z hz)
    intro a b hab
    obtain ⟨w, hw | hw⟩ := hab
    · exact Relation.ReflTransGen.single ⟨w, Or.inl (List.mem_dedup.mpr hw)⟩
    · exact Relation.ReflTransGen.single ⟨w, Or.inr (List.mem_dedup.mpr hw)⟩
  have hdd : wsum S.dedup ≤ wsum S :=
    sublist_sum_le _ _ (List.Sublist.map _ (List.dedup_sublist S))
  rw [hM4]
  omega

theorem lastMStep_cons (s : MStep) (l : List MStep) (h : l ≠ []) :
    lastMStep (s :: l) = lastMStep l := by
  unfold lastMStep
  rw [List.getLastD_cons]
  cases l with
  | nil => exact absurd rfl h
  | cons a t =>
    rw [List.getLastD_cons, List.getLastD_cons]

theorem mReach_snoc_decomp (T : List (Int × Int × Nat))
    (e : Int × Int × Nat) (x y : Int) :
    mReach (T ++ [e]) x y ↔
    (mReach T x y ∨ (mReach T x e.1 ∧ mReach T e.2.1 y) ∨
     (mReach T x e.2.1 ∧ mReach T e.1 y)) := by
  constructor
  · intro h
    induction h with
    | refl => exact Or.inl Relation.ReflTransGen.refl
    | tail hxb hadj ih =>
      rename_i b c
      obtain ⟨w, hw | hw⟩ := hadj
      · rcases List.mem_append.mp hw with hw' | hw'
        · have hstep : mAdjE T b c := ⟨w, Or.inl hw'⟩
          rcases ih with h1 | ⟨h1, h2⟩ | ⟨h1, h2⟩
          · exact Or.inl (h1.tail hstep)
          · exact Or.inr (Or.inl ⟨h1, h2.tail hstep⟩)
          · exact Or.inr (Or.inr ⟨h1, h2.tail hstep⟩)
        · rw [List.mem_singleton] at hw'
          have hb : e.1 = b := congrArg Prod.fst hw'.symm
          have hc : e.2.1 = c := congrArg (fun t => t.2.1) hw'.symm
          rcases ih with h1 | ⟨h1, h2⟩ | ⟨h1, h2⟩
          · refine Or.inr (Or.inl ⟨?_, ?_⟩)
            · rw [hb]
              exact h1
            · rw [hc]
              exact Relation.ReflTransGen.refl
          · refine Or.inl ?_
            rw [← hc]
            rw [← hb] at h2
            exact h1.trans (mReach_symm _ _ _ h2)
          · refine Or.inl ?_
            rw [← hc]
            exact h1
      · rcases List.mem_append.mp hw with hw' | hw'
        · have hstep : mAdjE T b c := ⟨w, Or.inr hw'⟩
          rcases ih with h1 | ⟨h1, h2⟩ | ⟨h1, h2⟩
          · exact Or.inl (h1.tail hstep)
          · exact Or.inr (Or.inl ⟨h1, h2.tail hstep⟩)
          · exact Or.inr (Or.inr ⟨h1, h2.tail hstep⟩)
        · rw [List.mem_singleton] at hw'
          have hb : e.2.1 = b := congrArg (fun t => t.2.1) hw'.symm
          have hc : e.1 = c := congrArg Prod.fst hw'.symm
          rcases ih with h1 | ⟨h1, h2⟩ | ⟨h1, h2⟩
          · refine Or.inr (Or.inr ⟨?_, ?_⟩)
            · rw [hb]
              exact h1
            · rw [hc]
              exact Relation.ReflTransGen.refl
          · refine Or.inl ?_
            rw [← hc]
            exact h1
          · refine Or.inl ?_
            rw [← hc]
            rw [← hb] at h2
            exact h1.trans (mReach_symm _ _ _ h2)
  · intro h
    have hT : ∀ a b, mReach T a b → mReach (T ++ [e]) a b :=
      fun a b hab => mReach_mono T _ (fun g hg => List.mem_append_left _ hg)
        a b hab
    have hee : mAdjE (T ++ [e]) e.1 e.2.1 :=
      ⟨e.2.2, Or.inl (List.mem_append_right _ (by rw [List.mem_singleton]))⟩
    rcases h with h1 | ⟨h1, h2⟩ | ⟨h1, h2⟩
    · exact hT _ _ h1
    · exact ((hT _ _ h1).tail hee).trans (hT _ _ h2)
    · exact ((hT _ _ h1).tail (mAdjE_symm _ _ _ hee)).trans (hT _ _ h2)

theorem filter_length_drop (p q : Int → Bool) (a : Int) :
    ∀ (l : List Int), l.Nodup → a ∈ l → p a = true →
    (∀ z ∈ l, q z = (p z && !(z == a))) →
    (l.filter q).length + 1 = (l.filter p).length := by
  intro l
  induction l with
  | nil => intro _ ha; exact absurd ha (List.not_mem_nil _)
  | cons e t ih =>
    intro hnd ha hpa hq
    by_cases hea : e = a
    · subst hea
      rw [List.filter_cons_of_pos hpa]
      have hqe : q e = false := by
        rw [hq e (List.mem_cons_self _ _), hpa]
        simp
      rw [List.filter_cons_of_neg (by rw [hqe]; simp)]
      have hfe : t.filter q = t.filter p := by
        apply List.filter_congr
        intro z hz
        have hz' : z ≠ e := by
          intro hze
          subst hze
          exact (List.nodup_cons.mp hnd).1 hz
        rw [hq z (List.mem_cons_of_mem _ hz)]
        have : (z == e) = false := by
          rw [beq_eq_false_iff_ne]
          exact hz'
        rw [this]
        simp
      rw [hfe]
      simp
    · have ha' : a ∈ t := by
        rcases List.mem_cons.mp ha with h' | h'
        · exact absurd h'.symm hea
        · exact h'
      have hqe : q e = p e := by
        rw [hq e (List.mem_cons_self _ _)]
        have : (e == a) = false := by
          rw [beq_eq_false_iff_ne]
          exact hea
        rw [this]
        simp
      have hih := ih (List.nodup_cons.mp hnd).2 ha' hpa
        (fun z hz => hq z (List.mem_cons_of_mem _ hz))
      by_cases hpe : p e = true
      · rw [List.filter_cons_of_pos hpe,
          List.filter_cons_of_pos (by rw [hqe]; exact hpe)]
        simp only [List.length_cons]
        omega
      · rw [List.filter_cons_of_neg hpe,
          List.filter_cons_of_neg (by rw [hqe]; exact hpe)]
        exact hih

theorem filter_one_all_eq (l : List Int) (p : Int → Bool)
    (h : (l.filter p).length = 1) (x y : Int) (hx : x ∈ l) (hy : y ∈ l)
    (hpx : p x = true) (hpy : p y = true) : x = y := by
  obtain ⟨a, hae⟩ := List.length_eq_one.mp h
  have hx' : x ∈ l.filter p := List.mem_filter.mpr ⟨hx, hpx⟩
  have hy' : y ∈ l.filter p := List.mem_filter.mpr ⟨hy, hpy⟩
  rw [hae, List.mem_singleton] at hx' hy'
  rw [hx', hy']

theorem kruskalLoop_ne_nil (n fuel : Nat) :
    ∀ (R : List (Int × Int × Nat)) (uf : UF Int) (mst : List (Int × Int))
    (tw : Nat), kruskalLoop n fuel R uf mst tw ≠ [] := by
  intro R uf mst tw
  match R with
  | [] => simp [kruskalLoop]
  | (u, v, w) :: rest =>
    simp only [kruskalLoop]
    split <;> split <;> simp

theorem kruskalLoop_spec (nodes : List Int) (E : List (Int × Int × Nat))
    (r : Int) (hnd : nodes.Nodup) (hr : r ∈ nodes)
    (hE : ∀ g ∈ E, g.1 ∈ nodes ∧ g.2.1 ∈ nodes)
    (hconn : ∀ z ∈ nodes, mReach E r z) :
    ∀ (R : List (Int × Int × Nat)) (uf : UF Int) (mst : List (Int × Int))
      (tw : Nat) (F M : List (Int × Int × Nat)),
    (∀ g ∈ R, g ∈ E) →
    List.Pairwise (fun a b => a.2.2 ≤ b.2.2) R →
    (∀ g ∈ E, g ∈ R ∨ mReach F g.1 g.2.1) →
    (∀ g ∈ F, g ∈ E) → F.Nodup → wsum F = tw →
    mst.length = F.length →
    UFWf nodes uf →
    (∀ a ∈ nodes, ∀ b ∈ nodes,
      (ufRootD nodes.length uf a = ufRootD nodes.length uf b ↔
        mReach F a b)) →
    (nodes.filter (fun z => decide (ufRootD nodes.length uf z = z))).length
      + mst.length = nodes.length →
    (∀ g ∈ F, g ∈ M) → (∀ g ∈ M, g ∈ E) → (∀ z ∈ nodes, mReach M r z) →
    M.Nodup →
    (∀ S, (∀ g ∈ S, g ∈ E) → (∀ z ∈ nodes, mReach S r z) →
      wsum M ≤ wsum S) →
    ∃ Ffin Mfin,
      (∀ g ∈ Ffin, g ∈ E) ∧ Ffin.Nodup ∧ (∀ z ∈ nodes, mReach Ffin r z) ∧
      (∀ g ∈ Ffin, g ∈ Mfin) ∧ (∀ g ∈ Mfin, g ∈ E) ∧
      (∀ z ∈ nodes, mReach Mfin r z) ∧ Mfin.Nodup ∧
      (∀ S, (∀ g ∈ S, g ∈ E) → (∀ z ∈ nodes, mReach S r z) →
        wsum Mfin ≤ wsum S) ∧
      (lastMStep
        (kruskalLoop nodes.length nodes.length R uf mst tw)).totalWeight
        = wsum Ffin := by
  intro R
  induction R with
  | nil =>
    intro uf mst tw F M hRE hsort hproc hFE hFnd hFw hlen hWf hiff hcount
      hFM hME hMspan hMnd hMmin
    refine ⟨F, M, hFE, hFnd, ?_, hFM, hME, hMspan, hMnd, hMmin, ?_⟩
    · intro z hz
      refine mReach_lift E F ?_ _ _ (hconn z hz)
      intro a b hab
      obtain ⟨w, hw | hw⟩ := hab
      · rcases hproc _ hw with h' | h'
        · exact absurd h' (List.not_mem_nil _)
        · exact h'
      · rcases hproc _ hw with h' | h'
        · exact absurd h' (List.not_mem_nil _)
        · exact mReach_symm _ _ _ h'
    · exact hFw.symm
  | cons e R' ih =>
    obtain ⟨u, v, w⟩ := e
    intro uf mst tw F M hRE hsort hproc hFE hFnd hFw hlen hWf hiff hcount
      hFM hME hMspan hMnd hMmin
    have heE : (u, v, w) ∈ E := hRE _ (List.mem_cons_self _ _)
    have hu : u ∈ nodes := (hE _ heE).1
    have hv : v ∈ nodes := (hE _ heE).2
    obtain ⟨r1, s1, hp1⟩ : ∃ a s', ufFind nodes.length uf u = (a, s') :=
      ⟨_, _, rfl⟩
    have hs1 := ufFind_spec nodes nodes.length uf u hWf hu
      (rankAbove_lt_length nodes uf u hu)
    rw [hp1] at hs1
    obtain ⟨ha1, hb1, hc1, hd1, _⟩ := hs1
    have har1 : r1 = ufRootD nodes.length uf u := ha1
    have hWf1 : UFWf nodes s1 := hb1
    have hrk1 : s1.rank = uf.rank := hc1
    have hd1' : ∀ z ∈ nodes, ufRootD nodes.length s1 z =
        ufRootD nodes.length uf z := hd1
    obtain ⟨r2, s2, hp2⟩ : ∃ a s', ufFind nodes.length s1 v = (a, s') :=
      ⟨_, _, rfl⟩
    have hs2 := ufFind_spec nodes nodes.length s1 v hWf1 hv
      (by rw [rankAbove_congr nodes uf s1 hrk1]
          exact rankAbove_lt_length nodes uf v hv)
    rw [hp2] at hs2
    obtain ⟨ha2, hb2, hc2, hd2, _⟩ := hs2
    have hWf2 : UFWf nodes s2 := hb2
    have hr2' : r2 = ufRootD nodes.length uf v := by
      have h' : r2 = ufRootD nodes.length s1 v := ha2
      rw [h', hd1' v hv]
    have hrk2 : s2.rank = uf.rank := by
      have h' : s2.rank = s1.rank := hc2
      rw [h', hrk1]
    have hpres : ∀ z ∈ nodes, ufRootD nodes.length s2 z =
        ufRootD nodes.length uf z := by
      intro z hz
      have h' : ufRootD nodes.length s2 z = ufRootD nodes.length s1 z :=
        hd2 z hz
      rw [h', hd1' z hz]
    have hiff2 : ∀ a ∈ nodes, ∀ b ∈ nodes,
        (ufRootD nodes.length s2 a = ufRootD nodes.length s2 b ↔
          mReach F a b) := by
      intro a hA b hB
      rw [hpres a hA, hpres b hB]
      exact hiff a hA b hB
    have hcount2 : (nodes.filter
        (fun z => decide (ufRootD nodes.length s2 z = z))).length
        + mst.length = nodes.length := by
      rw [List.filter_congr (fun z hz => by rw [hpres z hz])]
      exact hcount
    have hru2 : ufRootD nodes.length s2 u = r1 := by
      rw [hpres u hu, ← har1]
    have hrv2 : ufRootD nodes.length s2 v = r2 := by
      rw [hpres v hv, ← hr2']
    simp only [kruskalLoop, hp1, hp2]
    by_cases hne : r1 ≠ r2
    · rw [if_pos hne]
      have hnotF : ¬ mReach F u v := by
        intro hres
        exact hne (by rw [har1, hr2']; exact (hiff u hu v hv).mpr hres)
      have hcut : ∀ g ∈ E, ∀ a b : Int,
          ((g.1 = a ∧ g.2.1 = b) ∨ (g.1 = b ∧ g.2.1 = a)) →
          mReach F u a → ¬ mReach F u b → w ≤ g.2.2 := by
        intro g hgE a b horient hKa hKb
        rcases hproc g hgE with hgR | hgReach
        · rcases List.mem_cons.mp hgR with hge | hgR'
          · rw [hge]
          · exact (List.pairwise_cons.mp hsort).1 g hgR'
        · exfalso
          apply hKb
          rcases horient with ⟨h1, h2⟩ | ⟨h1, h2⟩
          · refine hKa.trans ?_
            rw [← h1, ← h2]
            exact hgReach
          · refine hKa.trans ?_
            rw [← h1, ← h2]
            exact mReach_symm _ _ _ hgReach
      obtain ⟨M', hFM', heM', hM'E, hM'span, hM'nd, hM'w⟩ :=
        exchange_step nodes E r F M u v w hFM hME hMspan hMnd hMmin heE
          hnotF hu hv hcut
      have hM'min : ∀ S, (∀ g ∈ S, g ∈ E) → (∀ z ∈ nodes, mReach S r z) →
          wsum M' ≤ wsum S := by
        intro S h1 h2
        rw [hM'w]
        exact hMmin S h1 h2
      have hFM'' : ∀ g ∈ F ++ [(u, v, w)], g ∈ M' := by
        intro g hg
        rcases List.mem_append.mp hg with h' | h'
        · exact hFM' g h'
        · rw [List.mem_singleton] at h'
          rw [h']
          exact heM'
      have hFE' : ∀ g ∈ F ++ [(u, v, w)], g ∈ E := by
        intro g hg
        rcases List.mem_append.mp hg with h' | h'
        · exact hFE g h'
        · rw [List.mem_singleton] at h'
          rw [h']
          exact heE
      have heF : (u, v, w) ∉ F := by
        intro hmem
        exact hnotF (Relation.ReflTransGen.single ⟨w, Or.inl hmem⟩)
      have hFnd' : (F ++ [(u, v, w)]).Nodup := by
        refine List.Nodup.append hFnd (List.nodup_singleton _) ?_
        intro g hg1 hg2
        rw [List.mem_singleton] at hg2
        exact heF (hg2 ▸ hg1)
      have hFw' : wsum (F ++ [(u, v, w)]) = tw + w := by
        rw [wsum_append, hFw]
        rfl
      obtain ⟨hWfU, _, hNe⟩ := ufUnion_spec nodes s2 u v hWf2 hu hv
      obtain ⟨_, ⟨A, B, hAB, hABor, hmap⟩, _, _, _⟩ :=
        hNe (by rw [hru2, hrv2]; exact hne)
      have hAmem : A ∈ nodes := by
        rcases hABor with ⟨hA1, _⟩ | ⟨hA1, _⟩
        · rw [hA1, hpres u hu]
          exact ufRootD_mem nodes uf hWf nodes.length u hu
            (rankAbove_lt_length nodes uf u hu)
        · rw [hA1, hpres v hv]
          exact ufRootD_mem nodes uf hWf nodes.length v hv
            (rankAbove_lt_length nodes uf v hv)
      have hAroot : ufRootD nodes.length s2 A = A := by
        rcases hABor with ⟨hA1, _⟩ | ⟨hA1, _⟩
        · rw [hA1]
          exact ufRootD_of_root _ _ _ (ufRootD_fix nodes s2 hWf2 nodes.length
            u hu (rankAbove_lt_length nodes s2 u hu))
        · rw [hA1]
          exact ufRootD_of_root _ _ _ (ufRootD_fix nodes s2 hWf2 nodes.length
            v hv (rankAbove_lt_length nodes s2 v hv))
      have hBroot : ufRootD nodes.length s2 B = B := by
        rcases hABor with ⟨_, hB1⟩ | ⟨_, hB1⟩
        · rw [hB1]
          exact ufRootD_of_root _ _ _ (ufRootD_fix nodes s2 hWf2 nodes.length
            v hv (rankAbove_lt_length nodes s2 v hv))
        · rw [hB1]
          exact ufRootD_of_root _ _ _ (ufRootD_fix nodes s2 hWf2 nodes.length
            u hu (rankAbove_lt_length nodes s2 u hu))
      have hiffU : ∀ a ∈ nodes, ∀ b ∈ nodes,
          (ufRootD nodes.length (ufUnion nodes.length s2 u v).2 a =
            ufRootD nodes.length (ufUnion nodes.length s2 u v).2 b ↔
            mReach (F ++ [(u, v, w)]) a b) := by
        intro a hA' b hB'
        rw [hmap a hA', hmap b hB', collapse_eq_iff A B _ _ hAB,
          mReach_snoc_decomp, hiff2 a hA' b hB']
        rcases hABor with ⟨hA1, hB1⟩ | ⟨hA1, hB1⟩
        · rw [hA1, hB1, hiff2 a hA' u hu, hiff2 b hB' v hv,
            hiff2 a hA' v hv, hiff2 b hB' u hu]
          constructor
          · rintro (h | ⟨h1, h2⟩ | ⟨h1, h2⟩)
            · exact Or.inl h
            · exact Or.inr (Or.inl ⟨h1, mReach_symm _ _ _ h2⟩)
            · exact Or.inr (Or.inr ⟨h1, mReach_symm _ _ _ h2⟩)
          · rintro (h | ⟨h1, h2⟩ | ⟨h1, h2⟩)
            · exact Or.inl h
            · exact Or.inr (Or.inl ⟨h1, mReach_symm _ _ _ h2⟩)
            · exact Or.inr (Or.inr ⟨h1, mReach_symm _ _ _ h2⟩)
        · rw [hA1, hB1, hiff2 a hA' v hv, hiff2 b hB' u hu,
            hiff2 a hA' u hu, hiff2 b hB' v hv]
          constructor
          · rintro (h | ⟨h1, h2⟩ | ⟨h1, h2⟩)
            · exact Or.inl h
            · exact Or.inr (Or.inr ⟨h1, mReach_symm _ _ _ h2⟩)
            · exact Or.inr (Or.inl ⟨h1, mReach_symm _ _ _ h2⟩)
          · rintro (h | ⟨h1, h2⟩ | ⟨h1, h2⟩)
            · exact Or.inl h
            · exact Or.inr (Or.inr ⟨h1, mReach_symm _ _ _ h2⟩)
            · exact Or.inr (Or.inl ⟨h1, mReach_symm _ _ _ h2⟩)
      have hcountU : (nodes.filter (fun z =>
          decide (ufRootD nodes.length (ufUnion nodes.length s2 u v).2 z
            = z))).length + 1 =
          (nodes.filter (fun z =>
            decide (ufRootD nodes.length s2 z = z))).length := by
        refine filter_length_drop _ _ A nodes hnd hAmem ?_ ?_
        · rw [decide_eq_true_eq]
          exact hAroot
        · intro z hz
          rw [hmap z hz]
          by_cases hzA : ufRootD nodes.length s2 z = A
          · rw [if_pos hzA]
            have hBz : B ≠ z := by
              intro hBz
              rw [hBz] at hBroot
              rw [hBroot] at hzA
              exact hAB (hzA.symm.trans hBz.symm)
            have hzA' : (z == A) = true ∨ (z == A) = false := by
              cases hb : (z == A) <;> simp
            by_cases hza : z = A
            · have h1 : decide (B = z) = false := by
                rw [decide_eq_false_iff_not]
                exact hBz
              have h2 : (z == A) = true := by
                rw [beq_iff_eq]
                exact hza
              rw [h1, h2]
              simp
            · have h1 : decide (B = z) = false := by
                rw [decide_eq_false_iff_not]
                exact hBz
              have h2 : decide (ufRootD nodes.length s2 z = z) = false := by
                rw [decide_eq_false_iff_not]
                intro hc
                rw [hzA] at hc
                exact hza hc.symm
              rw [h1, h2]
              simp
          · rw [if_neg hzA]
            have hza : z ≠ A := by
              intro hza
              rw [hza] at hzA
              exact hzA hAroot
            have h2 : (z == A) = false := by
              rw [beq_eq_false_iff_ne]
              exact hza
            rw [h2]
            simp
      by_cases hstop : (mst ++ [(u, v)]).length = nodes.length - 1
      · rw [if_pos hstop]
        have hone : (nodes.filter (fun z =>
            decide (ufRootD nodes.length (ufUnion nodes.length s2 u v).2 z
              = z))).length = 1 := by
          have hlen1 : (mst ++ [(u, v)]).length = mst.length + 1 := by simp
          have hn1 : 1 ≤ nodes.length := List.length_pos.mpr
            (List.ne_nil_of_mem hr)
          omega
        have hspanF : ∀ z ∈ nodes, mReach (F ++ [(u, v, w)]) r z := by
          intro z hz
          refine (hiffU r hr z hz).mp ?_
          refine filter_one_all_eq nodes _ hone _ _ ?_ ?_ ?_ ?_
          · exact ufRootD_mem nodes _ hWfU nodes.length r hr
              (rankAbove_lt_length nodes _ r hr)
          · exact ufRootD_mem nodes _ hWfU nodes.length z hz
              (rankAbove_lt_length nodes _ z hz)
          · rw [decide_eq_true_eq]
            exact ufRootD_of_root _ _ _ (ufRootD_fix nodes _ hWfU
              nodes.length r hr (rankAbove_lt_length nodes _ r hr))
          · rw [decide_eq_true_eq]
            exact ufRootD_of_root _ _ _ (ufRootD_fix nodes _ hWfU
              nodes.length z hz (rankAbove_lt_length nodes _ z hz))
        refine ⟨F ++ [(u, v, w)], M', hFE', hFnd', hspanF, hFM'', hM'E,
          hM'span, hM'nd, hM'min, ?_⟩
        exact hFw'.symm
      · rw [if_neg hstop]
        have hproc' : ∀ g ∈ E, g ∈ R' ∨
            mReach (F ++ [(u, v, w)]) g.1 g.2.1 := by
          intro g hgE
          rcases hproc g hgE with hgR | hgReach
          · rcases List.mem_cons.mp hgR with hge | hgR'
            · refine Or.inr ?_
              rw [hge]
              exact Relation.ReflTransGen.single
                ⟨w, Or.inl (List.mem_append_right _
                  (by rw [List.mem_singleton]))⟩
            · exact Or.inl hgR'
          · exact Or.inr (mReach_mono F _
              (fun g' hg' => List.mem_append_left _ hg') _ _ hgReach)
        have hlen' : (mst ++ [(u, v)]).length = (F ++ [(u, v, w)]).length := by
          rw [List.length_append, List.length_append, hlen]
          rfl
        have hcount' : (nodes.filter (fun z =>
            decide (ufRootD nodes.length (ufUnion nodes.length s2 u v).2 z
              = z))).length + (mst ++ [(u, v)]).length = nodes.length := by
          have h1 : (mst ++ [(u, v)]).length = mst.length + 1 := by
            rw [List.length_append]
            rfl
          omega
        obtain ⟨Ffin, Mfin, c1, c2, c3, c4, c5, c6, c7, c8, c9⟩ :=
          ih (ufUnion nodes.length s2 u v).2 (mst ++ [(u, v)]) (tw + w)
            (F ++ [(u, v, w)]) M'
            (fun g hg => hRE g (List.mem_cons_of_mem _ hg))
            (List.pairwise_cons.mp hsort).2 hproc' hFE' hFnd' hFw'
            hlen' hWfU hiffU hcount'
            hFM'' hM'E hM'span hM'nd hM'min
        refine ⟨Ffin, Mfin, c1, c2, c3, c4, c5, c6, c7, c8, ?_⟩
        rw [lastMStep_cons _ _ (List.cons_ne_nil _ _),
          lastMStep_cons _ _ (kruskalLoop_ne_nil _ _ _ _ _ _)]
        exact c9
    · rw [if_neg hne]
      have hreq : r1 = r2 := not_ne_iff.mp hne
      have hreachUV : mReach F u v := by
        refine (hiff u hu v hv).mp ?_
        rw [← har1, ← hr2']
        exact hreq
      by_cases hstop : mst.length = nodes.length - 1
      · rw [if_pos hstop]
        have hone : (nodes.filter (fun z =>
            decide (ufRootD nodes.length uf z = z))).length = 1 := by
          have hn1 : 1 ≤ nodes.length := List.length_pos.mpr
            (List.ne_nil_of_mem hr)
          omega
        have hspanF : ∀ z ∈ nodes, mReach F r z := by
          intro z hz
          refine (hiff r hr z hz).mp ?_
          refine filter_one_all_eq nodes _ hone _ _ ?_ ?_ ?_ ?_
          · exact ufRootD_mem nodes _ hWf nodes.length r hr
              (rankAbove_lt_length nodes _ r hr)
          · exact ufRootD_mem nodes _ hWf nodes.length z hz
              (rankAbove_lt_length nodes _ z hz)
          · rw [decide_eq_true_eq]
            exact ufRootD_of_root _ _ _ (ufRootD_fix nodes _ hWf
              nodes.length r hr (rankAbove_lt_length nodes _ r hr))
          · rw [decide_eq_true_eq]
            exact ufRootD_of_root _ _ _ (ufRootD_fix nodes _ hWf
              nodes.length z hz (rankAbove_lt_length nodes _ z hz))
        refine ⟨F, M, hFE, hFnd, hspanF, hFM, hME, hMspan, hMnd, hMmin, ?_⟩
        exact hFw.symm
      · rw [if_neg hstop]
        have hproc' : ∀ g ∈ E, g ∈ R' ∨ mReach F g.1 g.2.1 := by
          intro g hgE
          rcases hproc g hgE with hgR | hgReach
          · rcases List.mem_cons.mp hgR with hge | hgR'
            · refine Or.inr ?_
              rw [hge]
              exact hreachUV
            · exact Or.inl hgR'
          · exact Or.inr hgReach
        obtain ⟨Ffin, Mfin, c1, c2, c3, c4, c5, c6, c7, c8, c9⟩ :=
          ih s2 mst tw F M
            (fun g hg => hRE g (List.mem_cons_of_mem _ hg))
            (List.pairwise_cons.mp hsort).2 hproc' hFE hFnd hFw hlen hWf2
            hiff2 hcount2 hFM hME hMspan hMnd hMmin
        refine ⟨Ffin, Mfin, c1, c2, c3, c4, c5, c6, c7, c8, ?_⟩
        rw [lastMStep_cons _ _ (List.cons_ne_nil _ _),
          lastMStep_cons _ _ (kruskalLoop_ne_nil _ _ _ _ _ _)]
        exact c9

/-! ### Structure of the generated MST graph -/

theorem eraseDupsLoop_nodup :
    ∀ (as bs : List Int), bs.Nodup → (List.eraseDups.loop as bs).Nodup := by
  intro as
  induction as with
  | nil =>
    intro bs h
    simpa [List.eraseDups.loop] using h
  | cons a t ih =>
    intro bs h
    simp only [List.eraseDups.loop]
    cases hel : List.elem a bs with
    | true => exact ih bs h
    | false =>
      refine ih (a :: bs) (List.nodup_cons.mpr ⟨?_, h⟩)
      intro hmem
      rw [List.elem_iff.mpr hmem] at hel
      cases hel

theorem eraseDups_nodup (arr : List Int) : (arr.eraseDups).Nodup :=
  eraseDupsLoop_nodup arr [] List.nodup_nil

theorem sortedDedup_nodup (arr : List Int) : (sortedDedup arr).Nodup :=
  (List.perm_insertionSort _ _).nodup_iff.mpr (eraseDups_nodup arr)

theorem genMstGraph_nodes (arr : List Int) :
    (genMstGraph arr).nodes = (sortedDedup arr).take 8 := by
  simp only [genMstGraph]
  split <;> rfl

theorem genMstGraph_nodes_nodup (arr : List Int) :
    (genMstGraph arr).nodes.Nodup := by
  rw [genMstGraph_nodes]
  exact List.Nodup.sublist (List.take_sublist 8 _) (sortedDedup_nodup arr)

theorem alook_iadjApp (k : Int) (v : Int × Nat) (z : Int) :
    ∀ aj : IAdj, alook (iadjApp aj k v) z =
      (alook aj z).map (fun l => if z = k then l ++ [v] else l) := by
  intro aj
  induction aj with
  | nil => rfl
  | cons p t ih =>
    obtain ⟨a, l⟩ := p
    by_cases hak : a = k
    · subst hak
      have hstep : iadjApp ((a, l) :: t) a v = (a, l ++ [v]) :: iadjApp t a v := by
        simp [iadjApp]
      rw [hstep]
      by_cases haz : a = z
      · subst haz
        simp [alook]
      · simp only [alook, if_neg haz]
        exact ih
    · have hstep : iadjApp ((a, l) :: t) k v = (a, l) :: iadjApp t k v := by
        simp [iadjApp, hak]
      rw [hstep]
      by_cases haz : a = z
      · subst haz
        have hzk : ¬ (a = k) := hak
        simp [alook, hzk]
      · simp only [alook, if_neg haz]
        exact ih

theorem iadjApp_keys (aj : IAdj) (k : Int) (v : Int × Nat) :
    (iadjApp aj k v).map Prod.fst = aj.map Prod.fst := by
  unfold iadjApp
  rw [List.map_map]
  refine List.map_congr_left ?_
  intro p _
  by_cases h : p.1 = k <;> simp [h]

theorem alook_mem_keys {aj : IAdj} {z : Int}
    (h : z ∈ aj.map Prod.fst) : ∃ l, alook aj z = some l := by
  induction aj with
  | nil => simp at h
  | cons p t ih =>
    obtain ⟨a, b⟩ := p
    simp only [List.map_cons, List.mem_cons] at h
    by_cases hz : a = z
    · exact ⟨b, by simp [alook, hz]⟩
    · rcases h with h' | h'
      · exact absurd h'.symm hz
      · obtain ⟨l, hl⟩ := ih h'
        exact ⟨l, by simpa [alook, hz]⟩

theorem iadjGet_init (nodes : List Int) (z : Int) :
    iadjGet (nodes.map (fun n => (n, ([] : List (Int × Nat))))) z = [] := by
  induction nodes with
  | nil => rfl
  | cons a t ih =>
    simp only [List.map_cons, iadjGet, alook] at ih ⊢
    by_cases h : a = z
    · simp [h]
    · simpa [h] using ih

theorem adjInv_init (nodes : List Int) :
    adjInv nodes [] (nodes.map (fun n => (n, []))) := by
  refine ⟨?_, ?_, ?_, ?_⟩
  · intro g hg
    exact absurd hg (List.not_mem_nil g)
  · intro z nbr w
    rw [iadjGet_init]
    simp
  · intro z
    rw [iadjGet_init]
    simp
  · rw [List.map_map]
    exact List.map_id _

theorem adjInv_add (nodes : List Int) (es : List (Int × Int × Nat))
    (aj : IAdj) (u v : Int) (w : Nat) (hinv : adjInv nodes es aj)
    (hu : u ∈ nodes) (hv : v ∈ nodes) :
    adjInv nodes (es ++ [(u, v, w)])
      (iadjApp (iadjApp aj u (v, w)) v (u, w)) := by
  obtain ⟨hends, hiff, hlen, hkeys⟩ := hinv
  have hget : ∀ z, iadjGet (iadjApp (iadjApp aj u (v, w)) v (u, w)) z =
      iadjGet aj z ++ (if z = u then [(v, w)] else []) ++
        (if z = v then [(u, w)] else []) := by
    intro z
    unfold iadjGet
    rw [alook_iadjApp, alook_iadjApp]
    cases halz : alook aj z with
    | none =>
      have hz : z ∉ aj.map Prod.fst := by
        intro hmem
        obtain ⟨l, hl⟩ := alook_mem_keys hmem
        rw [halz] at hl
        cases hl
      have hzu : z ≠ u := by
        rintro rfl
        exact hz (hkeys ▸ hu)
      have hzv : z ≠ v := by
        rintro rfl
        exact hz (hkeys ▸ hv)
      simp [hzu, hzv]
    | some l =>
      by_cases hzv : z = v
      · subst hzv
        by_cases hvu : z = u
        · subst hvu
          simp
        · simp [hvu]
      · by_cases hzu : z = u
        · subst hzu
          simp [hzv]
        · simp [hzu, hzv]
  have hmem_ite : ∀ (c : Prop) [Decidable c] (x y : Int × Nat),
      (y ∈ (if c then [x] else [])) ↔ (c ∧ y = x) := by
    intro c _ x y
    split <;> simp [*]
  refine ⟨?_, ?_, ?_, ?_⟩
  · intro g hg
    rcases List.mem_append.mp hg with h' | h'
    · exact hends g h'
    · rw [List.mem_singleton] at h'
      rw [h']
      exact ⟨hu, hv⟩
  · intro z nbr w'
    rw [hget z]
    simp only [List.mem_append, hmem_ite, hiff, List.mem_singleton,
      Prod.mk.injEq]
    tauto
  · intro z
    rw [hget z]
    have h1 := hlen z
    have h2 : (if z = u then [(v, w)] else []).length ≤ 1 := by
      split <;> simp
    have h3 : (if z = v then [(u, w)] else []).length ≤ 1 := by
      split <;> simp
    simp only [List.length_append, List.length_singleton]
    omega
  · rw [iadjApp_keys, iadjApp_keys]
    exact hkeys

theorem addConsecutive_adjInv (nodes : List Int) :
    ∀ (pairs : List (Int × Int)) (es : List (Int × Int × Nat)) (aj : IAdj),
    adjInv nodes es aj →
    adjInv nodes (addConsecutive nodes pairs (es, aj)).1
      (addConsecutive nodes pairs (es, aj)).2 := by
  intro pairs
  induction pairs with
  | nil =>
    intro es aj hinv
    exact hinv
  | cons p rest ih =>
    obtain ⟨u, v⟩ := p
    intro es aj hinv
    simp only [addConsecutive]
    split
    · rename_i hmem
      split
      · exact ih es aj hinv
      · exact ih _ _ (adjInv_add nodes es aj u v (mstW u v) hinv
          hmem.1 hmem.2)
    · exact ih es aj hinv

theorem chainNodes_adjInv (nodes : List Int) :
    ∀ (pairs : List (Int × Int)) (es : List (Int × Int × Nat)) (aj : IAdj),
    (∀ p ∈ pairs, p.1 ∈ nodes ∧ p.2 ∈ nodes) →
    adjInv nodes es aj →
    adjInv nodes (chainNodes pairs (es, aj)).1 (chainNodes pairs (es, aj)).2 := by
  intro pairs
  induction pairs with
  | nil =>
    intro es aj _ hinv
    exact hinv
  | cons p rest ih =>
    obtain ⟨u, v⟩ := p
    intro es aj hpr hinv
    have hu : u ∈ nodes := (hpr (u, v) (List.mem_cons_self _ _)).1
    have hv : v ∈ nodes := (hpr (u, v) (List.mem_cons_self _ _)).2
    have hpr' : ∀ p ∈ rest, p.1 ∈ nodes ∧ p.2 ∈ nodes :=
      fun p hp => hpr p (List.mem_cons_of_mem _ hp)
    simp only [chainNodes]
    split
    · exact ih es aj hpr' hinv
    · exact ih _ _ hpr' (adjInv_add nodes es aj u v (mstW u v) hinv hu hv)

theorem genMstGraph_adjInv (arr : List Int)
    (h2 : ¬ ((sortedDedup arr).take 8).length < 2) :
    adjInv (genMstGraph arr).nodes (genMstGraph arr).edges
      (genMstGraph arr).adj := by
  have hres : genMstGraph arr = ⟨(sortedDedup arr).take 8,
      (if (addConsecutive ((sortedDedup arr).take 8)
            ((arr.zip arr.tail)) ([], ((sortedDedup arr).take 8).map
              (fun n => (n, [])))).1.length <
          ((sortedDedup arr).take 8).length - 1 then
        chainNodes (((sortedDedup arr).take 8).zip
            ((sortedDedup arr).take 8).tail)
          (addConsecutive ((sortedDedup arr).take 8) ((arr.zip arr.tail))
            ([], ((sortedDedup arr).take 8).map (fun n => (n, []))))
      else
        addConsecutive ((sortedDedup arr).take 8) ((arr.zip arr.tail))
          ([], ((sortedDedup arr).take 8).map (fun n => (n, [])))).1,
      (if (addConsecutive ((sortedDedup arr).take 8)
            ((arr.zip arr.tail)) ([], ((sortedDedup arr).take 8).map
              (fun n => (n, [])))).1.length <
          ((sortedDedup arr).take 8).length - 1 then
        chainNodes (((sortedDedup arr).take 8).zip
            ((sortedDedup arr).take 8).tail)
          (addConsecutive ((sortedDedup arr).take 8) ((arr.zip arr.tail))
            ([], ((sortedDedup arr).take 8).map (fun n => (n, []))))
      else
        addConsecutive ((sortedDedup arr).take 8) ((arr.zip arr.tail))
          ([], ((sortedDedup arr).take 8).map (fun n => (n, [])))).2⟩ := by
    simp only [genMstGraph]
    rw [if_neg h2]
  rw [hres]
  set nodes := (sortedDedup arr).take 8 with hnodes
  have hbase : adjInv nodes [] (nodes.map (fun n => (n, []))) :=
    adjInv_init nodes
  have hp1 : adjInv nodes
      (addConsecutive nodes (arr.zip arr.tail)
        ([], nodes.map (fun n => (n, [])))).1
      (addConsecutive nodes (arr.zip arr.tail)
        ([], nodes.map (fun n => (n, [])))).2 :=
    addConsecutive_adjInv nodes _ _ _ hbase
  split
  · refine chainNodes_adjInv nodes _ _ _ ?_ hp1
    intro p hp
    obtain ⟨h1, h2'⟩ := List.of_mem_zip hp
    exact ⟨h1, (List.tail_sublist nodes).subset h2'⟩
  · exact hp1

/-! ### The heap order of `prim` and the loop's helper operations -/

theorem pentLtB_iff (a b : Nat × Int × Int) : pentLtB a b = true ↔
    (a.1 < b.1 ∨ (a.1 = b.1 ∧ (a.2.1 < b.2.1 ∨
      (a.2.1 = b.2.1 ∧ a.2.2 < b.2.2)))) := by
  simp [pentLtB, Bool.or_eq_true, Bool.and_eq_true, decide_eq_true_eq,
    beq_iff_eq]

theorem pentLtB_irrefl (a : Nat × Int × Int) : pentLtB a a = false := by
  simp [pentLtB]

theorem pentLtB_asymm (a b : Nat × Int × Int) (h : pentLtB a b = true) :
    pentLtB b a = false := by
  rw [pentLtB_iff] at h
  rw [← Bool.not_eq_true, pentLtB_iff]
  omega

theorem pentLtB_not_not (a b c : Nat × Int × Int)
    (h1 : pentLtB a b = false) (h2 : pentLtB b c = false) :
    pentLtB a c = false := by
  rw [← Bool.not_eq_true, pentLtB_iff] at h1 h2 ⊢
  omega

theorem pentLtB_weight (a b : Nat × Int × Int)
    (h : pentLtB a b = false) : b.1 ≤ a.1 := by
  rw [← Bool.not_eq_true, pentLtB_iff] at h
  omega

theorem popMinP_none (pq : List (Nat × Int × Int)) :
    popMinP pq = none ↔ pq = [] := by
  cases pq with
  | nil => simp [popMinP]
  | cons e rest =>
    simp only [popMinP]
    cases h : popMinP rest with
    | none =>
      constructor
      · intro h'
        cases (show some (e, ([] : List (Nat × Int × Int))) = none from h')
      · intro h'
        cases h'
    | some p =>
      obtain ⟨m, rest'⟩ := p
      constructor
      · intro h'
        have h'' : (if pentLtB m e = true then some (m, e :: rest')
            else some (e, rest)) = none := h'
        split at h'' <;> cases h''
      · intro h'
        cases h'

theorem popMinP_spec :
    ∀ (pq : List (Nat × Int × Int)) (m : Nat × Int × Int)
    (rest : List (Nat × Int × Int)), popMinP pq = some (m, rest) →
    pq.Perm (m :: rest) ∧ ∀ x ∈ pq, pentLtB x m = false := by
  intro pq
  induction pq with
  | nil =>
    intro m rest h
    cases h
  | cons e t ih =>
    intro m rest h
    simp only [popMinP] at h
    cases ht : popMinP t with
    | none =>
      rw [ht] at h
      have h' : some (e, ([] : List (Nat × Int × Int))) = some (m, rest) := h
      have ht' : t = [] := (popMinP_none t).mp ht
      subst ht'
      simp only [Option.some.injEq, Prod.mk.injEq] at h'
      obtain ⟨rfl, h2⟩ := h'
      subst h2
      refine ⟨List.Perm.refl _, ?_⟩
      intro x hx
      rw [List.mem_singleton] at hx
      rw [hx]
      exact pentLtB_irrefl e
    | some p =>
      obtain ⟨m', rest'⟩ := p
      rw [ht] at h
      have h' : (if pentLtB m' e = true then some (m', e :: rest')
          else some (e, t)) = some (m, rest) := h
      obtain ⟨hperm', hmin'⟩ := ih m' rest' ht
      by_cases hlt : pentLtB m' e = true
      · rw [if_pos hlt] at h'
        simp only [Option.some.injEq, Prod.mk.injEq] at h'
        obtain ⟨rfl, h2⟩ := h'
        subst h2
        refine ⟨?_, ?_⟩
        · exact (hperm'.cons e).trans (List.Perm.swap m' e rest')
        · intro x hx
          rcases List.mem_cons.mp hx with rfl | hx'
          · exact pentLtB_asymm _ _ hlt
          · exact hmin' x hx'
      · rw [if_neg hlt] at h'
        simp only [Option.some.injEq, Prod.mk.injEq] at h'
        obtain ⟨rfl, h2⟩ := h'
        subst h2
        refine ⟨List.Perm.refl _, ?_⟩
        intro x hx
        rcases List.mem_cons.mp hx with rfl | hx'
        · exact pentLtB_irrefl x
        · exact pentLtB_not_not x m' e (hmin' x hx')
            (Bool.not_eq_true _ ▸ hlt)

theorem primPush_spec (toN : Int) (visited : List Int)
    (mst : List (Int × Int)) (tw : Nat) :
    ∀ (adjl : List (Int × Nat)) (pq : List (Nat × Int × Int)),
    (∀ e ∈ pq, e ∈ (primPush toN visited mst tw adjl pq).2) ∧
    (∀ e ∈ (primPush toN visited mst tw adjl pq).2, e ∈ pq ∨
      ∃ nbr w, (nbr, w) ∈ adjl ∧ e = (w, toN, nbr) ∧ nbr ∉ visited) ∧
    (∀ nbr w, (nbr, w) ∈ adjl → nbr ∉ visited →
      (w, toN, nbr) ∈ (primPush toN visited mst tw adjl pq).2) ∧
    (primPush toN visited mst tw adjl pq).2.length ≤
      pq.length + adjl.length := by
  intro adjl
  induction adjl with
  | nil =>
    intro pq
    refine ⟨fun e he => he, fun e he => Or.inl he, ?_, ?_⟩
    · intro nbr w h
      exact absurd h (List.not_mem_nil _)
    · simp [primPush]
  | cons p rest ih =>
    obtain ⟨nbr0, w0⟩ := p
    intro pq
    simp only [primPush]
    by_cases hc : visited.contains nbr0
    · rw [if_pos hc]
      obtain ⟨s1, s2, s3, s4⟩ := ih pq
      refine ⟨s1, ?_, ?_, ?_⟩
      · intro e he
        rcases s2 e he with h | ⟨nbr, w, h1, h2, h3⟩
        · exact Or.inl h
        · exact Or.inr ⟨nbr, w, List.mem_cons_of_mem _ h1, h2, h3⟩
      · intro nbr w h hnv
        rcases List.mem_cons.mp h with heq | h'
        · have hn : nbr = nbr0 := congrArg Prod.fst heq
          rw [hn] at hnv
          exact absurd (List.elem_iff.mp hc) hnv
        · exact s3 nbr w h' hnv
      · simp only [List.length_cons]
        omega
    · rw [if_neg hc]
      obtain ⟨s1, s2, s3, s4⟩ := ih (pq ++ [(w0, toN, nbr0)])
      refine ⟨?_, ?_, ?_, ?_⟩
      · intro e he
        exact s1 e (List.mem_append_left _ he)
      · intro e he
        rcases s2 e he with h | ⟨nbr, w, h1, h2, h3⟩
        · rcases List.mem_append.mp h with h' | h'
          · exact Or.inl h'
          · rw [List.mem_singleton] at h'
            refine Or.inr ⟨nbr0, w0, List.mem_cons_self _ _, h', ?_⟩
            intro hmem
            exact hc (List.elem_iff.mpr hmem)
        · exact Or.inr ⟨nbr, w, List.mem_cons_of_mem _ h1, h2, h3⟩
      · intro nbr w h hnv
        rcases List.mem_cons.mp h with heq | h'
        · have hn : nbr = nbr0 := congrArg Prod.fst heq
          have hw : w = w0 := congrArg Prod.snd heq
          rw [hn, hw]
          exact s1 _ (List.mem_append_right _ (List.mem_singleton.mpr rfl))
        · exact s3 nbr w h' hnv
      · have hl : (pq ++ [(w0, toN, nbr0)]).length = pq.length + 1 := by
          simp
        rw [hl] at s4
        simp only [List.length_cons]
        omega

theorem primLoop_ne_nil (adj : IAdj) (n : Nat) :
    ∀ (fuel : Nat) (pq : List (Nat × Int × Int)) (visited : List Int)
    (mst : List (Int × Int)) (tw : Nat),
    primLoop adj n fuel pq visited mst tw ≠ [] := by
  intro fuel
  induction fuel with
  | zero =>
    intro pq visited mst tw
    simp [primLoop]
  | succ f ih =>
    intro pq visited mst tw
    simp only [primLoop]
    split
    · simp
    · split
      · simp
      · split
        · apply ih
        · simp

theorem lastMStep_append (l₁ l₂ : List MStep) (h : l₂ ≠ []) :
    lastMStep (l₁ ++ l₂) = lastMStep l₂ := by
  induction l₁ with
  | nil => rfl
  | cons a t ih =>
    rw [List.cons_append, lastMStep_cons _ _ (by simp [h]), ih]

theorem mem_of_full_subset (visited nodes : List Int) (h1 : visited.Nodup)
    (hnd : nodes.Nodup) (hsub : ∀ z ∈ visited, z ∈ nodes)
    (hlen : nodes.length ≤ visited.length) : ∀ z ∈ nodes, z ∈ visited := by
  have hfin : visited.toFinset ⊆ nodes.toFinset := by
    intro x hx
    rw [List.mem_toFinset] at hx ⊢
    exact hsub x hx
  have hcard : nodes.toFinset.card ≤ visited.toFinset.card := by
    rw [List.toFinset_card_of_nodup h1, List.toFinset_card_of_nodup hnd]
    exact hlen
  have heq := Finset.eq_of_subset_of_card_le hfin hcard
  intro z hz
  have hz' : z ∈ nodes.toFinset := List.mem_toFinset.mpr hz
  rw [← heq] at hz'
  exact List.mem_toFinset.mp hz'

theorem mReach_isolated (F : List (Int × Int × Nat)) (x z : Int)
    (hiso : ∀ g ∈ F, g.1 ≠ x ∧ g.2.1 ≠ x) (h : mReach F x z) : z = x := by
  induction h with
  | refl => rfl
  | tail hxb hstep ih =>
    rw [ih] at hstep
    obtain ⟨w, hw | hw⟩ := hstep
    · exact absurd rfl (hiso _ hw).1
    · exact absurd rfl (hiso _ hw).2

theorem exchange_step_cut (nodes : List Int) (E : List (Int × Int × Nat))
    (r : Int) (F M : List (Int × Int × Nat)) (s u v : Int) (w : Nat)
    (e₀ : Int × Int × Nat)
    (hFM : ∀ g ∈ F, g ∈ M)
    (hMsub : ∀ g ∈ M, g ∈ E) (hMspan : ∀ z ∈ nodes, mReach M r z)
    (hMnodup : M.Nodup)
    (hMmin : ∀ S, (∀ g ∈ S, g ∈ E) → (∀ z ∈ nodes, mReach S r z) →
      wsum M ≤ wsum S)
    (he₀ : e₀ ∈ E) (horient₀ : e₀ = (u, v, w) ∨ e₀ = (v, u, w))
    (hsu : mReach F s u) (hsv : ¬ mReach F s v)
    (hu : u ∈ nodes) (hv : v ∈ nodes)
    (hcut : ∀ g ∈ E, ∀ a b : Int,
      ((g.1 = a ∧ g.2.1 = b) ∨ (g.1 = b ∧ g.2.1 = a)) →
      mReach F s a → ¬ mReach F s b → w ≤ g.2.2) :
    ∃ M', (∀ g ∈ F, g ∈ M') ∧ e₀ ∈ M' ∧ (∀ g ∈ M', g ∈ E) ∧
      (∀ z ∈ nodes, mReach M' r z) ∧ M'.Nodup ∧ wsum M' = wsum M := by
  by_cases heM : e₀ ∈ M
  · exact ⟨M, hFM, heM, hMsub, hMspan, hMnodup, rfl⟩
  · have hrUV : mReach M u v :=
      (mReach_symm _ _ _ (hMspan u hu)).trans (hMspan v hv)
    obtain ⟨g, hgM, a, b, horient, hKa, hKb, hua, hbv⟩ :=
      cross_edge M.length M (le_refl _) (fun z => mReach F s z) u v hrUV
        hsu hsv
    have hgE : g ∈ E := hMsub g hgM
    have hwle : w ≤ g.2.2 := hcut g hgE a b horient hKa hKb
    have hgF : g ∉ F := by
      intro hgFmem
      apply hKb
      refine hKa.tail ?_
      rcases horient with ⟨h1, h2⟩ | ⟨h1, h2⟩
      · exact ⟨g.2.2, Or.inl (by rw [← h1, ← h2]; exact hgFmem)⟩
      · exact ⟨g.2.2, Or.inr (by rw [← h1, ← h2]; exact hgFmem)⟩
    have hFerase : ∀ g' ∈ F, g' ∈ M.erase g := by
      intro g' hg'
      exact (List.mem_erase_of_ne (fun h => hgF (by rw [← h]; exact hg'))).mpr
        (hFM g' hg')
    have he₀mem : e₀ ∈ M.erase g ++ [e₀] :=
      List.mem_append_right _ (List.mem_singleton.mpr rfl)
    have huv' : mAdjE (M.erase g ++ [e₀]) u v := by
      rcases horient₀ with h | h
      · exact ⟨w, Or.inl (by rw [← h]; exact he₀mem)⟩
      · exact ⟨w, Or.inr (by rw [← h]; exact he₀mem)⟩
    have hab : mReach (M.erase g ++ [e₀]) a b := by
      have h1 : mReach (M.erase g ++ [e₀]) a u := by
        have hAu : mReach F a u := (mReach_symm _ _ _ hKa).trans hsu
        exact mReach_mono F _
          (fun g' hg' => List.mem_append_left _ (hFerase g' hg')) _ _ hAu
      have h3 : mReach (M.erase g ++ [e₀]) v b :=
        mReach_mono _ _ (fun g' hg' => List.mem_append_left _ hg') _ _
          (mReach_symm _ _ _ hbv)
      exact (h1.tail huv').trans h3
    have hlift : ∀ x y, mReach M x y →
        mReach (M.erase g ++ [e₀]) x y := by
      intro x y
      apply mReach_lift
      intro p q hpq
      obtain ⟨w', hw' | hw'⟩ := hpq
      · by_cases hg' : (p, q, w') = g
        · rcases horient with ⟨h1, h2⟩ | ⟨h1, h2⟩
          · have hp : p = a := by rw [← h1, ← hg']
            have hq : q = b := by rw [← h2, ← hg']
            rw [hp, hq]
            exact hab
          · have hp : p = b := by rw [← h1, ← hg']
            have hq : q = a := by rw [← h2, ← hg']
            rw [hp, hq]
            exact mReach_symm _ _ _ hab
        · exact Relation.ReflTransGen.single ⟨w', Or.inl
            (List.mem_append_left _ ((List.mem_erase_of_ne hg').mpr hw'))⟩
      · by_cases hg' : (q, p, w') = g
        · rcases horient with ⟨h1, h2⟩ | ⟨h1, h2⟩
          · have hq : q = a := by rw [← h1, ← hg']
            have hp : p = b := by rw [← h2, ← hg']
            rw [hp, hq]
            exact mReach_symm _ _ _ hab
          · have hq : q = b := by rw [← h1, ← hg']
            have hp : p = a := by rw [← h2, ← hg']
            rw [hp, hq]
            exact hab
        · exact Relation.ReflTransGen.single ⟨w', Or.inr
            (List.mem_append_left _ ((List.mem_erase_of_ne hg').mpr hw'))⟩
    have hspan' : ∀ z ∈ nodes, mReach (M.erase g ++ [e₀]) r z :=
      fun z hz => hlift r z (hMspan z hz)
    have hsub' : ∀ g' ∈ M.erase g ++ [e₀], g' ∈ E := by
      intro g' hg'
      rcases List.mem_append.mp hg' with h' | h'
      · exact hMsub g' (List.mem_of_mem_erase h')
      · rw [List.mem_singleton] at h'
        rw [h']
        exact he₀
    have hnodup' : (M.erase g ++ [e₀]).Nodup := by
      refine List.Nodup.append (hMnodup.erase g) (List.nodup_singleton _) ?_
      intro e' he1 he2
      rw [List.mem_singleton] at he2
      exact heM (he2 ▸ List.mem_of_mem_erase he1)
    have hsum : wsum (M.erase g ++ [e₀]) = wsum (M.erase g) + w := by
      rw [wsum_append]
      rcases horient₀ with h | h <;> rw [h] <;> rfl
    have hsumM : wsum M = g.2.2 + wsum (M.erase g) := wsum_erase g M hgM
    have hge : wsum M ≤ wsum (M.erase g ++ [e₀]) :=
      hMmin _ hsub' hspan'
    have hle : wsum (M.erase g ++ [e₀]) ≤ wsum M := by
      rw [hsum, hsumM]
      omega
    exact ⟨M.erase g ++ [e₀],
      fun g' hg' => List.mem_append_left _ (hFerase g' hg'),
      he₀mem, hsub', hspan', hnodup', le_antisymm hle hge⟩

theorem primLoop_spec (nodes : List Int) (E : List (Int × Int × Nat))
    (adj : IAdj) (r : Int) (hnd : nodes.Nodup) (hr : r ∈ nodes)
    (hE : ∀ g ∈ E, g.1 ∈ nodes ∧ g.2.1 ∈ nodes)
    (hconn : ∀ z ∈ nodes, mReach E r z)
    (hadj : ∀ z nbr w, ((nbr, w) ∈ iadjGet adj z ↔
      (z, nbr, w) ∈ E ∨ (nbr, z, w) ∈ E))
    (hbound : ∀ z, (iadjGet adj z).length ≤ 2 * E.length) :
    ∀ (fuel : Nat) (pq : List (Nat × Int × Int)) (visited : List Int)
      (mst : List (Int × Int)) (tw : Nat) (F M : List (Int × Int × Nat)),
    pq.length + 2 * E.length * (nodes.length - visited.length) < fuel →
    visited.Nodup → (∀ z ∈ visited, z ∈ nodes) → r ∈ visited →
    (∀ z, z ∈ visited ↔ mReach F r z) →
    (∀ g ∈ F, g ∈ E) → F.Nodup → wsum F = tw →
    (∀ g ∈ F, g.1 ∈ visited ∧ g.2.1 ∈ visited) →
    (∀ e ∈ pq, e.2.1 ∈ visited ∧
      ((e.2.1, e.2.2, e.1) ∈ E ∨ (e.2.2, e.2.1, e.1) ∈ E)) →
    (∀ g ∈ E, ∀ a b : Int,
      ((g.1 = a ∧ g.2.1 = b) ∨ (g.1 = b ∧ g.2.1 = a)) →
      a ∈ visited → b ∉ visited → ∃ frm, (g.2.2, frm, b) ∈ pq) →
    (∀ g ∈ F, g ∈ M) → (∀ g ∈ M, g ∈ E) → (∀ z ∈ nodes, mReach M r z) →
    M.Nodup →
    (∀ S, (∀ g ∈ S, g ∈ E) → (∀ z ∈ nodes, mReach S r z) →
      wsum M ≤ wsum S) →
    ∃ Ffin Mfin,
      (∀ g ∈ Ffin, g ∈ E) ∧ Ffin.Nodup ∧ (∀ z ∈ nodes, mReach Ffin r z) ∧
      (∀ g ∈ Ffin, g ∈ Mfin) ∧ (∀ g ∈ Mfin, g ∈ E) ∧
      (∀ z ∈ nodes, mReach Mfin r z) ∧ Mfin.Nodup ∧
      (∀ S, (∀ g ∈ S, g ∈ E) → (∀ z ∈ nodes, mReach S r z) →
        wsum Mfin ≤ wsum S) ∧
      (lastMStep
        (primLoop adj nodes.length fuel pq visited mst tw)).totalWeight
        = wsum Ffin := by
  intro fuel
  induction fuel with
  | zero =>
    intro pq visited mst tw F M hmeas
    exact absurd hmeas (by omega)
  | succ f ih =>
    intro pq visited mst tw F M hmeas hvnd hvsub hrv hV4 hFE hFnd hFw hF3
      hQ1 hQ2 hFM hME hMspan hMnd hMmin
    by_cases hterm : pq = [] ∨ ¬ visited.length < nodes.length
    · have hres : primLoop adj nodes.length (f + 1) pq visited mst tw =
          [⟨"done", visited, mst, tw⟩] := by
        simp only [primLoop]
        rw [if_pos hterm]
      rw [hres]
      have hvis_all : ∀ z ∈ nodes, z ∈ visited := by
        rcases hterm with hpq | hfull
        · intro z hz
          by_contra hzv
          obtain ⟨g, hgE, a, b, horient, hKa, hKb, _, _⟩ :=
            cross_edge E.length E (le_refl _) (fun y => y ∈ visited) r z
              (hconn z hz) hrv hzv
          obtain ⟨frm, hfrm⟩ := hQ2 g hgE a b horient hKa hKb
          rw [hpq] at hfrm
          exact absurd hfrm (List.not_mem_nil _)
        · exact mem_of_full_subset visited nodes hvnd hnd hvsub (by omega)
      have hFspan : ∀ z ∈ nodes, mReach F r z :=
        fun z hz => (hV4 z).mp (hvis_all z hz)
      exact ⟨F, M, hFE, hFnd, hFspan, hFM, hME, hMspan, hMnd, hMmin,
        hFw.symm⟩
    · have hpqne : pq ≠ [] := fun h => hterm (Or.inl h)
      have hltn : visited.length < nodes.length := by
        by_contra h
        exact hterm (Or.inr h)
      obtain ⟨mp, hpop⟩ : ∃ mp, popMinP pq = some mp := by
        cases hp : popMinP pq with
        | none => exact absurd ((popMinP_none pq).mp hp) hpqne
        | some mp => exact ⟨mp, rfl⟩
      obtain ⟨⟨w, frm, toN⟩, pq'⟩ := mp
      obtain ⟨hperm, hmin⟩ := popMinP_spec pq _ _ hpop
      have hmemm : (w, frm, toN) ∈ pq :=
        hperm.mem_iff.mpr (List.mem_cons_self _ _)
      have hlpq' : pq.length = pq'.length + 1 := by
        simpa using hperm.length_eq
      have hfrmv : frm ∈ visited := (hQ1 _ hmemm).1
      have hedge : (frm, toN, w) ∈ E ∨ (toN, frm, w) ∈ E :=
        (hQ1 _ hmemm).2
      have hstep : primLoop adj nodes.length (f + 1) pq visited mst tw =
          (if visited.contains toN then
             primLoop adj nodes.length f pq' visited mst tw
           else
             ⟨"add_edge", visited ++ [toN], mst ++ [(frm, toN)], tw + w⟩ ::
               ((primPush toN (visited ++ [toN]) (mst ++ [(frm, toN)])
                 (tw + w) (iadjGet adj toN) pq').1 ++
               primLoop adj nodes.length f
                 (primPush toN (visited ++ [toN]) (mst ++ [(frm, toN)])
                   (tw + w) (iadjGet adj toN) pq').2
                 (visited ++ [toN]) (mst ++ [(frm, toN)]) (tw + w))) := by
        simp only [primLoop]
        rw [if_neg hterm, hpop]
        rfl
      rw [hstep]
      by_cases hvis : visited.contains toN = true
      · rw [if_pos hvis]
        have hQ1' : ∀ e ∈ pq', e.2.1 ∈ visited ∧
            ((e.2.1, e.2.2, e.1) ∈ E ∨ (e.2.2, e.2.1, e.1) ∈ E) :=
          fun e he => hQ1 e (hperm.mem_iff.mpr (List.mem_cons_of_mem _ he))
        have hQ2' : ∀ g ∈ E, ∀ a b : Int,
            ((g.1 = a ∧ g.2.1 = b) ∨ (g.1 = b ∧ g.2.1 = a)) →
            a ∈ visited → b ∉ visited → ∃ f', (g.2.2, f', b) ∈ pq' := by
          intro g hg a b horient ha hb
          obtain ⟨f', hf'⟩ := hQ2 g hg a b horient ha hb
          have hmem' := hperm.mem_iff.mp hf'
          rcases List.mem_cons.mp hmem' with heq | h'
          · exfalso
            have hb' : b = toN := congrArg (fun t => t.2.2) heq
            rw [hb'] at hb
            exact hb (List.elem_iff.mp hvis)
          · exact ⟨f', h'⟩
        exact ih pq' visited mst tw F M (by omega) hvnd hvsub hrv hV4 hFE
          hFnd hFw hF3 hQ1' hQ2' hFM hME hMspan hMnd hMmin
      · rw [if_neg hvis]
        have htoNv : toN ∉ visited := fun h => hvis (List.elem_iff.mpr h)
        obtain ⟨e₀, he₀E, horient₀⟩ : ∃ e₀, e₀ ∈ E ∧
            (e₀ = (frm, toN, w) ∨ e₀ = (toN, frm, w)) := by
          rcases hedge with h | h
          · exact ⟨(frm, toN, w), h, Or.inl rfl⟩
          · exact ⟨(toN, frm, w), h, Or.inr rfl⟩
        have htoN_nodes : toN ∈ nodes := by
          rcases horient₀ with h | h
          · have h2 := (hE e₀ he₀E).2
            rw [h] at h2
            exact h2
          · have h2 := (hE e₀ he₀E).1
            rw [h] at h2
            exact h2
        have hfrm_nodes : frm ∈ nodes := hvsub frm hfrmv
        have hsu : mReach F r frm := (hV4 frm).mp hfrmv
        have hsv : ¬ mReach F r toN := fun h => htoNv ((hV4 toN).mpr h)
        have hcut : ∀ g ∈ E, ∀ a b : Int,
            ((g.1 = a ∧ g.2.1 = b) ∨ (g.1 = b ∧ g.2.1 = a)) →
            mReach F r a → ¬ mReach F r b → w ≤ g.2.2 := by
          intro g hg a b horient ha hb
          have ha' : a ∈ visited := (hV4 a).mpr ha
          have hb' : b ∉ visited := fun h => hb ((hV4 b).mp h)
          obtain ⟨f', hf'⟩ := hQ2 g hg a b horient ha' hb'
          exact pentLtB_weight _ _ (hmin _ hf')
        obtain ⟨M', hFM', he₀M', hM'E, hM'span, hM'nd, hM'w⟩ :=
          exchange_step_cut nodes E r F M r frm toN w e₀ hFM hME hMspan
            hMnd hMmin he₀E horient₀ hsu hsv hfrm_nodes htoN_nodes hcut
        have hM'min : ∀ S, (∀ g ∈ S, g ∈ E) →
            (∀ z ∈ nodes, mReach S r z) → wsum M' ≤ wsum S := by
          intro S h1 h2
          rw [hM'w]
          exact hMmin S h1 h2
        have hiso : ∀ g ∈ F, g.1 ≠ toN ∧ g.2.1 ≠ toN := by
          intro g hg
          obtain ⟨ha, hb⟩ := hF3 g hg
          exact ⟨fun h => htoNv (h ▸ ha), fun h => htoNv (h ▸ hb)⟩
        have he₀F : e₀ ∉ F := by
          intro h
          rcases horient₀ with ho | ho
          · have h2 := (hF3 e₀ h).2
            rw [ho] at h2
            exact htoNv h2
          · have h2 := (hF3 e₀ h).1
            rw [ho] at h2
            exact htoNv h2
        have hFnd' : (F ++ [e₀]).Nodup := by
          refine List.Nodup.append hFnd (List.nodup_singleton _) ?_
          intro x hx1 hx2
          rw [List.mem_singleton] at hx2
          exact he₀F (hx2 ▸ hx1)
        have hFE' : ∀ g ∈ F ++ [e₀], g ∈ E := by
          intro g hg
          rcases List.mem_append.mp hg with h | h
          · exact hFE g h
          · rw [List.mem_singleton] at h
            rw [h]
            exact he₀E
        have hFw' : wsum (F ++ [e₀]) = tw + w := by
          rw [wsum_append, hFw]
          rcases horient₀ with h | h <;> rw [h] <;> rfl
        have hF3' : ∀ g ∈ F ++ [e₀],
            g.1 ∈ visited ++ [toN] ∧ g.2.1 ∈ visited ++ [toN] := by
          intro g hg
          rcases List.mem_append.mp hg with h | h
          · obtain ⟨h1, h2⟩ := hF3 g h
            exact ⟨List.mem_append_left _ h1, List.mem_append_left _ h2⟩
          · rw [List.mem_singleton] at h
            subst h
            rcases horient₀ with ho | ho <;> rw [ho]
            · exact ⟨List.mem_append_left _ hfrmv,
                List.mem_append_right _ (List.mem_singleton.mpr rfl)⟩
            · exact ⟨List.mem_append_right _ (List.mem_singleton.mpr rfl),
                List.mem_append_left _ hfrmv⟩
        have hadjF' : mAdjE (F ++ [e₀]) frm toN := by
          rcases horient₀ with h | h
          · exact ⟨w, Or.inl (by
              rw [← h]
              exact List.mem_append_right _ (List.mem_singleton.mpr rfl))⟩
          · exact ⟨w, Or.inr (by
              rw [← h]
              exact List.mem_append_right _ (List.mem_singleton.mpr rfl))⟩
        have hV4' : ∀ z, z ∈ visited ++ [toN] ↔ mReach (F ++ [e₀]) r z := by
          intro z
          constructor
          · intro hz
            rcases List.mem_append.mp hz with h | h
            · exact mReach_mono F _ (fun g hg => List.mem_append_left _ hg)
                _ _ ((hV4 z).mp h)
            · rw [List.mem_singleton] at h
              subst h
              exact (mReach_mono F _
                (fun g hg => List.mem_append_left _ hg) _ _ hsu).tail hadjF'
          · intro hz
            have hdec := (mReach_snoc_decomp F e₀ r z).mp hz
            rcases horient₀ with ho | ho
            · rw [ho] at hdec
              rcases hdec with h1 | ⟨h1, h2⟩ | ⟨h1, h2⟩
              · exact List.mem_append_left _ ((hV4 z).mpr h1)
              · have hz' : z = toN := mReach_isolated F toN z hiso h2
                rw [hz']
                exact List.mem_append_right _ (List.mem_singleton.mpr rfl)
              · exact absurd h1 hsv
            · rw [ho] at hdec
              rcases hdec with h1 | ⟨h1, h2⟩ | ⟨h1, h2⟩
              · exact List.mem_append_left _ ((hV4 z).mpr h1)
              · exact absurd h1 hsv
              · have hz' : z = toN := mReach_isolated F toN z hiso h2
                rw [hz']
                exact List.mem_append_right _ (List.mem_singleton.mpr rfl)
        obtain ⟨P1, P2, P3, P4⟩ := primPush_spec toN (visited ++ [toN])
          (mst ++ [(frm, toN)]) (tw + w) (iadjGet adj toN) pq'
        have hQ1' : ∀ e ∈ (primPush toN (visited ++ [toN])
            (mst ++ [(frm, toN)]) (tw + w) (iadjGet adj toN) pq').2,
            e.2.1 ∈ visited ++ [toN] ∧
            ((e.2.1, e.2.2, e.1) ∈ E ∨ (e.2.2, e.2.1, e.1) ∈ E) := by
          intro e he
          rcases P2 e he with h | ⟨nbr, w', h1, h2, h3⟩
          · obtain ⟨ha, hb⟩ :=
              hQ1 e (hperm.mem_iff.mpr (List.mem_cons_of_mem _ h))
            exact ⟨List.mem_append_left _ ha, hb⟩
          · subst h2
            refine ⟨List.mem_append_right _ (List.mem_singleton.mpr rfl), ?_⟩
            exact (hadj toN nbr w').mp h1
        have hQ2' : ∀ g ∈ E, ∀ a b : Int,
            ((g.1 = a ∧ g.2.1 = b) ∨ (g.1 = b ∧ g.2.1 = a)) →
            a ∈ visited ++ [toN] → b ∉ visited ++ [toN] →
            ∃ f', (g.2.2, f', b) ∈ (primPush toN (visited ++ [toN])
              (mst ++ [(frm, toN)]) (tw + w) (iadjGet adj toN) pq').2 := by
          intro g hg a b ho ha hb
          have hbv : b ∉ visited := fun h => hb (List.mem_append_left _ h)
          have hbtoN : b ≠ toN := fun h =>
            hb (List.mem_append_right _ (List.mem_singleton.mpr h))
          rcases List.mem_append.mp ha with hav | hatoN
          · obtain ⟨f', hf'⟩ := hQ2 g hg a b ho hav hbv
            have hm' := hperm.mem_iff.mp hf'
            rcases List.mem_cons.mp hm' with heq | h'
            · exfalso
              exact hbtoN (congrArg (fun t => t.2.2) heq)
            · exact ⟨f', P1 _ h'⟩
          · rw [List.mem_singleton] at hatoN
            subst hatoN
            have hbadj : (b, g.2.2) ∈ iadjGet adj a := by
              refine (hadj a b g.2.2).mpr ?_
              rcases ho with ⟨h1, h2⟩ | ⟨h1, h2⟩
              · left
                have hgeq : g = (a, b, g.2.2) := by
                  rw [← h1, ← h2]
                rw [← hgeq]
                exact hg
              · right
                have hgeq : g = (b, a, g.2.2) := by
                  rw [← h1, ← h2]
                rw [← hgeq]
                exact hg
            exact ⟨a, P3 b g.2.2 hbadj hb⟩
        have hmeas' : (primPush toN (visited ++ [toN])
            (mst ++ [(frm, toN)]) (tw + w) (iadjGet adj toN) pq').2.length +
            2 * E.length * (nodes.length - (visited ++ [toN]).length) <
            f := by
          have h1 : (visited ++ [toN]).length = visited.length + 1 := by
            simp
          have h3 : (iadjGet adj toN).length ≤ 2 * E.length := hbound toN
          obtain ⟨k, hk⟩ : ∃ k, nodes.length - visited.length = k + 1 :=
            ⟨nodes.length - visited.length - 1, by omega⟩
          have h5 : nodes.length - (visited ++ [toN]).length = k := by
            rw [h1]
            omega
          have h6 : 2 * E.length * (k + 1) =
              2 * E.length * k + 2 * E.length := by ring
          rw [hk, h6] at hmeas
          rw [h5]
          omega
        have hvnd' : (visited ++ [toN]).Nodup := by
          refine List.Nodup.append hvnd (List.nodup_singleton _) ?_
          intro x hx1 hx2
          rw [List.mem_singleton] at hx2
          exact htoNv (hx2 ▸ hx1)
        have hvsub' : ∀ z ∈ visited ++ [toN], z ∈ nodes := by
          intro z hz
          rcases List.mem_append.mp hz with h | h
          · exact hvsub z h
          · rw [List.mem_singleton] at h
            rw [h]
            exact htoN_nodes
        have hrv' : r ∈ visited ++ [toN] := List.mem_append_left _ hrv
        have hFM'' : ∀ g ∈ F ++ [e₀], g ∈ M' := by
          intro g hg
          rcases List.mem_append.mp hg with h | h
          · exact hFM' g h
          · rw [List.mem_singleton] at h
            rw [h]
            exact he₀M'
        obtain ⟨Ffin, Mfin, c1, c2, c3, c4, c5, c6, c7, c8, c9⟩ :=
          ih (primPush toN (visited ++ [toN]) (mst ++ [(frm, toN)])
              (tw + w) (iadjGet adj toN) pq').2
            (visited ++ [toN]) (mst ++ [(frm, toN)]) (tw + w)
            (F ++ [e₀]) M' hmeas' hvnd' hvsub' hrv' hV4' hFE' hFnd' hFw'
            hF3' hQ1' hQ2' hFM'' hM'E hM'span hM'nd hM'min
        refine ⟨Ffin, Mfin, c1, c2, c3, c4, c5, c6, c7, c8, ?_⟩
        rw [lastMStep_cons _ _ (by
          intro hcontra
          rw [List.append_eq_nil] at hcontra
          exact primLoop_ne_nil _ _ _ _ _ _ _ hcontra.2),
          lastMStep_append _ _ (primLoop_ne_nil _ _ _ _ _ _ _)]
        exact c9

theorem kruskal_min (arr : List Int)
    (h2 : 2 ≤ (genMstGraph arr).nodes.length)
    (hconn : ∀ z ∈ (genMstGraph arr).nodes,
      mReach (genMstGraph arr).edges ((genMstGraph arr).nodes.headD 0) z) :
    ∃ Mfin, (∀ g ∈ Mfin, g ∈ (genMstGraph arr).edges) ∧
      (∀ z ∈ (genMstGraph arr).nodes,
        mReach Mfin ((genMstGraph arr).nodes.headD 0) z) ∧ Mfin.Nodup ∧
      (∀ S, (∀ g ∈ S, g ∈ (genMstGraph arr).edges) →
        (∀ z ∈ (genMstGraph arr).nodes,
          mReach S ((genMstGraph arr).nodes.headD 0) z) →
        wsum Mfin ≤ wsum S) ∧
      (lastMStep (kruskal arr)).totalWeight = wsum Mfin := by
  have hnd := genMstGraph_nodes_nodup arr
  have harr : arr ≠ [] := by
    intro h
    subst h
    exact absurd h2 (by decide)
  have hne2 : ¬ ((sortedDedup arr).take 8).length < 2 := by
    rw [genMstGraph_nodes] at h2
    omega
  obtain ⟨hE, hadj, hbound, hkeys⟩ := genMstGraph_adjInv arr hne2
  have hnodesne : (genMstGraph arr).nodes ≠ [] := by
    intro h
    rw [h] at h2
    simp at h2
  have hrmem : (genMstGraph arr).nodes.headD 0 ∈ (genMstGraph arr).nodes := by
    cases hn : (genMstGraph arr).nodes with
    | nil => exact absurd hn hnodesne
    | cons a t =>
      simp
  have hedgesne : (genMstGraph arr).edges ≠ [] := by
    intro h
    cases hn : (genMstGraph arr).nodes with
    | nil => exact hnodesne hn
    | cons a rest =>
      cases hrest : rest with
      | nil =>
        rw [hn, hrest] at h2
        simp at h2
      | cons b t =>
        have hnd' := hnd
        rw [hn, hrest] at hnd'
        have hab : a ≠ b := by
          have h' := List.nodup_cons.mp hnd'
          exact fun he => h'.1 (he ▸ List.mem_cons_self b t)
        have hb : b ∈ (genMstGraph arr).nodes := by
          rw [hn, hrest]
          exact List.mem_cons_of_mem _ (List.mem_cons_self _ _)
        have ha : a ∈ (genMstGraph arr).nodes := by
          rw [hn, hrest]
          exact List.mem_cons_self _ _
        have hra := hconn a ha
        have hrb := hconn b hb
        rw [h] at hra hrb
        have e1 := mReach_nil _ _ hra
        have e2 := mReach_nil _ _ hrb
        exact hab (e1.symm.trans e2)
  have hku : kruskal arr = ⟨"start", [], [], 0⟩ ::
      kruskalLoop (genMstGraph arr).nodes.length
        (genMstGraph arr).nodes.length
        ((genMstGraph arr).edges.insertionSort (fun a b => a.2.2 ≤ b.2.2))
        (ufInit (genMstGraph arr).nodes) [] 0 := by
    simp only [kruskal]
    rw [if_neg harr, if_neg (by push_neg; exact ⟨hnodesne, hedgesne⟩)]
  haveI instTot : IsTotal (Int × Int × Nat) (fun a b => a.2.2 ≤ b.2.2) :=
    ⟨fun a b => Nat.le_total _ _⟩
  haveI instTrn : IsTrans (Int × Int × Nat) (fun a b => a.2.2 ≤ b.2.2) :=
    ⟨fun a b c h1 h2' => Nat.le_trans h1 h2'⟩
  have hsorted : List.Pairwise (fun a b : Int × Int × Nat => a.2.2 ≤ b.2.2)
      ((genMstGraph arr).edges.insertionSort (fun a b => a.2.2 ≤ b.2.2)) :=
    List.sorted_insertionSort _ _
  have hpermS := List.perm_insertionSort
    (fun a b : Int × Int × Nat => a.2.2 ≤ b.2.2) (genMstGraph arr).edges
  have hWf0 := UFWf_init (genMstGraph arr).nodes
  have hroot0 : ∀ z, ufRootD (genMstGraph arr).nodes.length
      (ufInit (genMstGraph arr).nodes) z = z :=
    fun z => ufRootD_of_root _ _ z (pgetU_init _ z)
  have hiff0 : ∀ a ∈ (genMstGraph arr).nodes, ∀ b ∈ (genMstGraph arr).nodes,
      (ufRootD (genMstGraph arr).nodes.length
        (ufInit (genMstGraph arr).nodes) a =
       ufRootD (genMstGraph arr).nodes.length
        (ufInit (genMstGraph arr).nodes) b ↔ mReach [] a b) := by
    intro a _ b _
    rw [hroot0 a, hroot0 b]
    constructor
    · intro h
      rw [h]
      exact Relation.ReflTransGen.refl
    · intro h
      exact mReach_nil a b h
  have hcount0 : ((genMstGraph arr).nodes.filter
      (fun z => decide (ufRootD (genMstGraph arr).nodes.length
        (ufInit (genMstGraph arr).nodes) z = z))).length +
      ([] : List (Int × Int)).length = (genMstGraph arr).nodes.length := by
    have hfe : (genMstGraph arr).nodes.filter
        (fun z => decide (ufRootD (genMstGraph arr).nodes.length
          (ufInit (genMstGraph arr).nodes) z = z)) =
        (genMstGraph arr).nodes :=
      List.filter_eq_self.mpr (fun a _ => by simp [hroot0 a])
    rw [hfe]
    simp
  obtain ⟨M0, hM0E, hM0span, hM0nd, hM0min⟩ :=
    min_span_exists (genMstGraph arr).nodes (genMstGraph arr).edges
      ((genMstGraph arr).nodes.headD 0) hconn
  obtain ⟨Ffin, Mfin, c1, c2, c3, c4, c5, c6, c7, c8, c9⟩ :=
    kruskalLoop_spec (genMstGraph arr).nodes (genMstGraph arr).edges
      ((genMstGraph arr).nodes.headD 0) hnd hrmem hE hconn
      ((genMstGraph arr).edges.insertionSort (fun a b => a.2.2 ≤ b.2.2))
      (ufInit (genMstGraph arr).nodes) [] 0 [] M0
      (fun g hg => hpermS.subset hg) hsorted
      (fun g hg => Or.inl (hpermS.mem_iff.mpr hg))
      (fun g hg => absurd hg (List.not_mem_nil g))
      List.nodup_nil rfl rfl hWf0 hiff0 hcount0
      (fun g hg => absurd hg (List.not_mem_nil g))
      hM0E hM0span hM0nd hM0min
  refine ⟨Mfin, c5, c6, c7, c8, ?_⟩
  rw [hku, lastMStep_cons _ _ (kruskalLoop_ne_nil _ _ _ _ _ _), c9]
  have hle1 : wsum Ffin ≤ wsum Mfin := wsum_le_of_subset Ffin Mfin c2 c4
  have hle2 : wsum Mfin ≤ wsum Ffin := c8 Ffin c1 c3
  omega

theorem prim_min (arr : List Int)
    (h2 : 2 ≤ (genMstGraph arr).nodes.length)
    (hconn : ∀ z ∈ (genMstGraph arr).nodes,
      mReach (genMstGraph arr).edges ((genMstGraph arr).nodes.headD 0) z) :
    ∃ Mfin, (∀ g ∈ Mfin, g ∈ (genMstGraph arr).edges) ∧
      (∀ z ∈ (genMstGraph arr).nodes,
        mReach Mfin ((genMstGraph arr).nodes.headD 0) z) ∧ Mfin.Nodup ∧
      (∀ S, (∀ g ∈ S, g ∈ (genMstGraph arr).edges) →
        (∀ z ∈ (genMstGraph arr).nodes,
          mReach S ((genMstGraph arr).nodes.headD 0) z) →
        wsum Mfin ≤ wsum S) ∧
      (lastMStep (prim arr)).totalWeight = wsum Mfin := by
  have hnd := genMstGraph_nodes_nodup arr
  have harr : arr ≠ [] := by
    intro h
    subst h
    exact absurd h2 (by decide)
  have hne2 : ¬ ((sortedDedup arr).take 8).length < 2 := by
    rw [genMstGraph_nodes] at h2
    omega
  obtain ⟨hE, hadj, hbound, hkeys⟩ := genMstGraph_adjInv arr hne2
  have hnodesne : (genMstGraph arr).nodes ≠ [] := by
    intro h
    rw [h] at h2
    simp at h2
  have hrmem : (genMstGraph arr).nodes.headD 0 ∈ (genMstGraph arr).nodes := by
    cases hn : (genMstGraph arr).nodes with
    | nil => exact absurd hn hnodesne
    | cons a t =>
      simp
  have hpu : prim arr = ⟨"start", [(genMstGraph arr).nodes.headD 0], [], 0⟩ ::
      primLoop (genMstGraph arr).adj (genMstGraph arr).nodes.length
        (2 * ((genMstGraph arr).nodes.length + 1) *
          ((genMstGraph arr).edges.length + (genMstGraph arr).nodes.length + 1))
        ((iadjGet (genMstGraph arr).adj ((genMstGraph arr).nodes.headD 0)).map
          (fun p => (p.2, (genMstGraph arr).nodes.headD 0, p.1)))
        [(genMstGraph arr).nodes.headD 0] [] 0 := by
    simp only [prim]
    rw [if_neg harr, if_neg hnodesne]
  have hmeas0 : ((iadjGet (genMstGraph arr).adj
        ((genMstGraph arr).nodes.headD 0)).map
        (fun p => (p.2, (genMstGraph arr).nodes.headD 0, p.1))).length +
      2 * (genMstGraph arr).edges.length *
        ((genMstGraph arr).nodes.length -
          ([(genMstGraph arr).nodes.headD 0] : List Int).length) <
      2 * ((genMstGraph arr).nodes.length + 1) *
        ((genMstGraph arr).edges.length + (genMstGraph arr).nodes.length +
          1) := by
    rw [List.length_map]
    have h3 := hbound ((genMstGraph arr).nodes.headD 0)
    obtain ⟨k, hk⟩ : ∃ k, (genMstGraph arr).nodes.length = k + 2 :=
      ⟨(genMstGraph arr).nodes.length - 2, by omega⟩
    have h1 : (genMstGraph arr).nodes.length -
        ([(genMstGraph arr).nodes.headD 0] : List Int).length = k + 1 := by
      simp [hk]
    rw [h1, hk]
    have e1 : 2 * (genMstGraph arr).edges.length * (k + 1) =
        2 * (genMstGraph arr).edges.length * k +
        2 * (genMstGraph arr).edges.length := by ring
    have e2 : 2 * (k + 2 + 1) *
        ((genMstGraph arr).edges.length + (k + 2) + 1) =
        2 * (genMstGraph arr).edges.length * k +
        6 * (genMstGraph arr).edges.length + 2 * k * k + 12 * k + 18 := by
      ring
    rw [e1, e2]
    omega
  have hV40 : ∀ z, z ∈ ([(genMstGraph arr).nodes.headD 0] : List Int) ↔
      mReach [] ((genMstGraph arr).nodes.headD 0) z := by
    intro z
    constructor
    · intro hz
      rw [List.mem_singleton] at hz
      rw [hz]
      exact Relation.ReflTransGen.refl
    · intro hz
      rw [List.mem_singleton]
      exact (mReach_nil _ _ hz).symm
  have hQ10 : ∀ e ∈ ((iadjGet (genMstGraph arr).adj
        ((genMstGraph arr).nodes.headD 0)).map
        (fun p => (p.2, (genMstGraph arr).nodes.headD 0, p.1))),
      e.2.1 ∈ ([(genMstGraph arr).nodes.headD 0] : List Int) ∧
      ((e.2.1, e.2.2, e.1) ∈ (genMstGraph arr).edges ∨
        (e.2.2, e.2.1, e.1) ∈ (genMstGraph arr).edges) := by
    intro e he
    obtain ⟨p, hp, hpe⟩ := List.mem_map.mp he
    subst hpe
    refine ⟨List.mem_singleton.mpr rfl, ?_⟩
    exact (hadj ((genMstGraph arr).nodes.headD 0) p.1 p.2).mp hp
  have hQ20 : ∀ g ∈ (genMstGraph arr).edges, ∀ a b : Int,
      ((g.1 = a ∧ g.2.1 = b) ∨ (g.1 = b ∧ g.2.1 = a)) →
      a ∈ ([(genMstGraph arr).nodes.headD 0] : List Int) →
      b ∉ ([(genMstGraph arr).nodes.headD 0] : List Int) →
      ∃ f', (g.2.2, f', b) ∈ ((iadjGet (genMstGraph arr).adj
        ((genMstGraph arr).nodes.headD 0)).map
        (fun p => (p.2, (genMstGraph arr).nodes.headD 0, p.1))) := by
    intro g hg a b ho ha hb
    rw [List.mem_singleton] at ha
    have hbadj : (b, g.2.2) ∈ iadjGet (genMstGraph arr).adj
        ((genMstGraph arr).nodes.headD 0) := by
      rw [← ha]
      refine (hadj a b g.2.2).mpr ?_
      rcases ho with ⟨h1, h2⟩ | ⟨h1, h2⟩
      · left
        have hgeq : g = (a, b, g.2.2) := by
          rw [← h1, ← h2]
        rw [← hgeq]
        exact hg
      · right
        have hgeq : g = (b, a, g.2.2) := by
          rw [← h1, ← h2]
        rw [← hgeq]
        exact hg
    exact ⟨(genMstGraph arr).nodes.headD 0,
      List.mem_map.mpr ⟨(b, g.2.2), hbadj, rfl⟩⟩
  obtain ⟨M0, hM0E, hM0span, hM0nd, hM0min⟩ :=
    min_span_exists (genMstGraph arr).nodes (genMstGraph arr).edges
      ((genMstGraph arr).nodes.headD 0) hconn
  obtain ⟨Ffin, Mfin, c1, c2, c3, c4, c5, c6, c7, c8, c9⟩ :=
    primLoop_spec (genMstGraph arr).nodes (genMstGraph arr).edges
      (genMstGraph arr).adj ((genMstGraph arr).nodes.headD 0) hnd hrmem hE
      hconn hadj hbound
      (2 * ((genMstGraph arr).nodes.length + 1) *
        ((genMstGraph arr).edges.length + (genMstGraph arr).nodes.length + 1))
      ((iadjGet (genMstGraph arr).adj ((genMstGraph arr).nodes.headD 0)).map
        (fun p => (p.2, (genMstGraph arr).nodes.headD 0, p.1)))
      [(genMstGraph arr).nodes.headD 0] [] 0 [] M0
      hmeas0 (List.nodup_singleton _)
      (fun z hz => by
        rw [List.mem_singleton] at hz
        rw [hz]
        exact hrmem)
      (List.mem_singleton.mpr rfl) hV40
      (fun g hg => absurd hg (List.not_mem_nil g))
      List.nodup_nil rfl
      (fun g hg => absurd hg (List.not_mem_nil g))
      hQ10 hQ20
      (fun g hg => absurd hg (List.not_mem_nil g))
      hM0E hM0span hM0nd hM0min
  refine ⟨Mfin, c5, c6, c7, c8, ?_⟩
  rw [hpu, lastMStep_cons _ _ (primLoop_ne_nil _ _ _ _ _ _ _), c9]
  have hle1 : wsum Ffin ≤ wsum Mfin := wsum_le_of_subset Ffin Mfin c2 c4
  have hle2 : wsum Mfin ≤ wsum Ffin := c8 Ffin c1 c3
  omega

/-- **C6**: on every input array for which the shared `_generate_graph`
produces a (at least two-node) connected weighted graph, the total weight
reported in `kruskal`'s terminal `done` step equals the total weight
reported in `prim`'s terminal `done` step, and both equal the minimum
total weight over all connected spanning edge-subsets of that graph (the
minimum spanning tree weight); the witnessing subset `T` attains it and
every spanning subset `S` weighs at least as much. -/
theorem kruskal_prim_equal_total_weight (arr : List Int)
    (h2 : 2 ≤ (genMstGraph arr).nodes.length)
    (hconn : ∀ z ∈ (genMstGraph arr).nodes,
      mReach (genMstGraph arr).edges ((genMstGraph arr).nodes.headD 0) z) :
    ∃ W,
      (lastMStep (kruskal arr)).totalWeight = W ∧
      (lastMStep (prim arr)).totalWeight = W ∧
      (∃ T, (∀ g ∈ T, g ∈ (genMstGraph arr).edges) ∧
        (∀ z ∈ (genMstGraph arr).nodes,
          mReach T ((genMstGraph arr).nodes.headD 0) z) ∧ T.Nodup ∧
        wsum T = W) ∧
      (∀ S, (∀ g ∈ S, g ∈ (genMstGraph arr).edges) →
        (∀ z ∈ (genMstGraph arr).nodes,
          mReach S ((genMstGraph arr).nodes.headD 0) z) →
        W ≤ wsum S) := by
  obtain ⟨Mk, k1, k2, k3, k4, k5⟩ := kruskal_min arr h2 hconn
  obtain ⟨Mp, p1, p2, p3, p4, p5⟩ := prim_min arr h2 hconn
  have heq : wsum Mk = wsum Mp :=
    le_antisymm (k4 Mp p1 p2) (p4 Mk k1 k2)
  exact ⟨wsum Mk, k5, by rw [p5, heq], ⟨Mk, k1, k2, k3, rfl⟩, k4⟩

theorem kruskal_prim_equal_total_weight_witness :
    2 ≤ (genMstGraph [1, 2]).nodes.length ∧
    (∃ W,
      (lastMStep (kruskal [1, 2])).totalWeight = W ∧
      (lastMStep (prim [1, 2])).totalWeight = W ∧
      (∃ T, (∀ g ∈ T, g ∈ (genMstGraph [1, 2]).edges) ∧
        (∀ z ∈ (genMstGraph [1, 2]).nodes,
          mReach T ((genMstGraph [1, 2]).nodes.headD 0) z) ∧ T.Nodup ∧
        wsum T = W) ∧
      (∀ S, (∀ g ∈ S, g ∈ (genMstGraph [1, 2]).edges) →
        (∀ z ∈ (genMstGraph [1, 2]).nodes,
          mReach S ((genMstGraph [1, 2]).nodes.headD 0) z) →
        W ≤ wsum S)) := by
  constructor
  · decide
  · refine kruskal_prim_equal_total_weight [1, 2] (by decide) ?_
    intro z hz
    have hn : (genMstGraph [1, 2]).nodes = [1, 2] := by decide
    have he : (genMstGraph [1, 2]).edges = [(1, 2, 2)] := by decide
    rw [hn] at hz
    rw [he, hn]
    rcases List.mem_cons.mp hz with rfl | hz'
    · exact Relation.ReflTransGen.refl
    · rcases List.mem_cons.mp hz' with rfl | hz''
      · exact Relation.ReflTransGen.single
          ⟨2, Or.inl (List.mem_singleton.mpr rfl)⟩
      · exact absurd hz'' (List.not_mem_nil _)
